import Mathlib

/-!
# Subtitle editor: playback mapping, row heights, row drag-and-drop and subtitle utilities

A shallow embedding of the editing core of the subtitle application
(`src/components/LyricsDisplay.js`, `src/components/lyrics/LyricItem.js`,
`src/components/OutputContainer.js`, `src/components/previews/VideoPreview.js`)
and of its utilities (`src/utils/subtitleUtils.js`, `src/utils/timeUtils.js`,
`src/utils/structuredJsonParser.js`, the chunking of
`src/services/geminiService.js`).

Conventions of the embedding.

* A JavaScript string is the list of its UTF-16 code units (`JSString`), so that
  `text.length` is `List.length`.
* Times are JavaScript numbers. A finite number is modelled by an exact rational
  (`ℚ`); NaN and the infinities are values of `JS.Number`. Where the rounding of
  an arithmetic result to a double changes what the code does
  (`formatSecondsToMMmSSsNNNms`), it is applied with `JS.roundToDouble`;
  elsewhere the rounding of doubles is not modelled.
* A handler that calls the callbacks it received as props returns the list of
  the calls it made, in call order.
-/

/-! ## Definitions -/

/-- A JavaScript string: its sequence of UTF-16 code units. -/
abbrev JSString := List Nat

/-- The UTF-16 code units of a Lean string (used to write string literals). -/
def utf16 (s : String) : JSString :=
  s.toList.flatMap fun c =>
    if c.toNat < 0x10000 then [c.toNat]
    else [0xD800 + (c.toNat - 0x10000) / 0x400, 0xDC00 + (c.toNat - 0x10000) % 0x400]

/-- A subtitle entry `{id, start, end, text}`; `text` may be missing. -/
structure Lyric where
  id : Nat
  start : ℚ
  «end» : ℚ
  text : Option JSString
  deriving DecidableEq

namespace JS

/-- Worker of `findIndex`: scan from position `i`. -/
def findIndexFrom {α : Type} (p : α → Nat → Bool) : List α → Nat → Int
  | [], _ => -1
  | x :: xs, i => if p x i then (i : Int) else findIndexFrom p xs (i + 1)

/-- The method `Array.prototype.findIndex` with an `(element, index)` callback:
the first index whose element satisfies the callback, `-1` when there is none. -/
def findIndex {α : Type} (p : α → Nat → Bool) (xs : List α) : Int :=
  findIndexFrom p xs 0

/-- The method `String.prototype.split` for a separator of one code unit. -/
def split (sep : Nat) : JSString → List JSString
  | [] => [[]]
  | c :: cs =>
    if c = sep then [] :: split sep cs
    else
      match split sep cs with
      | [] => [[c]]
      | piece :: pieces => (c :: piece) :: pieces

/-- A JavaScript number: NaN, an infinity, or a finite value. A finite value is
an exact rational: the rounding of a result to a double is applied where it is
written (`roundToDouble`), overflow and underflow of doubles are not modelled,
and `-0` is `0`. -/
inductive Number where
  | nan
  | posInf
  | negInf
  | finite (q : ℚ)
  deriving DecidableEq

/-- A JavaScript value of the kinds that `JSON.parse` and a property read can
produce. An object is the list of its own properties in insertion order (a later
entry with the same key overrides an earlier one). -/
inductive Value where
  | undefined
  | null
  | bool (b : Bool)
  | number (x : Number)
  | string (s : JSString)
  | array (elements : List Value)
  | object (properties : List (JSString × Value))

/-- The number value of a non-negative integer. -/
def Value.ofNat (n : Nat) : Value := .number (.finite n)

/-- WhiteSpace and LineTerminator code units: what `String.prototype.trim`,
`parseInt` and the string-to-number conversion strip. -/
def isStrWhiteSpace (c : Nat) : Bool :=
  c = 9 || c = 10 || c = 11 || c = 12 || c = 13 || c = 32 || c = 0xA0 || c = 0x1680 ||
    (0x2000 ≤ c && c ≤ 0x200A) || c = 0x2028 || c = 0x2029 || c = 0x202F || c = 0x205F ||
    c = 0x3000 || c = 0xFEFF

/-- The method `String.prototype.trim`. -/
def trim (s : JSString) : JSString :=
  ((s.dropWhile isStrWhiteSpace).reverse.dropWhile isStrWhiteSpace).reverse

/-- A decimal digit `0`..`9`. -/
def isDigit (c : Nat) : Bool := 48 ≤ c && c ≤ 57

/-- The value of a string of decimal digits. -/
def digitsValue (ds : List Nat) : Nat := ds.foldl (fun acc d => 10 * acc + (d - 48)) 0

/-- The value of a digit in a radix up to 16, if it is one. -/
def digitInRadix (radix c : Nat) : Option Nat :=
  let v := if 48 ≤ c && c ≤ 57 then some (c - 48)
    else if 97 ≤ c && c ≤ 102 then some (c - 87)
    else if 65 ≤ c && c ≤ 70 then some (c - 55)
    else none
  v.bind fun d => if d < radix then some d else none

/-- The value of a non-empty string of digits in the given radix. -/
def radixValue (radix : Nat) (ds : List Nat) : Option Nat :=
  if ds = [] then none
  else ds.foldl (fun acc c => acc.bind fun a => (digitInRadix radix c).map fun d => radix * a + d)
    (some 0)

/-- The function `parseInt(string, 10)`: leading white space is skipped, a sign is
read, and the longest prefix of decimal digits is the value; NaN without a digit. -/
def parseInt (s : JSString) : Number :=
  let s := s.dropWhile isStrWhiteSpace
  let (negative, s) :=
    match s with
    | 45 :: rest => (true, rest)
    | 43 :: rest => (false, rest)
    | _ => (false, s)
  let digits := s.takeWhile isDigit
  if digits = [] then .nan
  else if negative then .finite (-(digitsValue digits : ℚ))
  else .finite (digitsValue digits : ℚ)

/-- Read `digits [. digits]` or `. digits` with an optional exponent part; the
whole input must be consumed. Shared by the decimal literals of the
string-to-number conversion. -/
def unsignedDecimal (s : JSString) : Option ℚ :=
  let intDigits := s.takeWhile isDigit
  let s1 := s.dropWhile isDigit
  let (fracDigits, s2) :=
    match s1 with
    | 46 :: rest => (rest.takeWhile isDigit, rest.dropWhile isDigit)
    | _ => ([], s1)
  if intDigits = [] && fracDigits = [] then none
  else
    let mantissa : ℚ :=
      (digitsValue intDigits : ℚ) + (digitsValue fracDigits : ℚ) / 10 ^ fracDigits.length
    match s2 with
    | [] => some mantissa
    | e :: rest =>
      if e = 101 || e = 69 then
        let (expNegative, rest) :=
          match rest with
          | 45 :: r => (true, r)
          | 43 :: r => (false, r)
          | _ => (false, rest)
        if rest ≠ [] && rest.all isDigit then
          if expNegative then some (mantissa / 10 ^ digitsValue rest)
          else some (mantissa * 10 ^ digitsValue rest)
        else none
      else none

/-- The abstract operation StringToNumber: white space is trimmed, the empty
string is 0, and the rest must be a numeric literal (decimal with optional sign,
`Infinity` with optional sign, or an unsigned hexadecimal, octal or binary
integer); anything else is NaN. -/
def stringToNumber (s : JSString) : Number :=
  let s := trim s
  let infinity : JSString := [73, 110, 102, 105, 110, 105, 116, 121]
  match s with
  | [] => .finite 0
  | 48 :: x :: rest =>
    if x = 120 || x = 88 then (radixValue 16 rest).elim .nan fun n => .finite n
    else if x = 111 || x = 79 then (radixValue 8 rest).elim .nan fun n => .finite n
    else if x = 98 || x = 66 then (radixValue 2 rest).elim .nan fun n => .finite n
    else (unsignedDecimal s).elim .nan .finite
  | 45 :: rest =>
    if rest = infinity then .negInf
    else (unsignedDecimal rest).elim .nan fun q => .finite (-q)
  | 43 :: rest =>
    if rest = infinity then .posInf
    else (unsignedDecimal rest).elim .nan .finite
  | _ =>
    if s = infinity then .posInf
    else (unsignedDecimal s).elim .nan .finite

/-- The text of a non-negative integer (`Number::toString` below 10^21): its
decimal digits, most significant first. -/
def natToString (n : Nat) : JSString :=
  if n = 0 then [48] else (Nat.digits 10 n).reverse.map (· + 48)

/-- Whether a property list has an own property with the given key. -/
def hasOwn (properties : List (JSString × Value)) (key : JSString) : Bool :=
  properties.any fun p => p.1 == key

mutual
/-- Whether converting the value to a string throws a TypeError: an object made
by `JSON.parse` inherits a callable `toString` unless it has an own property of
that name (never callable), in which case no conversion method is usable. -/
def Value.toStringThrows : Value → Bool
  | .array elements => Value.anyToStringThrows elements
  | .object properties => hasOwn properties [116, 111, 83, 116, 114, 105, 110, 103]
  | _ => false
/-- Whether the conversion of some element of the list throws. -/
def Value.anyToStringThrows : List Value → Bool
  | [] => false
  | v :: vs => Value.toStringThrows v || Value.anyToStringThrows vs
end

mutual
/-- The number that the text of an array element converts to, when the element
stands alone in `Array.prototype.join`: `null` and `undefined` give the empty
text, a number gives its own value, `true`, `false` and objects give text that
is not numeric. `none` is a thrown TypeError. -/
def Value.elementToNumber : Value → Option Number
  | .undefined => some (.finite 0)
  | .null => some (.finite 0)
  | .bool _ => some .nan
  | .number x => some x
  | .string s => some (stringToNumber s)
  | .array elements => Value.arrayToNumber elements
  | .object properties =>
    if hasOwn properties [116, 111, 83, 116, 114, 105, 110, 103] then none else some .nan
/-- The number that an array converts to through its joined text: the empty
array gives 0, one element gives what its text gives, and two or more elements
give text with a comma, which is not numeric. -/
def Value.arrayToNumber : List Value → Option Number
  | [] => some (.finite 0)
  | [v] => Value.elementToNumber v
  | v :: w :: vs => if Value.anyToStringThrows (v :: w :: vs) then none else some .nan
end

/-- The abstract operation ToNumber after ToPrimitive with hint number, as applied
by `<` to an operand compared with a number. `none` is a thrown TypeError. -/
def Value.toNumber : Value → Option Number
  | .undefined => some .nan
  | .null => some (.finite 0)
  | .bool b => some (.finite (if b then 1 else 0))
  | .number x => some x
  | .string s => some (stringToNumber s)
  | .array elements => Value.arrayToNumber elements
  | .object properties =>
    if hasOwn properties [116, 111, 83, 116, 114, 105, 110, 103] then none else some .nan

/-- The comparison `x === n` of a number with a non-negative integer `n`. -/
def Number.strictEquals (x : Number) (n : Nat) : Bool :=
  match x with
  | .finite q => decide (q = (n : ℚ))
  | _ => false

/-- The comparison `x < n` of a number with a non-negative integer `n`; false
for NaN. -/
def Number.lessThan (x : Number) (n : Nat) : Bool :=
  match x with
  | .nan => false
  | .posInf => false
  | .negInf => true
  | .finite q => decide (q < (n : ℚ))

/-- The comparison `value === n` for a non-negative integer `n`: true exactly for
the number `n`. -/
def strictEquals (v : Value) (n : Nat) : Bool :=
  match v with
  | .number x => x.strictEquals n
  | _ => false

/-- The comparison `value < n` for a non-negative integer `n`: the left operand
is converted to a number. `none` is a thrown TypeError. -/
def lessThan (v : Value) (n : Nat) : Option Bool :=
  v.toNumber.map fun x => x.lessThan n

/-- The property read `value.index`. It throws (`none`) on `null` and
`undefined`; primitives and arrays have no such property; an object gives its
own property of that name, if any. -/
def Value.index : Value → Option Value
  | .undefined => none
  | .null => none
  | .object properties =>
    match properties.reverse.find? fun p => p.1 == [105, 110, 100, 101, 120] with
    | some p => some p.2
    | none => some .undefined
  | _ => some .undefined

namespace JSON

/-- JSON white space: tab, line feed, carriage return, space. -/
def isWhiteSpace (c : Nat) : Bool := c = 9 || c = 10 || c = 13 || c = 32

/-- Skip JSON white space. -/
def skipWhiteSpace (s : JSString) : JSString := s.dropWhile isWhiteSpace

/-- A JSON number at the head of the input: `-? (0 | [1-9][0-9]*) (. [0-9]+)?
([eE] [+-]? [0-9]+)?`. The result is the value and the rest of the input. -/
def parseNumber (s : JSString) : Option (ℚ × JSString) :=
  let (negative, s) :=
    match s with
    | 45 :: rest => (true, rest)
    | _ => (false, s)
  let intPart : Option (Nat × JSString) :=
    match s with
    | [] => none
    | d :: rest =>
      if d = 48 then some (0, rest)
      else if isDigit d then some (digitsValue (s.takeWhile isDigit), s.dropWhile isDigit)
      else none
  intPart.bind fun (int, s) =>
    let fracPart : Option (ℚ × JSString) :=
      match s with
      | 46 :: rest =>
        let digits := rest.takeWhile isDigit
        if digits = [] then none
        else some ((digitsValue digits : ℚ) / 10 ^ digits.length, rest.dropWhile isDigit)
      | _ => some (0, s)
    fracPart.bind fun (frac, s) =>
      let mantissa : ℚ := (int : ℚ) + frac
      let scaled : Option (ℚ × JSString) :=
        match s with
        | [] => some (mantissa, s)
        | e :: rest =>
          if e = 101 || e = 69 then
            let (expNegative, rest) :=
              match rest with
              | 45 :: r => (true, r)
              | 43 :: r => (false, r)
              | _ => (false, rest)
            let digits := rest.takeWhile isDigit
            if digits = [] then none
            else if expNegative then
              some (mantissa / 10 ^ digitsValue digits, rest.dropWhile isDigit)
            else some (mantissa * 10 ^ digitsValue digits, rest.dropWhile isDigit)
          else some (mantissa, s)
      scaled.map fun (value, s) => (if negative then -value else value, s)

/-- The value of four hexadecimal digits. -/
def hex4 (a b c d : Nat) : Option Nat :=
  (digitInRadix 16 a).bind fun a => (digitInRadix 16 b).bind fun b =>
    (digitInRadix 16 c).bind fun c => (digitInRadix 16 d).map fun d =>
      ((a * 16 + b) * 16 + c) * 16 + d

/-- The characters of a JSON string after its opening quote, up to the closing
quote: the result is the string value and the input after the closing quote. -/
def parseStringBody : JSString → Option (JSString × JSString)
  | [] => none
  | 34 :: rest => some ([], rest)
  | 92 :: 117 :: a :: b :: c :: d :: rest =>
    (hex4 a b c d).bind fun u => (parseStringBody rest).map fun (str, r) => (u :: str, r)
  | 92 :: e :: rest =>
    let unescaped : Option Nat :=
      if e = 34 then some 34 else if e = 92 then some 92 else if e = 47 then some 47
      else if e = 98 then some 8 else if e = 102 then some 12 else if e = 110 then some 10
      else if e = 114 then some 13 else if e = 116 then some 9 else none
    unescaped.bind fun u => (parseStringBody rest).map fun (str, r) => (u :: str, r)
  | c :: rest =>
    if c < 32 || c = 92 then none
    else (parseStringBody rest).map fun (str, r) => (c :: str, r)

mutual
/-- A JSON value at the head of the input (after white space); the fuel bounds
the nesting of the recursion. -/
def parseValue : Nat → JSString → Option (Value × JSString)
  | 0, _ => none
  | fuel + 1, s =>
    match skipWhiteSpace s with
    | 110 :: 117 :: 108 :: 108 :: rest => some (.null, rest)
    | 116 :: 114 :: 117 :: 101 :: rest => some (.bool true, rest)
    | 102 :: 97 :: 108 :: 115 :: 101 :: rest => some (.bool false, rest)
    | 34 :: rest => (parseStringBody rest).map fun (str, r) => (.string str, r)
    | 91 :: rest =>
      match skipWhiteSpace rest with
      | 93 :: r => some (.array [], r)
      | _ => (parseElements fuel rest).map fun (vs, r) => (.array vs, r)
    | 123 :: rest =>
      match skipWhiteSpace rest with
      | 125 :: r => some (.object [], r)
      | _ => (parseMembers fuel rest).map fun (ps, r) => (.object ps, r)
    | s => (parseNumber s).map fun (q, r) => (.number (.finite q), r)
/-- The elements of a non-empty array, up to the closing bracket. -/
def parseElements : Nat → JSString → Option (List Value × JSString)
  | 0, _ => none
  | fuel + 1, s =>
    (parseValue fuel s).bind fun (v, rest) =>
      match skipWhiteSpace rest with
      | 44 :: r => (parseElements fuel r).map fun (vs, r) => (v :: vs, r)
      | 93 :: r => some ([v], r)
      | _ => none
/-- The members of a non-empty object, up to the closing brace. -/
def parseMembers : Nat → JSString → Option (List (JSString × Value) × JSString)
  | 0, _ => none
  | fuel + 1, s =>
    match skipWhiteSpace s with
    | 34 :: rest =>
      (parseStringBody rest).bind fun (key, rest) =>
        match skipWhiteSpace rest with
        | 58 :: rest =>
          (parseValue fuel rest).bind fun (v, rest) =>
            match skipWhiteSpace rest with
            | 44 :: r => (parseMembers fuel r).map fun (ps, r) => ((key, v) :: ps, r)
            | 125 :: r => some ([(key, v)], r)
            | _ => none
        | _ => none
    | _ => none
end

/-- The function `JSON.parse(text)` without reviver; `none` is a thrown
SyntaxError. The fuel given to `parseValue` is never exhausted (`parse_fuel`). -/
def parse (text : JSString) : Option Value :=
  (parseValue (2 * text.length + 2) text).bind fun (v, rest) =>
    if skipWhiteSpace rest = [] then some v else none

end JSON

end JS

namespace LyricsDisplay

/-- The constant `currentIndex` of `LyricsDisplay` (lines 181-186):
`lyrics.findIndex((lyric, index) => { const nextLyric = lyrics[index + 1];
return currentTime >= lyric.start &&
(nextLyric ? currentTime < nextLyric.start : currentTime <= lyric.end); })`. -/
def currentIndex (lyrics : List Lyric) (currentTime : ℚ) : Int :=
  JS.findIndex (fun lyric index =>
    let nextLyric := lyrics[index + 1]?
    decide (currentTime ≥ lyric.start) &&
      (match nextLyric with
       | some nextLyric => decide (currentTime < nextLyric.start)
       | none => decide (currentTime ≤ lyric.«end»))) lyrics

/-- Row `i` is active at time `t` in the sense of the code: `t` is not before the
start of row `i`, and either a next row exists and `t` is before its start, or
row `i` is the last one and `t` is not after its end. -/
def ActiveAt (lyrics : List Lyric) (t : ℚ) (i : Nat) : Prop :=
  ∃ lyric, lyrics[i]? = some lyric ∧ lyric.start ≤ t ∧
    ((∃ next, lyrics[i + 1]? = some next ∧ t < next.start) ∨
      (lyrics[i + 1]? = none ∧ t ≤ lyric.«end»))

/-- Row `i` is active at time `t` in the sense of the specification text: `t` is
not before the start of row `i`, and row `i` is the last one or `t` is before the
start of row `i + 1`. -/
def SpecActiveAt (lyrics : List Lyric) (t : ℚ) (i : Nat) : Prop :=
  ∃ lyric, lyrics[i]? = some lyric ∧ lyric.start ≤ t ∧
    (lyrics[i + 1]? = none ∨ ∃ next, lyrics[i + 1]? = some next ∧ t < next.start)

/-- The list of the active-index scenarios: `(start, end)` = (0,2), (2,5), (5,8). -/
def scenario : List Lyric :=
  [⟨1, 0, 2, none⟩, ⟨2, 2, 5, none⟩, ⟨3, 5, 8, none⟩]

/-- The ref `rowHeights`: an object used as a map from row index to height. -/
abbrev RowHeights := Nat → Option Int

/-- The empty object `{}`. -/
def RowHeights.empty : RowHeights := fun _ => none

/-- The assignment `rowHeights.current[index] = height`. -/
def RowHeights.set (m : RowHeights) (index : Nat) (height : Int) : RowHeights :=
  fun j => if j = index then some height else m j

/-- The function `getRowHeight` of `LyricsDisplay` (lines 110-132). It reads the
prop `matchedLyrics` and the ref `rowHeights`; the result is the returned height
together with the ref after the call. -/
def getRowHeight (matchedLyrics : List Lyric) (rowHeights : RowHeights) (index : Nat) :
    Int × RowHeights :=
  match rowHeights index with
  | some cached => (cached, rowHeights)
  | none =>
    match matchedLyrics[index]? with
    | none => (50, rowHeights)
    | some lyric =>
      let text : JSString := lyric.text.getD []
      let lineCount : Int := (JS.split 10 text).length
      let estimatedLines : Int := ⌈(text.length : ℚ) / 40⌉
      let lines := max lineCount estimatedLines
      let height : Int := 50 + (if lines > 1 then (lines - 1) * 20 else 0)
      (height, rowHeights.set index height)

/-- The number of display lines in the words of the specification:
`max(count of '\n' in text + 1, ceil(textLength / 40))`. -/
def specLines (text : JSString) : Int :=
  max ((text.count 10 : Int) + 1) ⌈(text.length : ℚ) / 40⌉

/-- The height heuristic in the words of the specification:
`baseHeight (50px) + max(0, lines - 1) * 20px`, on the row's text (empty when the
text is missing). -/
def heuristicHeight (lyric : Lyric) : Int :=
  50 + max 0 (specLines (lyric.text.getD []) - 1) * 20

/-- The part of the component state that the row-height cache depends on: the
prop `matchedLyrics`, the ref `rowHeights`, and whether `matchedLyrics` has been
replaced since the effect that resets the ref (lines 135-140) last ran, that is,
whether a run of that effect is still to come for the list that is now
rendered. -/
structure HeightState where
  matchedLyrics : List Lyric
  rowHeights : RowHeights
  changedSinceReset : Bool

/-- What can happen to the cache: the component is rendered with a new
`matchedLyrics` list, the effect with the dependency `[matchedLyrics]` runs, or
the list view asks for the height of a row. -/
inductive HeightEvent where
  | replaceLyrics (newLyrics : List Lyric)
  | resetEffect
  | rowHeight (index : Nat)

/-- The state at mount: `useRef({})` with the first `matchedLyrics`. The effect
runs after the mount too; that run is a `resetEffect` event like the others. -/
def HeightState.init (matchedLyrics : List Lyric) : HeightState :=
  { matchedLyrics := matchedLyrics, rowHeights := RowHeights.empty, changedSinceReset := false }

/-- One step. A render with a new `matchedLyrics` changes the list that
`getRowHeight` reads and leaves the ref as it is: the effect of lines 135-140
runs only after that render. The effect sets `rowHeights.current = {}`. A height
request runs `getRowHeight` against the current list and keeps its cache. -/
def HeightState.step (s : HeightState) : HeightEvent → HeightState
  | .replaceLyrics newLyrics =>
    { matchedLyrics := newLyrics, rowHeights := s.rowHeights, changedSinceReset := true }
  | .resetEffect => { s with rowHeights := RowHeights.empty, changedSinceReset := false }
  | .rowHeight index =>
    { s with rowHeights := (getRowHeight s.matchedLyrics s.rowHeights index).2 }

/-- The state after a sequence of events. -/
def HeightState.run (s : HeightState) (events : List HeightEvent) : HeightState :=
  events.foldl HeightState.step s

/-- Cache coherence: every cached height is the heuristic height of the row of
the current list at that index. -/
def HeightState.Coherent (s : HeightState) : Prop :=
  ∀ i h, s.rowHeights i = some h →
    ∃ lyric, s.matchedLyrics[i]? = some lyric ∧ h = heuristicHeight lyric

end LyricsDisplay

namespace LyricItem

/-- A call of one of the callback props of `LyricItem`, with its arguments. -/
inductive Call where
  | onTextEdit (index : Nat) (text : Option JSString)
  | onMove (fromIndex : JS.Value) (toIndex : Nat)
  | onMerge (index : JS.Value)
  | onLyricClick (time : ℚ)
  | onInsert (afterIndex : Int)

/-- The drop zones of a row. -/
inductive Zone where
  | top
  | middle
  | bottom
  deriving DecidableEq

/-- The handler `onDragStart` (lines 333-348) of the row `index`: the text it
stores with `e.dataTransfer.setData('text/plain', ...)`, which is
`JSON.stringify({index, type})` with `type` = `'move'` when the Shift key is
held and `'merge'` otherwise; `none` when the drag is prevented at the guard. -/
def onDragStart (allowEditing isEditing shiftKey : Bool) (index : Nat) : Option JSString :=
  if !allowEditing || isEditing then none
  else
    some (utf16 "\x7b\"index\":" ++ JS.natToString index ++ utf16 ",\"type\":\"" ++
      (if shiftKey then utf16 "move" else utf16 "merge") ++ utf16 "\"\x7d")

/-- The handler `onDragOver` (lines 355-368), with `offsetY = e.clientY - rect.top`
and `height = rect.height`: the zone it passes to `setDropZone`, or `none` when it
returns at its guard. -/
def onDragOver (allowEditing isEditing : Bool) (offsetY height : ℚ) : Option Zone :=
  if !allowEditing || isEditing then none
  else
    some (if offsetY < height * 0.25 then .top
      else if offsetY > height * 0.75 then .bottom
      else .middle)

/-- The local `zone` of the handler `onDrop` (lines 377-383). -/
def onDrop.zone (offsetY height : ℚ) : Zone :=
  if offsetY < height * 0.25 then .top
  else if offsetY > height * 0.75 then .bottom
  else .middle

/-- The handler `onDrop` (lines 373-419) of the row `index`, with the drag data
`data = e.dataTransfer.getData('text/plain')`: the callback calls it makes. The
callbacks are taken not to throw. -/
def onDrop (allowEditing isEditing : Bool) (offsetY height : ℚ) (data : JSString)
    (index : Nat) : List Call :=
  if !allowEditing || isEditing then []
  else
    let zone := onDrop.zone offsetY height
    -- the `try` block; `none` when it throws
    let attempt : Option (List Call) :=
      (JS.JSON.parse data).bind fun dragData =>
        dragData.index.bind fun fromIndex =>
          let toIndex := index
          if JS.strictEquals fromIndex toIndex then some []
          else
            match zone with
            | .top => some [.onMove fromIndex toIndex]
            | .bottom =>
              (JS.lessThan fromIndex toIndex).map fun less =>
                [.onMove fromIndex (toIndex + (if less then 0 else 1))]
            | .middle =>
              (JS.lessThan fromIndex toIndex).map fun less =>
                if less then [.onMerge fromIndex] else [.onMerge (JS.Value.ofNat toIndex)]
    match attempt with
    | some calls => calls
    | none =>
      -- the `catch` block
      let fromIndex := JS.parseInt data
      let toIndex := index
      if fromIndex.strictEquals toIndex then []
      else
        match zone with
        | .top => [.onMove (.number fromIndex) toIndex]
        | .bottom =>
          [.onMove (.number fromIndex) (toIndex + (if fromIndex.lessThan toIndex then 0 else 1))]
        | .middle =>
          if fromIndex.lessThan toIndex then [.onMerge (.number fromIndex)]
          else [.onMerge (JS.Value.ofNat toIndex)]

/-- The requests of a drop of row `from` on row `to` in the words of the
specification: zone `top` gives `Move(from, to)`; zone `bottom` gives
`Move(from, to + (from < to ? 0 : 1))`; zone `middle` gives a merge at `from` if
`from < to`, else at `to`; dropping onto one's own index is a no-op. -/
def specDrop (zone : Zone) (fromIndex toIndex : Nat) : List Call :=
  if fromIndex = toIndex then []
  else
    match zone with
    | .top => [.onMove (JS.Value.ofNat fromIndex) toIndex]
    | .bottom =>
      [.onMove (JS.Value.ofNat fromIndex) (toIndex + (if fromIndex < toIndex then 0 else 1))]
    | .middle =>
      if fromIndex < toIndex then [.onMerge (JS.Value.ofNat fromIndex)]
      else [.onMerge (JS.Value.ofNat toIndex)]

/-- The props of `LyricItem` that its edit handlers read. A callback prop is
recorded by whether it was passed. -/
structure Props where
  lyric : Lyric
  index : Nat
  isCurrentLyric : Bool
  allowEditing : Bool
  hasNextLyric : Bool
  onTextEdit : Bool
  onUpdateLyrics : Bool

/-- The helper `parseTimeInput` (lines 120-127): the text must match
`/^(\d{2}):(\d{2})\.(\d{2})$/`; the result is `m * 60 + s + ms / 100`, or
`none` for `null`. -/
def parseTimeInput (str : JSString) : Option ℚ :=
  match str with
  | [m1, m2, 58, s1, s2, 46, c1, c2] =>
    if JS.isDigit m1 && JS.isDigit m2 && JS.isDigit s1 && JS.isDigit s2 && JS.isDigit c1 &&
        JS.isDigit c2 then
      let m : ℚ := JS.digitsValue [m1, m2]
      let s : ℚ := JS.digitsValue [s1, s2]
      let ms : ℚ := JS.digitsValue [c1, c2]
      some (m * 60 + s + ms / 100)
    else none
  | _ => none

/-- The time field named by the argument of `handleTimeInputBlur`: `'start'` or
`'end'`. -/
inductive Field where
  | start
  | «end»
  deriving DecidableEq

/-- What `handleTimeInputBlur` does: the callback calls it makes, the updater
function it passes to `onUpdateLyrics` (if it calls it), the object `lyric` that
was passed as a prop as it is after the handler (assignments to its fields are
made in place), and the value it passes to `setEditingTime`. -/
structure BlurResult where
  calls : List Call
  update : Option (List Lyric → List Lyric)
  lyric : Lyric
  editingTime : Option Field × JSString

/-- The body of `handleTimeInputBlur` after
`const seconds = parseTimeInput(editingTime.value)` (lines 287-305). -/
def handleTimeInputBlur.commit (props : Props) (field : Field) (seconds : Option ℚ) :
    BlurResult :=
  let lyric := props.lyric
  let index := props.index
  let unchanged : BlurResult :=
    { calls := [], update := none, lyric := lyric, editingTime := (none, []) }
  match seconds with
  | none => unchanged
  | some seconds =>
    if seconds ≥ 0 then
      if field = .start ∧ seconds < lyric.«end» then
        { calls := if props.onTextEdit then [.onTextEdit index lyric.text] else []
          update :=
            if props.onUpdateLyrics then
              some fun prev => prev.mapIdx fun i l => if i = index then { l with start := seconds } else l
            else none
          lyric := if props.onUpdateLyrics then lyric else { lyric with start := seconds }
          editingTime := (none, []) }
      else if field = .«end» ∧ seconds > lyric.start then
        { calls := if props.onTextEdit then [.onTextEdit index lyric.text] else []
          update :=
            if props.onUpdateLyrics then
              some fun prev => prev.mapIdx fun i l => if i = index then { l with «end» := seconds } else l
            else none
          lyric := if props.onUpdateLyrics then lyric else { lyric with «end» := seconds }
          editingTime := (none, []) }
      else unchanged
    else unchanged

/-- The handler `handleTimeInputBlur(field)` (lines 285-306), with the text
`editingTime.value` of the time input. -/
def handleTimeInputBlur (props : Props) (value : JSString) (field : Field) : BlurResult :=
  handleTimeInputBlur.commit props field (parseTimeInput value)

/-- The handler made no call and changed nothing: the object `lyric` is as it
was passed and no updater was handed to `onUpdateLyrics`. -/
def BlurResult.Unchanged (props : Props) (r : BlurResult) : Prop :=
  r.calls = [] ∧ r.update = none ∧ r.lyric = props.lyric

/-- The timing invariant of a subtitle: `0 <= start < end`. -/
def TimingOk (l : Lyric) : Prop := 0 ≤ l.start ∧ l.start < l.«end»

/-- The handler `handleTextSubmit` (lines 222-227), with the editor text
`editText`: the callback calls it makes and the value it passes to
`setIsEditing`. -/
def handleTextSubmit (props : Props) (editText : JSString) : List Call × Bool :=
  (if some (JS.trim editText) ≠ props.lyric.text then
      [.onTextEdit props.index (some (JS.trim editText))]
    else [],
   false)

end LyricItem

namespace LyricsDisplay

/-- The row renderer `VirtualizedLyricRow` (lines 30-74): the props it gives to
the `LyricItem` of row `index`, from the `itemData` of the list. It passes
`onTextEdit` and does not pass `onUpdateLyrics`. There is no row when
`lyrics[index]` does not exist. -/
def VirtualizedLyricRow (lyrics : List Lyric) (currentIndex : Int) (allowEditing : Bool)
    (index : Nat) : Option LyricItem.Props :=
  lyrics[index]?.map fun lyric =>
    { lyric := lyric
      index := index
      isCurrentLyric := decide ((index : Int) = currentIndex)
      allowEditing := allowEditing
      hasNextLyric := decide ((index : Int) < (lyrics.length : Int) - 1)
      onTextEdit := true
      onUpdateLyrics := false }

end LyricsDisplay

namespace LyricItem

/-- The click handler of the row container (lines 313-318), with
`now = Date.now()` and `lastDragEnd = getLastDragEnd()`. -/
def onClick (props : Props) (now lastDragEnd : ℚ) : List Call :=
  if now - lastDragEnd < 100 then []
  else [.onLyricClick props.lyric.start]

/-- The click handler of the text span (lines 598-603), with the state
`isEditing`. It stops the propagation of the event, so the handler of the row
container does not run for this click. -/
def textOnClick (props : Props) (isEditing : Bool) : List Call :=
  if !isEditing then [.onLyricClick props.lyric.start] else []

/-- The handler `handleInsertAbove` (lines 240-247). -/
def handleInsertAbove (props : Props) : List Call :=
  [.onInsert (if props.index > 0 then (props.index : Int) - 1 else 0)]

/-- The handler `handleInsertBelow` (lines 249-256). -/
def handleInsertBelow (props : Props) : List Call :=
  [.onInsert (props.index : Int)]

/-- The handler `handleMergeAbove` (lines 258-265): "merge with above". -/
def handleMergeAbove (props : Props) : List Call :=
  if props.index > 0 then [.onMerge (JS.Value.ofNat (props.index - 1))] else []

/-- The handler `handleMergeBelow` (lines 267-274): "merge with below". -/
def handleMergeBelow (props : Props) : List Call :=
  if props.hasNextLyric then [.onMerge (JS.Value.ofNat props.index)] else []

/-- The rows that `onMerge(index)` combines: row `index` and the row below it,
as in "merge with below" (`onMerge(index)`) and "merge with above"
(`onMerge(index - 1)`). -/
def mergedRows (index : Nat) : List Nat := [index, index + 1]

end LyricItem

namespace LyricsDisplay

/-- A call, made by the drag handlers of `LyricsDisplay`, of a function of the
editor hook `useLyricsEditor`. -/
inductive DragCall where
  | startDrag (index : Nat) (field : LyricItem.Field) (clientX : ℚ) (value : ℚ)
  | handleDrag (clientX : ℚ) (duration : ℚ)
  | endDrag
  deriving DecidableEq

/-- What the drag handlers keep between events: whether the `mousemove` and
`mouseup` listeners are registered on the document, the ref `lastMoveTimeRef`,
and the callbacks given to `requestAnimationFrame` that have not run yet, oldest
first, each with the `e.clientX` it holds. -/
structure DragState where
  listening : Bool
  lastMoveTime : ℚ
  frames : List ℚ
  deriving DecidableEq

/-- The state at mount: no listener, `useRef(0)`, no queued callback. -/
def DragState.init : DragState :=
  { listening := false, lastMoveTime := 0, frames := [] }

/-- The handler `handleMouseDown(e, index, field)` (lines 361-372). Reading
`lyrics[index][field]` throws when the row does not exist (`none`), before
anything is called or registered. -/
def handleMouseDown (lyrics : List Lyric) (s : DragState) (index : Nat)
    (field : LyricItem.Field) (clientX : ℚ) : Option (DragState × List DragCall) :=
  lyrics[index]?.map fun lyric =>
    let value :=
      match field with
      | .start => lyric.start
      | .«end» => lyric.«end»
    ({ s with listening := true }, [.startDrag index field clientX value])

/-- The handler `handleMouseMove(e)` (lines 376-390), with
`now = performance.now()`: `none` when it returns at the throttle; otherwise the
ref is set and a callback is queued with `requestAnimationFrame`. -/
def handleMouseMove (s : DragState) (now clientX : ℚ) : Option DragState :=
  if now - s.lastMoveTime < 16 then none
  else some { s with lastMoveTime := now, frames := s.frames ++ [clientX] }

/-- The handler `handleMouseUp(e)` (lines 392-398): the listeners are removed and
`endDrag()` is called. -/
def handleMouseUp (s : DragState) : DragState × List DragCall :=
  ({ s with listening := false }, [.endDrag])

/-- The events of the retime-by-drag controller: a mouse-down on a time handle of
a row, a mouse-move and a mouse-up on the document, and an animation frame, in
which the browser runs the queued callbacks. -/
inductive DragEvent where
  | mouseDown (index : Nat) (field : LyricItem.Field) (clientX : ℚ)
  | mouseMove (now clientX : ℚ)
  | mouseUp
  | animationFrame

/-- One event: the new state and the calls made. The document handlers run only
while they are registered; a queued callback runs
`handleDrag(e.clientX, duration)` (lines 387-389). -/
def dragStep (lyrics : List Lyric) (duration : ℚ) (s : DragState) :
    DragEvent → DragState × List DragCall
  | .mouseDown index field clientX => (handleMouseDown lyrics s index field clientX).getD (s, [])
  | .mouseMove now clientX =>
    if s.listening then ((handleMouseMove s now clientX).getD s, []) else (s, [])
  | .mouseUp => if s.listening then handleMouseUp s else (s, [])
  | .animationFrame => ({ s with frames := [] }, s.frames.map fun x => .handleDrag x duration)

/-- A sequence of events: the final state and all calls made, in order. -/
def dragRun (lyrics : List Lyric) (duration : ℚ) (s : DragState) :
    List DragEvent → DragState × List DragCall
  | [] => (s, [])
  | e :: es =>
    ((dragRun lyrics duration (dragStep lyrics duration s e).1 es).1,
      (dragStep lyrics duration s e).2 ++ (dragRun lyrics duration (dragStep lyrics duration s e).1 es).2)

/-- The processed mouse-moves of a sequence of events: those that are delivered
to `handleMouseMove` and pass its throttle, each with its time and its
`clientX`. -/
def processedMoves (lyrics : List Lyric) (duration : ℚ) (s : DragState) :
    List DragEvent → List (ℚ × ℚ)
  | [] => []
  | e :: es =>
    (match e with
      | .mouseMove now clientX =>
        if s.listening ∧ (handleMouseMove s now clientX).isSome then [(now, clientX)] else []
      | _ => []) ++
      processedMoves lyrics duration (dragStep lyrics duration s e).1 es

/-- The `clientX` arguments of the `handleDrag` calls of a list of calls. -/
def handleDragArgs : List DragCall → List ℚ
  | [] => []
  | .handleDrag clientX _ :: cs => clientX :: handleDragArgs cs
  | _ :: cs => handleDragArgs cs

end LyricsDisplay

namespace JS

/-- The property read `object[key]` on the own properties of an object:
`undefined` when there is no such property. -/
def getProp (properties : List (JSString × Value)) (key : JSString) : Value :=
  match properties.reverse.find? fun p => p.1 == key with
  | some p => p.2
  | none => .undefined

end JS

namespace OutputContainer

/-- A subtitle object: its own properties. -/
abbrev Subtitle := List (JSString × JS.Value)

/-- A value that is `null` (`none`) or an array of subtitle objects. -/
abbrev Subtitles := Option (List Subtitle)

/-- The state of `OutputContainer` that the subtitle handlers use:
`editedLyrics`, `translatedSubtitles` and `subtitleSource`. -/
structure State where
  editedLyrics : Subtitles
  translatedSubtitles : Subtitles
  subtitleSource : JSString

/-- The state at mount: `useState(null)`, `useState(null)`,
`useState('original')`. -/
def State.init : State :=
  { editedLyrics := none, translatedSubtitles := none, subtitleSource := utf16 "original" }

/-- The handler `handleUpdateLyrics(updatedLyrics)` (lines 35-38): the state after
its state setters. -/
def handleUpdateLyrics (s : State) (updatedLyrics : Subtitles) : State :=
  if s.subtitleSource = utf16 "original" then
    { s with editedLyrics := some (updatedLyrics.getD []) }
  else { s with translatedSubtitles := some (updatedLyrics.getD []) }

/-- The handler `handleSaveSubtitles(savedLyrics)` (lines 41-53): the state after
its state setters and the arguments of its calls of the prop `setSubtitlesData`,
which may not have been passed. -/
def handleSaveSubtitles (s : State) (setSubtitlesData : Bool) (savedLyrics : Subtitles) :
    State × List Subtitles :=
  if s.subtitleSource = utf16 "original" then
    ({ s with editedLyrics := savedLyrics }, if setSubtitlesData then [savedLyrics] else [])
  else ({ s with translatedSubtitles := savedLyrics }, [])

/-- The effect that depends on the prop `subtitlesData` (lines 76-80), run with
the new value of the prop. -/
def subtitlesDataEffect (s : State) (subtitlesData : Subtitles) : State :=
  { s with editedLyrics := some (subtitlesData.getD []), translatedSubtitles := none }

/-- The function `formatSubtitlesForLyricsDisplay(subtitles)` (lines 87-97), with
the state `editedLyrics`; `isSubtitlesData` is the outcome of the comparison
`subtitles === subtitlesData`. The elements are new objects, the spread of the
source object followed by `startTime` and `endTime`. -/
def formatSubtitlesForLyricsDisplay (editedLyrics : Subtitles) (subtitles : Subtitles)
    (isSubtitlesData : Bool) : List Subtitle :=
  let sourceData : Subtitles :=
    if isSubtitlesData then (if editedLyrics.isSome then editedLyrics else subtitles)
    else subtitles
  match sourceData with
  | none => []
  | some sourceData =>
    sourceData.map fun sub =>
      sub ++ [(utf16 "startTime", JS.getProp sub (utf16 "start")),
        (utf16 "endTime", JS.getProp sub (utf16 "end"))]

end OutputContainer

namespace subtitleUtils

/-- The text that a template literal prints for the `text` of a subtitle: the
text itself, or `undefined` when it is missing. -/
def textOf (text : Option JSString) : JSString := text.getD (utf16 "undefined")

/-- The order of the comparator `(a, b) => a.start - b.start`. -/
def startLE (a b : Lyric) : Prop := a.start ≤ b.start

instance startLE.decidable : DecidableRel startLE :=
  fun a b => inferInstanceAs (Decidable (a.start ≤ b.start))

instance startLE.isTotal : IsTotal Lyric startLE :=
  ⟨fun a b => le_total a.start b.start⟩

instance startLE.isTrans : IsTrans Lyric startLE :=
  ⟨fun _ _ _ hab hbc => le_trans hab hbc⟩

/-- The call `[...subtitles].sort((a, b) => a.start - b.start)`: a stable sort by
non-decreasing `start`. -/
def sortByStart (subtitles : List Lyric) : List Lyric :=
  subtitles.insertionSort startLE

/-- The assignments of the merge branch (lines 117-118):
`current.end = Math.max(current.end, next.end)` and the template literal
`current.text = current.text + '\n' + next.text`. -/
def mergeInto (current next : Lyric) : Lyric :=
  { current with
    «end» := max current.«end» next.«end»
    text := some (textOf current.text ++ [10] ++ textOf next.text) }

/-- The loop of lines 111-124 with the last `merged.push(current)` (line 127),
from the values of `current` and `merged` and the elements of `sorted` that
remain. -/
def mergeLoop (current : Lyric) (merged : List Lyric) : List Lyric → List Lyric
  | [] => merged ++ [current]
  | next :: rest =>
    if current.«end» ≥ next.start then mergeLoop (mergeInto current next) merged rest
    else mergeLoop next (merged ++ [current]) rest

/-- The loop `merged.forEach((subtitle, index) => { subtitle.id = index + 1; })`
(lines 130-132), from position `index`. -/
def reassignIdsFrom (index : Nat) : List Lyric → List Lyric
  | [] => []
  | subtitle :: rest => { subtitle with id := index + 1 } :: reassignIdsFrom (index + 1) rest

/-- The function `mergeOverlappingSubtitles(subtitles)` (lines 102-135) on an
array. -/
def mergeOverlappingSubtitles (subtitles : List Lyric) : List Lyric :=
  if subtitles.length ≤ 1 then subtitles
  else
    match sortByStart subtitles with
    | [] => []
    | first :: rest => reassignIdsFrom 0 (mergeLoop first [] rest)

/-- What the loop adds to `merged`, as a function of `current` and the remaining
elements. -/
def mergeFrom (current : Lyric) : List Lyric → List Lyric
  | [] => [current]
  | next :: rest =>
    if current.«end» ≥ next.start then mergeFrom (mergeInto current next) rest
    else current :: mergeFrom next rest

/-- One merged subtitle in the words of the claim: a subtitle followed by the
subtitles merged into it becomes one subtitle with the start of the first, the
maximum end, and the texts joined by `'\n'` in order; a subtitle with nothing
merged into it is kept. -/
def specGroup (first : Lyric) (others : List Lyric) : Lyric :=
  match others with
  | [] => first
  | _ :: _ =>
    { first with
      «end» := (others.map (·.«end»)).foldl max first.«end»
      text := some (textOf first.text ++ (others.map fun o => [10] ++ textOf o.text).flatten) }

end subtitleUtils

namespace JS

/-- The abstract operation ToBoolean: `undefined`, `null`, `false`, `0`, NaN and
the empty string are falsy, everything else is truthy. -/
def toBoolean : Value → Bool
  | .undefined => false
  | .null => false
  | .bool b => b
  | .number (.finite q) => decide (q ≠ 0)
  | .number .nan => false
  | .number _ => true
  | .string s => decide (s ≠ [])
  | .array _ => true
  | .object _ => true

/-- The operator `typeof`. -/
def typeof : Value → JSString
  | .undefined => utf16 "undefined"
  | .null => utf16 "object"
  | .bool _ => utf16 "boolean"
  | .number _ => utf16 "number"
  | .string _ => utf16 "string"
  | .array _ => utf16 "object"
  | .object _ => utf16 "object"

/-- The property read `value.key` on a value that is not `null` or `undefined`,
for a key that is not an array index or `length`: an object gives its own
property of that name, if any; everything else gives `undefined`. -/
def Value.get (v : Value) (key : JSString) : Value :=
  match v with
  | .object properties => getProp properties key
  | _ => .undefined

/-- The comparison `x >= y` of two numbers: false when either is NaN, and
otherwise the negation of `x < y`. -/
def Number.greaterEq : Number → Number → Bool
  | .nan, _ => false
  | _, .nan => false
  | .posInf, _ => true
  | _, .negInf => true
  | .finite _, .posInf => false
  | .negInf, .finite _ => false
  | .negInf, .posInf => false
  | .finite a, .finite b => decide (a ≥ b)

/-- The method `String.prototype.padStart(targetLength, fill)` for a fill of one
code unit. -/
def padStart (s : JSString) (targetLength : Nat) (fill : Nat) : JSString :=
  List.replicate (targetLength - s.length) fill ++ s

/-- A number with a finite decimal expansion: its denominator divides a power of
ten. Every finite JavaScript number is one. -/
def IsDecimal (x : ℚ) : Prop := ∃ m : Nat, x.den ∣ 10 ^ m

/-- The least `m` from the given one on such that `den` divides `10 ^ m`,
searched in at most `fuel` steps. -/
def decimalPlacesFrom (den : Nat) : Nat → Nat → Nat
  | 0, m => m
  | fuel + 1, m => if 10 ^ m % den = 0 then m else decimalPlacesFrom den fuel (m + 1)

/-- The number of decimal places of a number with a finite decimal expansion:
the least `m` such that the denominator divides `10 ^ m` (it is at most the
denominator). -/
def decimalPlaces (x : ℚ) : Nat := decimalPlacesFrom x.den x.den 0

/-- The text that `Number::toString` (radix 10) makes from the `k` significant
digits of a positive number and the integer `n` with `10 ^ (n - 1) ≤ x < 10 ^ n`:
the digits followed by `n - k` zeros when `k ≤ n ≤ 21`; the digits with a point
after the first `n` when `0 < n ≤ 21`; `0.` and `-n` zeros before the digits when
`-6 < n ≤ 0`; and otherwise the exponent form, the first digit, a point and the
other digits if there are any, `e`, the sign of `n - 1` and its absolute value. -/
def decimalForm (digits : JSString) (n : Int) : JSString :=
  if (digits.length : Int) ≤ n ∧ n ≤ 21 then
    digits ++ List.replicate (n.toNat - digits.length) 48
  else if 0 < n ∧ n ≤ 21 then digits.take n.toNat ++ [46] ++ digits.drop n.toNat
  else if -6 < n ∧ n ≤ 0 then [48, 46] ++ List.replicate (-n).toNat 48 ++ digits
  else
    match digits with
    | [] => []
    | [d] => d :: 101 :: (if 0 ≤ n - 1 then 43 else 45) :: natToString (n - 1).natAbs
    | d :: rest =>
      d :: 46 :: rest ++ 101 :: (if 0 ≤ n - 1 then 43 else 45) :: natToString (n - 1).natAbs

/-- The operation `Number::toString` (radix 10) on a positive number `x` with a
finite decimal expansion: with `m` decimal places, `x * 10 ^ m` is an integer;
its digits without the zeros at the end are the significant digits of `x`, and
the number of its digits less `m` is the `n` with `10 ^ (n - 1) ≤ x < 10 ^ n`. -/
def positiveToString (x : ℚ) : JSString :=
  let m := decimalPlaces x
  let all := natToString (x * 10 ^ m).num.natAbs
  decimalForm (all.reverse.dropWhile (· == 48)).reverse ((all.length : Int) - (m : Int))

/-- The text of a finite number with a finite decimal expansion
(`Number::toString`, as applied by `String(x)`, `x.toString()` and a template
literal): `0` for zero, and a minus sign before the text of `-x` for a negative
`x`. -/
def numberToString (x : ℚ) : JSString :=
  if x = 0 then [48]
  else if x < 0 then 45 :: positiveToString (-x)
  else positiveToString x

/-- The integer part of a number, rounded toward zero. -/
def truncate (x : ℚ) : Int := if 0 ≤ x then ⌊x⌋ else ⌈x⌉

/-- The remainder operator `a % b` on finite numbers with `b` not zero: the
result has the sign of the dividend. -/
def remainder (a b : ℚ) : ℚ := a - b * truncate (a / b)

/-- The function `Math.round`: the nearest integer, a half rounded up. -/
def round (x : ℚ) : Int := ⌊x + 1 / 2⌋

/-- Worker of `log2`: halve `n` until it is below 2, in at most `fuel` steps. -/
def log2Fuel : Nat → Nat → Nat
  | 0, _ => 0
  | fuel + 1, n => if n < 2 then 0 else log2Fuel fuel (n / 2) + 1

/-- The position of the highest bit of a positive integer `n`: the greatest `b`
with `2 ^ b ≤ n`. -/
def log2 (n : Nat) : Nat := log2Fuel n n

/-- The binary exponent of a positive number `x`: the greatest `e` with
`2 ^ e ≤ x`. It is found from the highest bits of the numerator and of the
denominator, which give it up to one. -/
def binaryExponent (x : ℚ) : Int :=
  if (2 : ℚ) ^ ((log2 x.num.natAbs : Int) - (log2 x.den : Int)) ≤ x then
    (log2 x.num.natAbs : Int) - (log2 x.den : Int)
  else (log2 x.num.natAbs : Int) - (log2 x.den : Int) - 1

/-- The distance between neighbouring doubles at a positive number `x`:
`2 ^ (e - 52)` for the binary exponent `e` of `x`, and `2 ^ (-1074)` below
`2 ^ (-1022)` (the subnormal numbers). -/
def doubleSpacing (x : ℚ) : ℚ := (2 : ℚ) ^ (max (binaryExponent x) (-1022) - 52)

/-- The integer nearest to `y`; of two integers at the same distance, the even
one. -/
def roundHalfEven (y : ℚ) : Int :=
  if y - ⌊y⌋ < 1 / 2 then ⌊y⌋
  else if 1 / 2 < y - ⌊y⌋ then ⌊y⌋ + 1
  else if ⌊y⌋ % 2 = 0 then ⌊y⌋
  else ⌊y⌋ + 1

/-- The double that is the value of an arithmetic operation whose exact result is
`x` (IEEE 754 binary64, round to nearest, ties to even): the multiple of the
spacing at `x` that is nearest to `x`. The exact result is taken to be below
`2 ^ 1024` in magnitude; the overflow to an infinity is not modelled, and `-0`
is `0`. -/
def roundToDouble (x : ℚ) : ℚ :=
  if x = 0 then 0
  else if x < 0 then -(roundHalfEven (-x / doubleSpacing (-x)) * doubleSpacing (-x))
  else roundHalfEven (x / doubleSpacing x) * doubleSpacing x

end JS

namespace subtitleUtils

/-- The function `validateSubtitle` (lines 71-95): false for a falsy or
non-object argument, for a `start` or `end` that is not of type number, for a
`text` that is not of type string, when `start < 0` or `end < 0`, and when
`start >= end`; true otherwise. -/
def validateSubtitle (subtitle : JS.Value) : Bool :=
  if !JS.toBoolean subtitle || JS.typeof subtitle != utf16 "object" then false
  else if JS.typeof (subtitle.get (utf16 "start")) != utf16 "number" ||
      JS.typeof (subtitle.get (utf16 "end")) != utf16 "number" then false
  else if JS.typeof (subtitle.get (utf16 "text")) != utf16 "string" then false
  else
    match subtitle.get (utf16 "start"), subtitle.get (utf16 "end") with
    | .number start, .number «end» =>
      if start.lessThan 0 || «end».lessThan 0 then false
      else if start.greaterEq «end» then false
      else true
    | _, _ => false

end subtitleUtils

namespace timeUtils

/-- The match of `/^(\d+)m(\d+)s(\d+)ms$/` on a string: the three captured
groups. The literals that follow the groups are not digits, so each group is the
longest run of digits at its place. -/
def matchTimeString (timeString : JSString) : Option (JSString × JSString × JSString) :=
  match timeString.dropWhile JS.isDigit with
  | 109 :: rest1 =>
    match rest1.dropWhile JS.isDigit with
    | 115 :: rest2 =>
      match rest2.dropWhile JS.isDigit with
      | [109, 115] =>
        if timeString.takeWhile JS.isDigit ≠ [] ∧ rest1.takeWhile JS.isDigit ≠ [] ∧
            rest2.takeWhile JS.isDigit ≠ [] then
          some (timeString.takeWhile JS.isDigit, rest1.takeWhile JS.isDigit,
            rest2.takeWhile JS.isDigit)
        else none
      | _ => none
    | _ => none
  | _ => none

/-- The function `convertTimeStringToSeconds` (lines 10-27): 0 for a falsy or
non-string argument and for a string that does not match; otherwise
`minutes * 60 + seconds + milliseconds / 1000` of the three groups read by
`parseInt` (a group has digits only, so the radix is 10). -/
def convertTimeStringToSeconds (timeString : JS.Value) : JS.Number :=
  match timeString with
  | .string s =>
    if s = [] then .finite 0
    else
      match matchTimeString s with
      | none => .finite 0
      | some (g1, g2, g3) =>
        match JS.parseInt g1, JS.parseInt g2, JS.parseInt g3 with
        | .finite minutes, .finite seconds, .finite milliseconds =>
          .finite (minutes * 60 + seconds + milliseconds / 1000)
        | _, _, _ => .nan
  | _ => .finite 0

/-- The function `formatSecondsToMMmSSsNNNms` (lines 88-98); `none` is an
argument that is `undefined` or `null`, and a number argument is a double. The
quotient `seconds / 60` and the product `(seconds % 1) * 1000` are rounded to
doubles before `Math.floor`; the remainders `seconds % 60` and `seconds % 1` of
doubles are doubles and are exact. -/
def formatSecondsToMMmSSsNNNms (seconds : Option ℚ) : JSString :=
  match seconds with
  | none => utf16 "00m00s000ms"
  | some seconds =>
    let minutes : Int := ⌊JS.roundToDouble (seconds / 60)⌋
    let secs : Int := ⌊JS.remainder seconds 60⌋
    let ms : Int := ⌊JS.roundToDouble (JS.remainder seconds 1 * 1000)⌋
    JS.padStart (JS.numberToString minutes) 2 48 ++ [109] ++
      JS.padStart (JS.numberToString secs) 2 48 ++ [115] ++
      JS.padStart (JS.numberToString ms) 3 48 ++ [109, 115]

end timeUtils

namespace LyricItem

/-- The helper `formatTimeInput` (lines 113-118):
`Math.floor(seconds / 60)`, `Math.floor(seconds % 60)` and
`Math.round((seconds - Math.floor(seconds)) * 100)`, each as text padded to two
characters with `'0'`, joined as `m:s.ms`. -/
def formatTimeInput (seconds : ℚ) : JSString :=
  let m := JS.padStart (JS.numberToString (⌊seconds / 60⌋ : Int)) 2 48
  let s := JS.padStart (JS.numberToString (⌊JS.remainder seconds 60⌋ : Int)) 2 48
  let ms :=
    JS.padStart (JS.numberToString (JS.round ((seconds - (⌊seconds⌋ : Int)) * 100) : Int)) 2 48
  m ++ [58] ++ s ++ [46] ++ ms

end LyricItem

namespace geminiService

/-- The variables of the chunking loop of `translateSubtitlesByChunks`. -/
structure ChunkState where
  chunks : List (List Lyric)
  currentChunk : List Lyric
  chunkStartTime : ℚ
  deriving DecidableEq

/-- One iteration of the chunking loop (lines 993-1004): when the subtitle
starts `splitDurationSeconds` or more after `chunkStartTime` and the current
chunk is not empty, the current chunk is pushed and a new one starts at this
subtitle; then the subtitle is pushed to the current chunk. -/
def chunkStep (splitDurationSeconds : ℚ) (s : ChunkState) (subtitle : Lyric) : ChunkState :=
  if subtitle.start - s.chunkStartTime ≥ splitDurationSeconds ∧ s.currentChunk.length > 0 then
    { chunks := s.chunks ++ [s.currentChunk]
      currentChunk := [subtitle]
      chunkStartTime := subtitle.start }
  else { s with currentChunk := s.currentChunk ++ [subtitle] }

/-- The chunks built by `translateSubtitlesByChunks` (lines 986-1009) before they
are translated. `chunkStartTime` starts as `subtitles[0]?.start || 0`. -/
def translateSubtitlesByChunks.chunks (subtitles : List Lyric) (splitDuration : ℚ) :
    List (List Lyric) :=
  let chunkStartTime : ℚ :=
    match subtitles[0]? with
    | some first => if first.start = 0 then 0 else first.start
    | none => 0
  let s := subtitles.foldl (chunkStep splitDuration) ⟨[], [], chunkStartTime⟩
  if s.currentChunk.length > 0 then s.chunks ++ [s.currentChunk] else s.chunks

/-- The chunking loop as a recursion on the subtitles that are left, with the
current chunk and its start time: the chunks from the current one on. -/
def chunksFrom (splitDuration : ℚ) (currentChunk : List Lyric) (chunkStartTime : ℚ) :
    List Lyric → List (List Lyric)
  | [] => if currentChunk.length > 0 then [currentChunk] else []
  | subtitle :: rest =>
    if subtitle.start - chunkStartTime ≥ splitDuration ∧ currentChunk.length > 0 then
      currentChunk :: chunksFrom splitDuration [subtitle] subtitle.start rest
    else chunksFrom splitDuration (currentChunk ++ [subtitle]) chunkStartTime rest

end geminiService

namespace VideoPreview

/-- The subtitle found by `getCurrentSubtitleText` for the original track (lines
648-656), for subtitles with numeric times:
`subtitlesArray.find(sub => currentTime >= start && currentTime <= end)`. -/
def currentSubtitle (subtitlesArray : List Lyric) (currentTime : ℚ) : Option Lyric :=
  subtitlesArray.find? fun sub =>
    decide (currentTime ≥ sub.start) && decide (currentTime ≤ sub.«end»)

end VideoPreview

namespace subtitleUtils

/-- The key of `uniqueMap` in `deduplicateAndSortSubtitles` (line 20): the
template literal of `subtitle.start`, a hyphen and `subtitle.text.trim()`. -/
def uniqueKey (start : ℚ) (text : JSString) : JSString :=
  JS.numberToString start ++ [45] ++ JS.trim text

/-- The callback of `subtitles.forEach` in `deduplicateAndSortSubtitles` (lines
18-25) on a subtitle whose `start` is a finite number, for which the test
`typeof subtitle.start === 'number'` holds: a subtitle whose `text` is missing
or empty is skipped, and a subtitle is set in the map under its key when the map
has no such key yet. The map is the list of its entries in insertion order. -/
def uniqueMapSet (uniqueMap : List (JSString × Lyric)) (subtitle : Lyric) :
    List (JSString × Lyric) :=
  match subtitle.text with
  | none => uniqueMap
  | some text =>
    if text = [] then uniqueMap
    else if uniqueMap.any (fun entry => entry.1 == uniqueKey subtitle.start text) then uniqueMap
    else uniqueMap ++ [(uniqueKey subtitle.start text, subtitle)]

/-- The function `deduplicateAndSortSubtitles` (lines 10-37) on an array whose
elements all have a finite number as `start`; `none` is an argument that is not
an array. The values of the map in insertion order are sorted by `start` and the
ids are reassigned. On these arrays it is the function
`anyStart.deduplicateAndSortSubtitles`, which takes elements with any value as
`start` (theorem `deduplicateAndSortSubtitles_ofLyric`). -/
def deduplicateAndSortSubtitles (subtitles : Option (List Lyric)) : List Lyric :=
  match subtitles with
  | none => []
  | some subtitles =>
    if subtitles.length = 0 then []
    else reassignIdsFrom 0 (sortByStart ((subtitles.foldl uniqueMapSet []).map (·.2)))

end subtitleUtils

namespace JS

/-- The text of a number (`Number::toString`, as applied by a template literal):
`NaN`, `Infinity`, `-Infinity`, or the text of a finite number. -/
def Number.toText : Number → JSString
  | .nan => utf16 "NaN"
  | .posInf => utf16 "Infinity"
  | .negInf => utf16 "-Infinity"
  | .finite q => numberToString q

/-- The difference `x - y` of two numbers: NaN when an operand is NaN and for the
difference of an infinity and itself. -/
def Number.sub : Number → Number → Number
  | .nan, _ => .nan
  | _, .nan => .nan
  | .posInf, .posInf => .nan
  | .negInf, .negInf => .nan
  | .posInf, _ => .posInf
  | .negInf, _ => .negInf
  | .finite _, .posInf => .negInf
  | .finite _, .negInf => .posInf
  | .finite a, .finite b => .finite (a - b)

end JS

namespace subtitleUtils.anyStart

/-- An element of the array given to `deduplicateAndSortSubtitles`, as far as the
function reads it: an object whose `start` is any value, among them NaN, and
whose `text` is a string or is missing. -/
structure Subtitle where
  id : Nat
  start : JS.Value
  «end» : ℚ
  text : Option JSString

/-- A subtitle with a finite number as `start`, as an element of the array. -/
def ofLyric (l : Lyric) : Subtitle :=
  { id := l.id, start := .number (.finite l.start), «end» := l.«end», text := l.text }

/-- The callback of `subtitles.forEach` in `deduplicateAndSortSubtitles` (lines
18-25): a subtitle whose `start` is not of type number (`typeof` is `'number'`
exactly for a number value, NaN and the infinities included) or whose `text` is
missing or empty is skipped, and a subtitle is set in the map under the key of
the template literal of line 20 when the map has no such key yet. The map is the
list of its entries in insertion order. -/
def uniqueMapSet (uniqueMap : List (JSString × Subtitle)) (subtitle : Subtitle) :
    List (JSString × Subtitle) :=
  match subtitle.start, subtitle.text with
  | .number start, some text =>
    if text = [] then uniqueMap
    else if uniqueMap.any (fun entry => entry.1 == start.toText ++ [45] ++ JS.trim text) then
      uniqueMap
    else uniqueMap ++ [(start.toText ++ [45] ++ JS.trim text, subtitle)]
  | _, _ => uniqueMap

/-- The order of the comparator `(a, b) => a.start - b.start` as the sort uses
it: `a` is not after `b` when the difference is negative or 0, and a difference
that is NaN counts as 0. -/
def compareLE (a b : Subtitle) : Prop :=
  match a.start, b.start with
  | .number x, .number y =>
    match x.sub y with
    | .nan => True
    | .negInf => True
    | .posInf => False
    | .finite q => q ≤ 0
  | _, _ => True

instance compareLE.decidable : DecidableRel compareLE := fun a b => by
  unfold compareLE
  split
  · split <;> infer_instance
  · infer_instance

/-- The call `uniqueSubtitles.sort((a, b) => a.start - b.start)`: a stable sort by
the comparator. For starts that the comparator does not put in a total order
(a NaN among other numbers) the order of the result depends on the
implementation; with two elements whose comparison counts as 0 it is the
order of the array. -/
def sortByStart (subtitles : List Subtitle) : List Subtitle :=
  subtitles.insertionSort compareLE

/-- The loop `uniqueSubtitles.forEach((subtitle, index) => { subtitle.id = index + 1; })`
(lines 32-34), from position `index`. -/
def reassignIdsFrom (index : Nat) : List Subtitle → List Subtitle
  | [] => []
  | subtitle :: rest => { subtitle with id := index + 1 } :: reassignIdsFrom (index + 1) rest

/-- The function `deduplicateAndSortSubtitles` (lines 10-37) on an array whose
elements have any value as `start`; `none` is an argument that is not an array.
The values of the map in insertion order are sorted by the comparator and the
ids are reassigned. -/
def deduplicateAndSortSubtitles (subtitles : Option (List Subtitle)) : List Subtitle :=
  match subtitles with
  | none => []
  | some subtitles =>
    if subtitles.length = 0 then []
    else reassignIdsFrom 0 (sortByStart ((subtitles.foldl uniqueMapSet []).map (·.2)))

/-- The comparison `a.start <= b.start` of two elements whose starts are
numbers: false when one of them is NaN. -/
def startLessEq (a b : Subtitle) : Prop :=
  match a.start, b.start with
  | .number x, .number y => y.greaterEq x = true
  | _, _ => False

/-- A list sorted by non-decreasing start: every element has a start that is
`<=` the start of every later element. -/
def SortedByStart (l : List Subtitle) : Prop := List.Pairwise startLessEq l

end subtitleUtils.anyStart

namespace JS

/-- The function `parseInt(string)` called without a radix: leading white space
is skipped and a sign is read; after a prefix `0x` or `0X` the radix is 16 and
otherwise 10; the longest prefix of digits of that radix is the value, and the
result is NaN without such a digit. -/
def parseIntNoRadix (s : JSString) : Number :=
  let s := s.dropWhile isStrWhiteSpace
  let (negative, s) :=
    match s with
    | 45 :: rest => (true, rest)
    | 43 :: rest => (false, rest)
    | _ => (false, s)
  let (radix, s) :=
    match s with
    | 48 :: x :: rest => if x = 120 || x = 88 then (16, rest) else (10, s)
    | _ => (10, s)
  match radixValue radix (s.takeWhile fun c => (digitInRadix radix c).isSome) with
  | none => .nan
  | some n => if negative then .finite (-(n : ℚ)) else .finite (n : ℚ)

end JS

namespace structuredJsonParser

/-- An item of the structured-JSON array: an object with the properties that
`parseStructuredJsonResponse` reads; `none` is a property that is missing. The
times and the text are strings, `index` is a number, and `id` is given by the
text that `parseInt(item.id)` reads. -/
structure Item where
  index : Option ℚ
  startTime : Option JSString
  endTime : Option JSString
  text : Option JSString
  id : Option JSString
  deriving DecidableEq

/-- A subtitle object pushed by `parseStructuredJsonResponse`; `originalIndex`
and `originalId` are set by the branches that have them. -/
structure ParsedSubtitle where
  id : ℚ
  start : JS.Number
  «end» : JS.Number
  text : JSString
  originalIndex : Option ℚ
  originalId : Option ℚ
  deriving DecidableEq

/-- Whether a string property is truthy: present and not empty. -/
def truthy (s : Option JSString) : Bool :=
  match s with
  | none => false
  | some s => decide (s ≠ [])

/-- The condition `!item.text || item.text.trim() === ''`. -/
def blankText (text : Option JSString) : Bool :=
  !truthy text || decide (JS.trim (text.getD []) = [])

/-- The condition of the first loop (lines 69-71):
`item.startTime === '00m00s000ms' && item.endTime === '00m00s000ms' &&
(!item.text || item.text.trim() === '')`; the condition of the second loop (line
98) is its negation. -/
def isEmptyItem (item : Item) : Bool :=
  decide (item.startTime = some (utf16 "00m00s000ms")) &&
    decide (item.endTime = some (utf16 "00m00s000ms")) && blankText item.text

/-- The first loop (lines 67-77): `allEmpty` and `emptyCount` when it ends; it
stops at the first item that is not empty. -/
def emptyCheck : List Item → Bool × Nat
  | [] => (true, 0)
  | item :: rest =>
    if isEmptyItem item then ((emptyCheck rest).1, (emptyCheck rest).2 + 1) else (false, 0)

/-- The second loop (lines 96-102) from position `i`: the index of the first item
that is not empty, if there is one. -/
def startIndexFrom (i : Nat) : List Item → Option Nat
  | [] => none
  | item :: rest => if !isEmptyItem item then some i else startIndexFrom (i + 1) rest

/-- The value of `parseInt(item.id) || (i + 1)` (lines 158 and 162); `parseInt`
is called without a radix. -/
def idOr (id : Option JSString) (i : Nat) : ℚ :=
  match id with
  | none => i + 1
  | some s =>
    match JS.parseIntNoRadix s with
    | .finite q => if q = 0 then i + 1 else q
    | _ => i + 1

/-- The body of the third loop (lines 106-169) for the item at index `i`: the
subtitle that is pushed, if one is. -/
def processItem (i : Nat) (item : Item) : Option ParsedSubtitle :=
  if item.index.isSome && truthy item.startTime && truthy item.endTime then
    some
      { id := item.index.getD 0 + 1
        start := timeUtils.convertTimeStringToSeconds (.string (item.startTime.getD []))
        «end» := timeUtils.convertTimeStringToSeconds (.string (item.endTime.getD []))
        text := []
        originalIndex := item.index
        originalId := none }
  else if truthy item.startTime && truthy item.endTime then
    let start := timeUtils.convertTimeStringToSeconds (.string (item.startTime.getD []))
    let «end» := timeUtils.convertTimeStringToSeconds (.string (item.endTime.getD []))
    if start.strictEquals 0 && «end».strictEquals 0 && blankText item.text then none
    else
      some
        { id := i + 1
          start := start
          «end» := «end»
          text := if truthy item.text then item.text.getD [] else []
          originalIndex := none
          originalId := none }
  else if truthy item.text then
    some
      { id := idOr item.id i
        start := .finite 0
        «end» := .finite 0
        text := item.text.getD []
        originalIndex := none
        originalId := some (idOr item.id i) }
  else none

/-- The third loop (lines 105-170) from index `i` over the items that are left:
the subtitles that are pushed. -/
def convertFrom (i : Nat) : List Item → List ParsedSubtitle
  | [] => []
  | item :: rest => (processItem i item).toList ++ convertFrom (i + 1) rest

/-- The constant `isTimingOnlyFormat` (lines 61-64): the array is not empty and
its first item has an `index` and both times. -/
def isTimingOnlyFormat (structuredJson : List Item) : Bool :=
  match structuredJson[0]? with
  | some first => first.index.isSome && truthy first.startTime && truthy first.endTime
  | none => false

/-- The variable `allEmpty` after the first loop, which is skipped for the
timing-only format (lines 57-81). -/
def allEmpty (structuredJson : List Item) : Bool :=
  if isTimingOnlyFormat structuredJson then false else (emptyCheck structuredJson).1

/-- The variable `startIndex` after the second loop, which is skipped for the
timing-only format (lines 94-103): the index of the first item that is not
empty, and 0 when there is none. -/
def startIndex (structuredJson : List Item) : Nat :=
  if isTimingOnlyFormat structuredJson then 0
  else (startIndexFrom 0 structuredJson).getD 0

/-- The branch of `parseStructuredJsonResponse` for a `structuredJson` that is an
array (lines 48-173); an error is the message of the `Error` thrown. -/
def parseArray (structuredJson : List Item) : Except JSString (List ParsedSubtitle) :=
  if allEmpty structuredJson then
    Except.error (utf16 ("No valid subtitles found in the response. " ++
      "All subtitles have empty text and 00m00s000ms timestamps."))
  else
    Except.ok (convertFrom (startIndex structuredJson)
      (structuredJson.drop (startIndex structuredJson)))

/-- The function `parseStructuredJsonResponse` on a response whose first part
holds the array `structuredJson` and no `text`: an error thrown in the body is
caught, the fallback on the text of the part does not apply, and a new error is
thrown with the message of the first (line 239). -/
def parseStructuredJsonResponse (structuredJson : List Item) :
    Except JSString (List ParsedSubtitle) :=
  match parseArray structuredJson with
  | .ok subtitles => .ok subtitles
  | .error message => .error (utf16 "Failed to parse structured JSON response: " ++ message)

/-- The items that give a subtitle in the words of the claim: an item that has
both timestamps and is not an item with `startTime = endTime = '00m00s000ms'`
and a blank text. -/
def specGivesSubtitle (item : Item) : Bool :=
  truthy item.startTime && truthy item.endTime && !isEmptyItem item

end structuredJsonParser

/-! ## Theorems -/

/-! ### JavaScript built-ins -/

namespace JS

/-- The scan returns `-1` exactly when no element satisfies the callback. -/
theorem findIndexFrom_eq_neg_one {α : Type} (p : α → Nat → Bool) (xs : List α) (k : Nat) :
    findIndexFrom p xs k = -1 ↔ ∀ j x, xs[j]? = some x → p x (k + j) = false := by
  induction xs generalizing k with
  | nil => simp [findIndexFrom]
  | cons y ys ih =>
    unfold findIndexFrom
    by_cases hy : p y k = true
    · simp only [hy, if_true]
      constructor
      · intro h; omega
      · intro h
        have := h 0 y (by simp)
        simp [hy] at this
    · simp only [hy]
      rw [if_neg (by simp), ih]
      constructor
      · intro h j x hj
        cases j with
        | zero =>
          simp at hj; subst hj; simpa using hy
        | succ j =>
          have := h j x (by simpa using hj)
          rwa [show k + 1 + j = k + (j + 1) by omega] at this
      · intro h j x hj
        have := h (j + 1) x (by simpa using hj)
        rwa [show k + (j + 1) = k + 1 + j by omega] at this

/-- The scan returns the index `i` exactly when `i` is the first position whose
element satisfies the callback. -/
theorem findIndexFrom_eq_ofNat {α : Type} (p : α → Nat → Bool) (xs : List α) (k i : Nat) :
    findIndexFrom p xs k = (i : Int) ↔
      ∃ j x, i = k + j ∧ xs[j]? = some x ∧ p x (k + j) = true ∧
        ∀ j' y, j' < j → xs[j']? = some y → p y (k + j') = false := by
  induction xs generalizing k with
  | nil => simp [findIndexFrom]
  | cons y ys ih =>
    unfold findIndexFrom
    by_cases hy : p y k = true
    · simp only [hy, if_true]
      constructor
      · intro h
        refine ⟨0, y, by omega, by simp, by simpa using hy, ?_⟩
        intro j' _ hj'; omega
      · rintro ⟨j, x, hi, hx, hp, hlt⟩
        cases j with
        | zero => omega
        | succ j =>
          have := hlt 0 y (by omega) (by simp)
          simp [hy] at this
    · simp only [hy]
      rw [if_neg (by simp), ih]
      constructor
      · rintro ⟨j, x, hi, hx, hp, hlt⟩
        refine ⟨j + 1, x, by omega, by simpa using hx, ?_, ?_⟩
        · rwa [show k + (j + 1) = k + 1 + j by omega]
        · intro j' z hj' hz
          cases j' with
          | zero => simp at hz; subst hz; simpa using hy
          | succ j' =>
            have := hlt j' z (by omega) (by simpa using hz)
            rwa [show k + 1 + j' = k + (j' + 1) by omega] at this
      · rintro ⟨j, x, hi, hx, hp, hlt⟩
        cases j with
        | zero =>
          simp at hx; subst hx
          simp at hp; exact absurd hp hy
        | succ j =>
          refine ⟨j, x, by omega, by simpa using hx, ?_, ?_⟩
          · rwa [show k + 1 + j = k + (j + 1) by omega]
          · intro j' z hj' hz
            have := hlt (j' + 1) z (by omega) (by simpa using hz)
            rwa [show k + (j' + 1) = k + 1 + j' by omega] at this

/-- The scan returns `-1` or a natural number. -/
theorem findIndexFrom_range {α : Type} (p : α → Nat → Bool) (xs : List α) (k : Nat) :
    findIndexFrom p xs k = -1 ∨ ∃ i : Nat, findIndexFrom p xs k = (i : Int) := by
  induction xs generalizing k with
  | nil => simp [findIndexFrom]
  | cons y ys ih =>
    unfold findIndexFrom
    split
    · exact Or.inr ⟨k, rfl⟩
    · exact ih (k + 1)

/-- The result of `split` is never the empty array. -/
theorem split_ne_nil (sep : Nat) (s : JSString) : split sep s ≠ [] := by
  induction s with
  | nil => simp [split]
  | cons c cs ih =>
    unfold split
    split
    · simp
    · split <;> simp

/-- The number of pieces of `split` is the number of separators plus one. -/
theorem length_split (sep : Nat) (s : JSString) :
    (split sep s).length = s.count sep + 1 := by
  induction s with
  | nil => simp [split]
  | cons c cs ih =>
    unfold split
    by_cases hc : c = sep
    · subst hc
      simp [ih]
    · rw [if_neg hc]
      have hne := split_ne_nil sep cs
      cases hs : split sep cs with
      | nil => exact absurd hs hne
      | cons piece pieces =>
        rw [hs] at ih
        simp only [List.length_cons] at ih ⊢
        rw [List.count_cons_of_ne (Ne.symm hc)]
        omega

/-- A run of digits followed by a non-digit is split there by `takeWhile` and
`dropWhile`. -/
theorem takeWhile_digits_append (ds : List Nat) (c : Nat) (rest : JSString)
    (hds : ∀ x ∈ ds, isDigit x = true) (hc : isDigit c = false) :
    (ds ++ c :: rest).takeWhile isDigit = ds ∧ (ds ++ c :: rest).dropWhile isDigit = c :: rest := by
  induction ds with
  | nil => simp [List.takeWhile, List.dropWhile, hc]
  | cons d ds ih =>
    have hd : isDigit d = true := hds d (by simp)
    have := ih (fun x hx => hds x (by simp [hx]))
    simp [List.takeWhile, List.dropWhile, hd, this]

/-- The value of the digit characters of a little-endian digit list. -/
theorem digitsValue_reverse_map (L : List Nat) :
    digitsValue (L.reverse.map (· + 48)) = Nat.ofDigits 10 L := by
  unfold digitsValue
  rw [List.foldl_map, List.foldl_reverse, Nat.ofDigits_eq_foldr]
  induction L with
  | nil => rfl
  | cons d ds ih =>
    simp only [List.foldr_cons]
    rw [ih]
    simp
    ring

/-- Reading back the decimal text of `n` gives `n`. -/
theorem digitsValue_natToString (n : Nat) : digitsValue (natToString n) = n := by
  unfold natToString
  split
  · next h => subst h; rfl
  · rw [digitsValue_reverse_map, Nat.ofDigits_digits]

/-- The decimal text of a number consists of digits. -/
theorem natToString_digits (n : Nat) : ∀ x ∈ natToString n, isDigit x = true := by
  intro x hx
  unfold natToString at hx
  split at hx
  · simp at hx; subst hx; rfl
  · simp only [List.mem_map, List.mem_reverse] at hx
    obtain ⟨d, hd, rfl⟩ := hx
    have := Nat.digits_lt_base (by norm_num : 1 < 10) hd
    simp [isDigit]
    omega

/-- The decimal text of a positive number starts with a digit from 1 to 9. -/
theorem natToString_pos (n : Nat) (hn : n ≠ 0) :
    ∃ d ds, natToString n = d :: ds ∧ 49 ≤ d ∧ d ≤ 57 := by
  unfold natToString
  rw [if_neg hn]
  have hne : Nat.digits 10 n ≠ [] := by
    intro h
    exact hn (Nat.digits_eq_nil_iff_eq_zero.mp h)
  have hlast := Nat.getLast_digit_ne_zero 10 hn
  have hlt := Nat.digits_lt_base (by norm_num : 1 < 10) (List.getLast_mem hne)
  obtain ⟨init, hinit⟩ : ∃ init, Nat.digits 10 n = init ++ [(Nat.digits 10 n).getLast hne] :=
    ⟨_, (List.dropLast_append_getLast hne).symm⟩
  refine ⟨(Nat.digits 10 n).getLast hne + 48, init.reverse.map (· + 48), ?_, by omega, by omega⟩
  conv_lhs => rw [hinit]
  simp

/-- `parseNumber` on an integer literal followed by a comma. -/
theorem parseNumber_digits_comma (ds : List Nat) (rest : JSString)
    (hds : ∀ x ∈ ds, isDigit x = true)
    (hform : ds = [48] ∨ ∃ d tl, ds = d :: tl ∧ 49 ≤ d ∧ d ≤ 57) :
    JSON.parseNumber (ds ++ 44 :: rest) = some ((digitsValue ds : ℚ), 44 :: rest) := by
  rcases hform with h | ⟨d, tl, h, hd1, hd2⟩
  · subst h
    simp [JSON.parseNumber, digitsValue]
  · subst h
    have htw := takeWhile_digits_append tl 44 rest (fun x hx => hds x (by simp [hx])) (by decide)
    interval_cases d <;>
      simp [JSON.parseNumber, List.takeWhile, List.dropWhile, isDigit, htw]

/-- `parseValue` on the decimal text of `n` followed by a comma reads the number
`n` and stops at the comma. -/
theorem parseValue_natToString_comma (fuel n : Nat) (rest : JSString) (hfuel : 0 < fuel) :
    JSON.parseValue fuel (natToString n ++ 44 :: rest) = some (Value.ofNat n, 44 :: rest) := by
  obtain ⟨k, rfl⟩ : ∃ k, fuel = k + 1 := ⟨fuel - 1, by omega⟩
  have hds := natToString_digits n
  have hval := digitsValue_natToString n
  have hnum : ∀ hform, JSON.parseNumber (natToString n ++ 44 :: rest) =
      some ((digitsValue (natToString n) : ℚ), 44 :: rest) :=
    fun hform => parseNumber_digits_comma (natToString n) rest hds hform
  by_cases hn : n = 0
  · subst hn
    have h0 : natToString 0 = [48] := rfl
    rw [h0]
    simp [JSON.parseValue, JSON.skipWhiteSpace, JSON.isWhiteSpace, JSON.parseNumber,
      Value.ofNat, digitsValue]
  · obtain ⟨d, tl, h, hd1, hd2⟩ := natToString_pos n hn
    have hnum' := hnum (Or.inr ⟨d, tl, h, hd1, hd2⟩)
    rw [hval] at hnum'
    rw [h] at hnum' ⊢
    simp only [List.cons_append] at hnum' ⊢
    have hws : JSON.isWhiteSpace d = false := by
      simp [JSON.isWhiteSpace]; omega
    unfold JSON.parseValue
    simp only [JSON.skipWhiteSpace, List.dropWhile, hws]
    interval_cases d <;> simp [hnum', Value.ofNat]

/-- Nothing is skipped before a code unit that is not white space. -/
theorem skipWhiteSpace_cons (c : Nat) (s : JSString) (hc : JSON.isWhiteSpace c = false) :
    JSON.skipWhiteSpace (c :: s) = c :: s := by
  simp [JSON.skipWhiteSpace, List.dropWhile, hc]

/-- The last member `"type":"move"` or `"type":"merge"` of the drag payload. -/
theorem parseMembers_type (fuel : Nat) (t : JSString) (hfuel : 2 ≤ fuel)
    (ht : t = [109, 111, 118, 101] ∨ t = [109, 101, 114, 103, 101]) :
    JSON.parseMembers fuel (34 :: 116 :: 121 :: 112 :: 101 :: 34 :: 58 :: 34 :: (t ++ [34, 125])) =
      some ([([116, 121, 112, 101], .string t)], []) := by
  obtain ⟨k, rfl⟩ : ∃ k, fuel = k + 2 := ⟨fuel - 2, by omega⟩
  rcases ht with h | h <;> subst h <;>
    simp [JSON.parseMembers, JSON.parseValue, JSON.skipWhiteSpace, JSON.isWhiteSpace,
      JSON.parseStringBody, List.dropWhile]

/-- The key `index` of the drag payload. -/
theorem parseStringBody_index (rest : JSString) :
    JSON.parseStringBody (105 :: 110 :: 100 :: 101 :: 120 :: 34 :: rest) =
      some ([105, 110, 100, 101, 120], rest) := by
  simp [JSON.parseStringBody]

/-- The two members of the drag payload. -/
theorem parseMembers_index_type (fuel n : Nat) (t : JSString) (hfuel : 3 ≤ fuel)
    (ht : t = [109, 111, 118, 101] ∨ t = [109, 101, 114, 103, 101]) :
    JSON.parseMembers fuel
        (34 :: 105 :: 110 :: 100 :: 101 :: 120 :: 34 :: 58 ::
          (natToString n ++ 44 :: 34 :: 116 :: 121 :: 112 :: 101 :: 34 :: 58 :: 34 :: (t ++ [34, 125]))) =
      some ([([105, 110, 100, 101, 120], Value.ofNat n), ([116, 121, 112, 101], .string t)], []) := by
  obtain ⟨k, rfl⟩ : ∃ k, fuel = k + 1 := ⟨fuel - 1, by omega⟩
  unfold JSON.parseMembers
  rw [skipWhiteSpace_cons 34 _ (by decide)]
  simp only [parseStringBody_index, Option.some_bind]
  rw [skipWhiteSpace_cons 58 _ (by decide)]
  simp only [parseValue_natToString_comma k n _ (by omega), Option.some_bind]
  rw [skipWhiteSpace_cons 44 _ (by decide)]
  simp only [parseMembers_type k t (by omega) ht, Option.map_some']

/-- The drag payload parses to the object with its two members. -/
theorem parseValue_dragData (fuel n : Nat) (t : JSString) (hfuel : 4 ≤ fuel)
    (ht : t = [109, 111, 118, 101] ∨ t = [109, 101, 114, 103, 101]) :
    JSON.parseValue fuel
        (123 :: 34 :: 105 :: 110 :: 100 :: 101 :: 120 :: 34 :: 58 ::
          (natToString n ++ 44 :: 34 :: 116 :: 121 :: 112 :: 101 :: 34 :: 58 :: 34 :: (t ++ [34, 125]))) =
      some (.object [([105, 110, 100, 101, 120], Value.ofNat n),
        ([116, 121, 112, 101], .string t)], []) := by
  obtain ⟨k, rfl⟩ : ∃ k, fuel = k + 1 := ⟨fuel - 1, by omega⟩
  unfold JSON.parseValue
  rw [skipWhiteSpace_cons 123 _ (by decide)]
  simp only []
  rw [skipWhiteSpace_cons 34 _ (by decide)]
  simp only [parseMembers_index_type k n t (by omega) ht, Option.map_some']

/-- A run of digits is taken whole by `takeWhile` and dropped whole by
`dropWhile`. -/
theorem takeWhile_digits (ds : List Nat) (hds : ∀ x ∈ ds, isDigit x = true) :
    ds.takeWhile isDigit = ds ∧ ds.dropWhile isDigit = [] := by
  induction ds with
  | nil => simp
  | cons d ds ih =>
    have hd : isDigit d = true := hds d (by simp)
    have := ih (fun x hx => hds x (by simp [hx]))
    simp [List.takeWhile, List.dropWhile, hd, this]

/-- `parseNumber` on an integer literal that ends the input. -/
theorem parseNumber_digits (ds : List Nat) (hds : ∀ x ∈ ds, isDigit x = true)
    (hform : ds = [48] ∨ ∃ d tl, ds = d :: tl ∧ 49 ≤ d ∧ d ≤ 57) :
    JSON.parseNumber ds = some ((digitsValue ds : ℚ), []) := by
  rcases hform with h | ⟨d, tl, h, hd1, hd2⟩
  · subst h
    simp [JSON.parseNumber, digitsValue]
  · subst h
    have htw := takeWhile_digits tl (fun x hx => hds x (by simp [hx]))
    interval_cases d <;>
      simp [JSON.parseNumber, List.takeWhile, List.dropWhile, isDigit, htw]

/-- A bare decimal string is valid JSON: it parses to its number. -/
theorem parse_natToString (n : Nat) : JSON.parse (natToString n) = some (Value.ofNat n) := by
  have hds := natToString_digits n
  have hval := digitsValue_natToString n
  unfold JSON.parse
  rw [show 2 * (natToString n).length + 2 = (2 * (natToString n).length + 1) + 1 by omega]
  by_cases hn : n = 0
  · subst hn
    have h0 : natToString 0 = [48] := rfl
    rw [h0]
    simp [JSON.parseValue, JSON.skipWhiteSpace, JSON.isWhiteSpace, JSON.parseNumber,
      Value.ofNat, digitsValue]
  · obtain ⟨d, tl, h, hd1, hd2⟩ := natToString_pos n hn
    have hnum := parseNumber_digits (natToString n) hds (Or.inr ⟨d, tl, h, hd1, hd2⟩)
    rw [hval] at hnum
    rw [h] at hnum ⊢
    have hws : JSON.isWhiteSpace d = false := by
      simp [JSON.isWhiteSpace]; omega
    unfold JSON.parseValue
    simp only [JSON.skipWhiteSpace, List.dropWhile, hws]
    interval_cases d <;> simp [hnum, Value.ofNat, JSON.skipWhiteSpace]

/-- Strict equality of two non-negative integers. -/
theorem strictEquals_ofNat (a b : Nat) : strictEquals (Value.ofNat a) b = decide (a = b) := by
  simp [strictEquals, Value.ofNat, Number.strictEquals]

/-- The comparison `<` of two non-negative integers. -/
theorem lessThan_ofNat (a b : Nat) : lessThan (Value.ofNat a) b = some (decide (a < b)) := by
  simp [lessThan, Value.ofNat, Value.toNumber, Number.lessThan]

end JS

namespace JS.JSON

/-- `dropWhile` does not lengthen a list. -/
theorem length_dropWhile_le (p : Nat → Bool) (s : JSString) :
    (s.dropWhile p).length ≤ s.length :=
  (List.dropWhile_sublist p).length_le

/-- Skipping white space does not lengthen the input. -/
theorem length_skipWhiteSpace (s : JSString) : (skipWhiteSpace s).length ≤ s.length :=
  length_dropWhile_le _ _

/-- The input left after a string is not longer than the input. -/
theorem length_parseStringBody (s str r : JSString) (h : parseStringBody s = some (str, r)) :
    r.length ≤ s.length := by
  induction s using parseStringBody.induct generalizing str r with
  | case1 => simp [parseStringBody] at h
  | case2 rest =>
    simp [parseStringBody] at h
    rw [← h.2]
    simp
  | case3 a b c d rest ih =>
    simp only [parseStringBody, Option.bind_eq_some, Option.map_eq_some', Prod.exists,
      Prod.mk.injEq] at h
    obtain ⟨u, _, str', r', hrec, _, hr⟩ := h
    have := ih str' r' hrec
    subst hr
    simp only [List.length_cons]
    omega
  | case4 e rest hne ih =>
    rw [parseStringBody.eq_4 e rest hne] at h
    simp only [Option.bind_eq_some, Option.map_eq_some', Prod.exists, Prod.mk.injEq] at h
    obtain ⟨u, _, str', r', hrec, _, hr⟩ := h
    have := ih str' r' hrec
    subst hr
    simp only [List.length_cons]
    omega
  | case5 c rest h1 h2 h3 hcond =>
    rw [parseStringBody.eq_5 c rest h1 h2 h3, if_pos hcond] at h
    cases h
  | case6 c rest h1 h2 h3 hcond ih =>
    rw [parseStringBody.eq_5 c rest h1 h2 h3, if_neg hcond] at h
    simp only [Option.map_eq_some', Prod.exists, Prod.mk.injEq] at h
    obtain ⟨str', r', hrec, _, hr⟩ := h
    have := ih str' r' hrec
    subst hr
    simp only [List.length_cons]
    omega

/-- The input left after a number is not longer than the input. -/
theorem length_parseNumber (s : JSString) (q : ℚ) (r : JSString)
    (h : parseNumber s = some (q, r)) : r.length ≤ s.length := by
  unfold parseNumber at h
  simp only [Option.bind_eq_some, Option.map_eq_some', Prod.exists, Prod.mk.injEq] at h
  obtain ⟨int, s1, hint, frac, s2, hfrac, value, s3, hscaled, _, hr⟩ := h
  subst hr
  have h0 : (match s with
      | 45 :: rest => (true, rest)
      | _ => (false, s)).2.length ≤ s.length := by
    split <;> simp
  generalize (match s with
      | 45 :: rest => (true, rest)
      | _ => (false, s)).2 = s0 at hint h0
  have h1 : s1.length ≤ s0.length := by
    split at hint
    · cases hint
    · next d rest =>
      split at hint
      · simp only [Option.some.injEq, Prod.mk.injEq] at hint
        rw [← hint.2]
        simp
      · split at hint
        · simp only [Option.some.injEq, Prod.mk.injEq] at hint
          rw [← hint.2]
          exact length_dropWhile_le _ _
        · cases hint
  have h2 : s2.length ≤ s1.length := by
    split at hfrac
    · next rest =>
      split at hfrac
      · cases hfrac
      · simp only [Option.some.injEq, Prod.mk.injEq] at hfrac
        rw [← hfrac.2]
        have := length_dropWhile_le isDigit rest
        simp only [List.length_cons]
        omega
    · simp only [Option.some.injEq, Prod.mk.injEq] at hfrac
      rw [← hfrac.2]
  have h3 : s3.length ≤ s2.length := by
    split at hscaled
    · simp only [Option.some.injEq, Prod.mk.injEq] at hscaled
      rw [← hscaled.2]
    · next e rest =>
      have hexp : (match rest with
          | 45 :: rest => (true, rest)
          | 43 :: r => (false, r)
          | _ => (false, rest)).2.length ≤ rest.length := by
        split <;> simp
      generalize (match rest with
          | 45 :: rest => (true, rest)
          | 43 :: r => (false, r)
          | _ => (false, rest)) = sr at hscaled hexp
      have hdrop := length_dropWhile_le isDigit sr.2
      split at hscaled
      · split at hscaled
        · cases hscaled
        · split at hscaled <;>
            (simp only [Option.some.injEq, Prod.mk.injEq] at hscaled
             rw [← hscaled.2]
             simp only [List.length_cons]
             omega)
      · simp only [Option.some.injEq, Prod.mk.injEq] at hscaled
        rw [← hscaled.2]
  omega

/-- The input left after a value, a list of elements or a list of members is not
longer than the input. -/
theorem length_parse_rest (fuel : Nat) :
    (∀ s v r, parseValue fuel s = some (v, r) → r.length ≤ s.length) ∧
      (∀ s vs r, parseElements fuel s = some (vs, r) → r.length ≤ s.length) ∧
      (∀ s ps r, parseMembers fuel s = some (ps, r) → r.length ≤ s.length) := by
  induction fuel with
  | zero =>
    refine ⟨?_, ?_, ?_⟩ <;> intro s _ r h
    · simp [parseValue] at h
    · simp [parseElements] at h
    · simp [parseMembers] at h
  | succ fuel ih =>
    obtain ⟨ihV, ihE, ihM⟩ := ih
    refine ⟨?_, ?_, ?_⟩
    · intro s v r h
      rw [parseValue.eq_2] at h
      have hws := length_skipWhiteSpace s
      generalize skipWhiteSpace s = s' at h hws
      split at h
      · simp only [Option.some.injEq, Prod.mk.injEq] at h
        rw [← h.2]
        simp only [List.length_cons] at hws
        omega
      · simp only [Option.some.injEq, Prod.mk.injEq] at h
        rw [← h.2]
        simp only [List.length_cons] at hws
        omega
      · simp only [Option.some.injEq, Prod.mk.injEq] at h
        rw [← h.2]
        simp only [List.length_cons] at hws
        omega
      · simp only [Option.map_eq_some', Prod.exists, Prod.mk.injEq] at h
        obtain ⟨str, r', hrec, _, hr⟩ := h
        have := length_parseStringBody _ _ _ hrec
        subst hr
        simp only [List.length_cons] at hws
        omega
      · next rest =>
        have hws2 := length_skipWhiteSpace rest
        simp only [List.length_cons] at hws
        split at h
        · next r' heq =>
          simp only [Option.some.injEq, Prod.mk.injEq] at h
          rw [← h.2]
          rw [heq] at hws2
          simp only [List.length_cons] at hws2
          omega
        · simp only [Option.map_eq_some', Prod.exists, Prod.mk.injEq] at h
          obtain ⟨vs, r', hrec, _, hr⟩ := h
          have := ihE _ _ _ hrec
          subst hr
          omega
      · next rest =>
        have hws2 := length_skipWhiteSpace rest
        simp only [List.length_cons] at hws
        split at h
        · next r' heq =>
          simp only [Option.some.injEq, Prod.mk.injEq] at h
          rw [← h.2]
          rw [heq] at hws2
          simp only [List.length_cons] at hws2
          omega
        · simp only [Option.map_eq_some', Prod.exists, Prod.mk.injEq] at h
          obtain ⟨ps, r', hrec, _, hr⟩ := h
          have := ihM _ _ _ hrec
          subst hr
          omega
      · simp only [Option.map_eq_some', Prod.exists, Prod.mk.injEq] at h
        obtain ⟨q, r', hrec, _, hr⟩ := h
        have := length_parseNumber _ _ _ hrec
        subst hr
        omega
    · intro s vs r h
      rw [parseElements.eq_2] at h
      simp only [Option.bind_eq_some, Prod.exists] at h
      obtain ⟨v, rest, hv, h⟩ := h
      have hrest := ihV _ _ _ hv
      have hws := length_skipWhiteSpace rest
      generalize skipWhiteSpace rest = s' at h hws
      split at h
      · simp only [Option.map_eq_some', Prod.exists, Prod.mk.injEq] at h
        obtain ⟨vs', r', hrec, _, hr⟩ := h
        have := ihE _ _ _ hrec
        subst hr
        simp only [List.length_cons] at hws
        omega
      · simp only [Option.some.injEq, Prod.mk.injEq] at h
        rw [← h.2]
        simp only [List.length_cons] at hws
        omega
      · cases h
    · intro s ps r h
      rw [parseMembers.eq_2] at h
      have hws := length_skipWhiteSpace s
      generalize skipWhiteSpace s = s' at h hws
      split at h
      · next rest =>
        simp only [List.length_cons] at hws
        simp only [Option.bind_eq_some, Prod.exists] at h
        obtain ⟨key, rest1, hkey, h⟩ := h
        have hk := length_parseStringBody _ _ _ hkey
        have hws1 := length_skipWhiteSpace rest1
        generalize skipWhiteSpace rest1 = s1 at h hws1
        split at h
        · next rest2 =>
          simp only [List.length_cons] at hws1
          simp only [Option.bind_eq_some, Prod.exists] at h
          obtain ⟨v, rest3, hv, h⟩ := h
          have hv' := ihV _ _ _ hv
          have hws3 := length_skipWhiteSpace rest3
          generalize skipWhiteSpace rest3 = s3 at h hws3
          split at h
          · simp only [Option.map_eq_some', Prod.exists, Prod.mk.injEq] at h
            obtain ⟨ps', r', hrec, _, hr⟩ := h
            have := ihM _ _ _ hrec
            subst hr
            simp only [List.length_cons] at hws3
            omega
          · simp only [Option.some.injEq, Prod.mk.injEq] at h
            rw [← h.2]
            simp only [List.length_cons] at hws3
            omega
          · cases h
        · cases h
      · cases h

/-- With fuel above twice the length of the input, more fuel does not change the
result of the three parsers. -/
theorem fuel_stable (fuel : Nat) :
    (∀ s, 2 * s.length + 1 ≤ fuel → ∀ k, parseValue (fuel + k) s = parseValue fuel s) ∧
      (∀ s, 2 * s.length + 2 ≤ fuel → ∀ k, parseElements (fuel + k) s = parseElements fuel s) ∧
      (∀ s, 2 * s.length + 2 ≤ fuel → ∀ k, parseMembers (fuel + k) s = parseMembers fuel s) := by
  induction fuel with
  | zero =>
    refine ⟨?_, ?_, ?_⟩ <;> intro s hs <;> omega
  | succ fuel ih =>
    obtain ⟨ihV, ihE, ihM⟩ := ih
    refine ⟨?_, ?_, ?_⟩
    · intro s hs k
      rw [show fuel + 1 + k = (fuel + k) + 1 by omega, parseValue.eq_2, parseValue.eq_2]
      have hws := length_skipWhiteSpace s
      generalize skipWhiteSpace s = s' at hws
      have hE : ∀ rest, rest.length + 1 ≤ s'.length →
          parseElements (fuel + k) rest = parseElements fuel rest :=
        fun rest hrest => ihE rest (by omega) k
      have hM : ∀ rest, rest.length + 1 ≤ s'.length →
          parseMembers (fuel + k) rest = parseMembers fuel rest :=
        fun rest hrest => ihM rest (by omega) k
      split
      · rfl
      · rfl
      · rfl
      · rfl
      · next rest =>
        rw [hE rest (by simp)]
      · next rest =>
        rw [hM rest (by simp)]
      · rfl
    · intro s hs k
      rw [show fuel + 1 + k = (fuel + k) + 1 by omega, parseElements.eq_2, parseElements.eq_2,
        ihV s (by omega) k]
      cases hv : parseValue fuel s with
      | none => rfl
      | some p =>
        obtain ⟨v, rest⟩ := p
        have hrest := (length_parse_rest fuel).1 _ _ _ hv
        simp only [Option.some_bind]
        have hws := length_skipWhiteSpace rest
        generalize skipWhiteSpace rest = s' at hws
        split
        · next r =>
          simp only [List.length_cons] at hws
          rw [ihE r (by omega) k]
        · rfl
        · rfl
    · intro s hs k
      rw [show fuel + 1 + k = (fuel + k) + 1 by omega, parseMembers.eq_2, parseMembers.eq_2]
      have hws := length_skipWhiteSpace s
      generalize skipWhiteSpace s = s' at hws
      split
      · next rest =>
        simp only [List.length_cons] at hws
        cases hkey : parseStringBody rest with
        | none => rfl
        | some p =>
          obtain ⟨key, rest1⟩ := p
          have hk := length_parseStringBody _ _ _ hkey
          simp only [Option.some_bind]
          have hws1 := length_skipWhiteSpace rest1
          generalize skipWhiteSpace rest1 = s1 at hws1
          split
          · next rest2 =>
            simp only [List.length_cons] at hws1
            rw [ihV rest2 (by omega) k]
            cases hv : parseValue fuel rest2 with
            | none => rfl
            | some p =>
              obtain ⟨v, rest3⟩ := p
              have hv' := (length_parse_rest fuel).1 _ _ _ hv
              simp only [Option.some_bind]
              have hws3 := length_skipWhiteSpace rest3
              generalize skipWhiteSpace rest3 = s3 at hws3
              split
              · next r =>
                simp only [List.length_cons] at hws3
                rw [ihM r (by omega) k]
              · rfl
              · rfl
          · rfl
      · rfl

/-- The fuel of `parse` is never exhausted: any larger fuel gives the same
result, so the result of `parse` does not depend on the bound. -/
theorem parse_fuel (text : JSString) (k : Nat) :
    parseValue (2 * text.length + 2 + k) text = parseValue (2 * text.length + 2) text :=
  (fuel_stable (2 * text.length + 2)).1 text (by omega) k

end JS.JSON

/-! ### `LyricsDisplay`: active index and row heights -/

namespace LyricsDisplay

/-- The callback of `currentIndex` holds at an existing row exactly when the row
is active. -/
theorem currentIndex_pred_iff (lyrics : List Lyric) (t : ℚ) (j : Nat) (x : Lyric)
    (hx : lyrics[j]? = some x) :
    (decide (t ≥ x.start) &&
      (match lyrics[j + 1]? with
       | some nextLyric => decide (t < nextLyric.start)
       | none => decide (t ≤ x.«end»))) = true ↔ ActiveAt lyrics t j := by
  unfold ActiveAt
  cases hn : lyrics[j + 1]? with
  | none => simp [hx]
  | some n => simp [hx]

/-- An active row exists. -/
theorem activeAt_lt_length {lyrics : List Lyric} {t : ℚ} {i : Nat}
    (h : ActiveAt lyrics t i) : i < lyrics.length := by
  obtain ⟨l, hl, _⟩ := h
  by_contra hc
  rw [List.getElem?_eq_none (by omega)] at hl
  cases hl

/-- C1 (amended): the active index is the first index `i` with
`t >= list[i].start` and, when a next row exists, `t < list[i+1].start`, or, for
the last row, `t <= list[i].end`; it is `-1` exactly when no row is active in
this sense. On the list (0,2),(2,5),(5,8) the index is 0 at t = 0 and t = 1.9,
1 at t = 2, 2 at t = 7.99 and at t = 8, and -1 at t = 100. -/
theorem currentIndex_first_active (lyrics : List Lyric) (t : ℚ) :
    (∀ i : Nat, currentIndex lyrics t = (i : Int) ↔
        ActiveAt lyrics t i ∧ ∀ j, j < i → ¬ ActiveAt lyrics t j) ∧
    (currentIndex lyrics t = -1 ↔ ∀ i, ¬ ActiveAt lyrics t i) ∧
    (currentIndex lyrics t = -1 ∨
      ∃ i : Nat, i < lyrics.length ∧ currentIndex lyrics t = (i : Int)) ∧
    currentIndex scenario 0 = 0 ∧ currentIndex scenario (19 / 10) = 0 ∧
    currentIndex scenario 2 = 1 ∧ currentIndex scenario (799 / 100) = 2 ∧
    currentIndex scenario 8 = 2 ∧ currentIndex scenario 100 = -1 := by
  have hfirst : ∀ i : Nat, currentIndex lyrics t = (i : Int) ↔
      ActiveAt lyrics t i ∧ ∀ j, j < i → ¬ ActiveAt lyrics t j := by
    intro i
    unfold currentIndex JS.findIndex
    rw [JS.findIndexFrom_eq_ofNat]
    constructor
    · rintro ⟨j, x, hi, hx, hp, hlt⟩
      have hij : i = j := by omega
      subst hij
      rw [Nat.zero_add] at hp
      refine ⟨(currentIndex_pred_iff lyrics t i x hx).1 hp, ?_⟩
      intro j' hj' hact
      obtain ⟨y, hy⟩ : ∃ y, lyrics[j']? = some y := by
        obtain ⟨y, hy, _⟩ := hact
        exact ⟨y, hy⟩
      have hf := hlt j' y hj' hy
      rw [Nat.zero_add] at hf
      have ht := (currentIndex_pred_iff lyrics t j' y hy).2 hact
      rw [hf] at ht
      cases ht
    · rintro ⟨hact, hlt⟩
      obtain ⟨x, hx⟩ : ∃ x, lyrics[i]? = some x := by
        obtain ⟨x, hx, _⟩ := hact
        exact ⟨x, hx⟩
      refine ⟨i, x, by omega, hx, ?_, ?_⟩
      · rw [Nat.zero_add]
        exact (currentIndex_pred_iff lyrics t i x hx).2 hact
      · intro j' y hj' hy
        rw [Nat.zero_add]
        cases hb : (decide (t ≥ y.start) &&
            (match lyrics[j' + 1]? with
             | some nextLyric => decide (t < nextLyric.start)
             | none => decide (t ≤ y.«end»))) with
        | false => rfl
        | true => exact absurd ((currentIndex_pred_iff lyrics t j' y hy).1 hb) (hlt j' hj')
  have hnone : currentIndex lyrics t = -1 ↔ ∀ i, ¬ ActiveAt lyrics t i := by
    unfold currentIndex JS.findIndex
    rw [JS.findIndexFrom_eq_neg_one]
    constructor
    · intro h i hact
      obtain ⟨x, hx⟩ : ∃ x, lyrics[i]? = some x := by
        obtain ⟨x, hx, _⟩ := hact
        exact ⟨x, hx⟩
      have hf := h i x hx
      rw [Nat.zero_add] at hf
      have ht := (currentIndex_pred_iff lyrics t i x hx).2 hact
      rw [hf] at ht
      cases ht
    · intro h j x hx
      rw [Nat.zero_add]
      cases hb : (decide (t ≥ x.start) &&
          (match lyrics[j + 1]? with
           | some nextLyric => decide (t < nextLyric.start)
           | none => decide (t ≤ x.«end»))) with
      | false => rfl
      | true => exact absurd ((currentIndex_pred_iff lyrics t j x hx).1 hb) (h j)
  refine ⟨hfirst, hnone, ?_, by decide!, by decide!, by decide!, by decide!, by decide!,
    by decide!⟩
  rcases JS.findIndexFrom_range
      (fun lyric index =>
        let nextLyric := lyrics[index + 1]?
        decide (t ≥ lyric.start) &&
          (match nextLyric with
           | some nextLyric => decide (t < nextLyric.start)
           | none => decide (t ≤ lyric.«end»))) lyrics 0 with h | ⟨i, h⟩
  · exact Or.inl h
  · refine Or.inr ⟨i, ?_, h⟩
    exact activeAt_lt_length ((hfirst i).1 h).1

/-- C1 (counterexample): at t = 100 on the list (0,2),(2,5),(5,8) the last row
satisfies the condition of the claim (its start is not after t and it has no next
row), yet the computed active index is -1, not 2. -/
theorem currentIndex_no_overflow_absorbed :
    SpecActiveAt scenario 100 2 ∧ currentIndex scenario 100 = -1 ∧
      currentIndex scenario 100 ≠ 2 := by
  refine ⟨⟨⟨3, 5, 8, none⟩, by decide, by norm_num, Or.inl (by decide)⟩, by decide!, by decide!⟩

/-- An uncached existing row gets its heuristic height, which is stored in the
cache. -/
theorem getRowHeight_of_uncached (matchedLyrics : List Lyric) (rowHeights : RowHeights)
    (index : Nat) (lyric : Lyric) (hrow : matchedLyrics[index]? = some lyric)
    (hcache : rowHeights index = none) :
    getRowHeight matchedLyrics rowHeights index =
      (heuristicHeight lyric, rowHeights.set index (heuristicHeight lyric)) := by
  have hlines : max ((JS.split 10 (lyric.text.getD [])).length : Int)
      ⌈((lyric.text.getD []).length : ℚ) / 40⌉ = specLines (lyric.text.getD []) := by
    unfold specLines
    rw [JS.length_split]
    push_cast
    rfl
  have hheight : ∀ lines : Int,
      50 + (if lines > 1 then (lines - 1) * 20 else 0) = 50 + max 0 (lines - 1) * 20 := by
    intro lines
    split
    · rw [max_eq_right (by omega)]
    · rw [max_eq_left (by omega)]
      simp
  unfold getRowHeight
  simp only [hcache, hrow]
  rw [hlines, hheight]
  rfl

/-- C4: for an existing row with no cached height, `getRowHeight` returns
`50 + max(0, lines - 1) * 20` with
`lines = max(number of '\n' in the text + 1, ceil(text length / 40))`, the text
being empty when it is missing; with an empty or missing text the result is 50. -/
theorem getRowHeight_uncached_formula (matchedLyrics : List Lyric) (rowHeights : RowHeights)
    (index : Nat) (lyric : Lyric) (hrow : matchedLyrics[index]? = some lyric)
    (hcache : rowHeights index = none) :
    (getRowHeight matchedLyrics rowHeights index).1 =
        50 + max 0 (max (((lyric.text.getD []).count 10 : Int) + 1)
          ⌈((lyric.text.getD []).length : ℚ) / 40⌉ - 1) * 20 ∧
      (lyric.text = none ∨ lyric.text = some [] →
        (getRowHeight matchedLyrics rowHeights index).1 = 50) := by
  rw [getRowHeight_of_uncached matchedLyrics rowHeights index lyric hrow hcache]
  refine ⟨rfl, ?_⟩
  rintro (h | h) <;> simp [heuristicHeight, specLines, h]

/-- C4 (witness): the row `"ab\ncd"` of a one-row list, with an empty cache,
gets height 70. -/
theorem getRowHeight_uncached_formula_witness :
    ([(⟨1, 0, 2, some (utf16 "ab\ncd")⟩ : Lyric)][0]? = some ⟨1, 0, 2, some (utf16 "ab\ncd")⟩) ∧
      RowHeights.empty 0 = none ∧
      (getRowHeight [⟨1, 0, 2, some (utf16 "ab\ncd")⟩] RowHeights.empty 0).1 = 70 := by
  refine ⟨rfl, rfl, ?_⟩
  rw [(getRowHeight_uncached_formula [⟨1, 0, 2, some (utf16 "ab\ncd")⟩]
    RowHeights.empty 0 ⟨1, 0, 2, some (utf16 "ab\ncd")⟩ rfl rfl).1]
  decide!

/-- On a coherent state `getRowHeight` returns the heuristic height of the
current row (50 without a row) and leaves the state coherent. -/
theorem getRowHeight_coherent (s : HeightState) (hs : s.Coherent) (index : Nat) :
    (getRowHeight s.matchedLyrics s.rowHeights index).1 =
        (match s.matchedLyrics[index]? with
         | some lyric => heuristicHeight lyric
         | none => 50) ∧
      HeightState.Coherent
        { s with rowHeights := (getRowHeight s.matchedLyrics s.rowHeights index).2 } := by
  cases hc : s.rowHeights index with
  | some cached =>
    obtain ⟨lyric, hl, hh⟩ := hs index cached hc
    have hget : getRowHeight s.matchedLyrics s.rowHeights index = (cached, s.rowHeights) := by
      unfold getRowHeight
      simp only [hc]
    rw [hget, hl]
    exact ⟨hh, hs⟩
  | none =>
    cases hl : s.matchedLyrics[index]? with
    | none =>
      have hget : getRowHeight s.matchedLyrics s.rowHeights index = (50, s.rowHeights) := by
        unfold getRowHeight
        simp only [hc, hl]
      rw [hget]
      exact ⟨rfl, hs⟩
    | some lyric =>
      rw [getRowHeight_of_uncached s.matchedLyrics s.rowHeights index lyric hl hc]
      refine ⟨rfl, ?_⟩
      intro i h hi
      simp only [RowHeights.set] at hi
      by_cases hii : i = index
      · subst hii
        simp only [if_true, Option.some.injEq] at hi
        exact ⟨lyric, hl, hi.symm⟩
      · rw [if_neg hii] at hi
        exact hs i h hi

/-- A step keeps the property that the cache is coherent unless the list has been
replaced since the last reset. -/
theorem step_coherent (s : HeightState) (hs : s.changedSinceReset = false → s.Coherent)
    (e : HeightEvent) : (s.step e).changedSinceReset = false → (s.step e).Coherent := by
  cases e with
  | replaceLyrics newLyrics =>
    intro h
    simp [HeightState.step] at h
  | resetEffect =>
    intro _ i h hi
    simp [HeightState.step, RowHeights.empty] at hi
  | rowHeight index =>
    intro h
    exact (getRowHeight_coherent s (hs h) index).2

/-- A sequence of steps keeps the property that the cache is coherent unless the
list has been replaced since the last reset. -/
theorem run_coherent (events : List HeightEvent) (s : HeightState)
    (hs : s.changedSinceReset = false → s.Coherent) :
    (s.run events).changedSinceReset = false → (s.run events).Coherent := by
  induction events generalizing s with
  | nil => exact hs
  | cons e es ih => exact ih (s.step e) (step_coherent s hs e)

/-- C5 (amended): in every state reached from the mount state by renders with a
new list, runs of the reset effect and `getRowHeight` calls, if the reset effect
has run since the list was last replaced (or the list was never replaced), then
every cached height is the heuristic height of the row at that index of the
current list, and `getRowHeight` returns the heuristic height of the current row
(50 when the row does not exist), never a height of an earlier list. The reset
effect leaves the cache empty; a render with a new list leaves the cache as it
is until the effect runs. -/
theorem rowHeights_coherent_after_reset (matchedLyrics : List Lyric)
    (events : List HeightEvent) :
    (((HeightState.init matchedLyrics).run events).changedSinceReset = false →
        ((HeightState.init matchedLyrics).run events).Coherent) ∧
      (((HeightState.init matchedLyrics).run events).changedSinceReset = false →
        ∀ index,
          (getRowHeight ((HeightState.init matchedLyrics).run events).matchedLyrics
              ((HeightState.init matchedLyrics).run events).rowHeights index).1 =
            (match ((HeightState.init matchedLyrics).run events).matchedLyrics[index]? with
             | some lyric => heuristicHeight lyric
             | none => 50)) ∧
      (∀ i, (((HeightState.init matchedLyrics).run events).step .resetEffect).rowHeights i =
        none) ∧
      (((HeightState.init matchedLyrics).run events).step .resetEffect).changedSinceReset =
        false ∧
      (∀ newLyrics,
        (((HeightState.init matchedLyrics).run events).step
            (.replaceLyrics newLyrics)).rowHeights =
          ((HeightState.init matchedLyrics).run events).rowHeights ∧
        (((HeightState.init matchedLyrics).run events).step
            (.replaceLyrics newLyrics)).changedSinceReset = true) := by
  have hinit : (HeightState.init matchedLyrics).changedSinceReset = false →
      (HeightState.init matchedLyrics).Coherent := by
    intro _ i h hi
    simp [HeightState.init, RowHeights.empty] at hi
  have hrun := run_coherent events (HeightState.init matchedLyrics) hinit
  exact ⟨hrun, fun h index => (getRowHeight_coherent _ (hrun h) index).1, fun _ => rfl, rfl,
    fun _ => ⟨rfl, rfl⟩⟩

/-- C5 (counterexample): the list of the one row `"ab\ncd"` is rendered and the
height of row 0 is asked for, which caches 70; then the component is rendered
with the list of the one row `"x"`, whose heuristic height is 50. In this state,
reached by a `getRowHeight` call and a list replacement, the cached height of
row 0 is 70, the cache is not coherent with the current list, and `getRowHeight`
returns 70, the height computed for the previous list. -/
theorem rowHeights_stale_before_reset :
    (((HeightState.init [⟨1, 0, 2, some (utf16 "ab\ncd")⟩]).run
        [.rowHeight 0, .replaceLyrics [⟨1, 0, 2, some (utf16 "x")⟩]]).matchedLyrics =
        [⟨1, 0, 2, some (utf16 "x")⟩]) ∧
      ((HeightState.init [⟨1, 0, 2, some (utf16 "ab\ncd")⟩]).run
        [.rowHeight 0, .replaceLyrics [⟨1, 0, 2, some (utf16 "x")⟩]]).rowHeights 0 =
        some 70 ∧
      heuristicHeight ⟨1, 0, 2, some (utf16 "x")⟩ = 50 ∧
      heuristicHeight ⟨1, 0, 2, some (utf16 "ab\ncd")⟩ = 70 ∧
      ¬ ((HeightState.init [⟨1, 0, 2, some (utf16 "ab\ncd")⟩]).run
        [.rowHeight 0, .replaceLyrics [⟨1, 0, 2, some (utf16 "x")⟩]]).Coherent ∧
      (getRowHeight
        ((HeightState.init [⟨1, 0, 2, some (utf16 "ab\ncd")⟩]).run
          [.rowHeight 0, .replaceLyrics [⟨1, 0, 2, some (utf16 "x")⟩]]).matchedLyrics
        ((HeightState.init [⟨1, 0, 2, some (utf16 "ab\ncd")⟩]).run
          [.rowHeight 0, .replaceLyrics [⟨1, 0, 2, some (utf16 "x")⟩]]).rowHeights 0).1 =
        70 := by
  have hcache : ((HeightState.init [⟨1, 0, 2, some (utf16 "ab\ncd")⟩]).run
      [.rowHeight 0, .replaceLyrics [⟨1, 0, 2, some (utf16 "x")⟩]]).rowHeights 0 =
      some 70 := by decide!
  have hx : heuristicHeight ⟨1, 0, 2, some (utf16 "x")⟩ = 50 := by decide!
  refine ⟨rfl, hcache, hx, by decide!, ?_, by decide!⟩
  intro hco
  obtain ⟨lyric, hl, hh⟩ := hco 0 70 hcache
  have hlyric : lyric = ⟨1, 0, 2, some (utf16 "x")⟩ := by
    have : (some lyric : Option Lyric) = some ⟨1, 0, 2, some (utf16 "x")⟩ := by
      rw [← hl]
      rfl
    exact Option.some.inj this
  rw [hlyric, hx] at hh
  exact absurd hh (by decide)

end LyricsDisplay

/-! ### `LyricItem`: drag and drop, time input, text editor -/

namespace LyricItem

/-- C3: for a row of height `h > 0` the drop zone is `top` exactly when
`y < 0.25 * h`, `bottom` exactly when `y > 0.75 * h` and `middle` otherwise; the
two boundary offsets are in `middle`; and the zone shown by the drag-over
handler is the zone used by the drop handler. -/
theorem dropZone_partition (offsetY height : ℚ) (hpos : 0 < height) :
    (onDrop.zone offsetY height = .top ↔ offsetY < 0.25 * height) ∧
      (onDrop.zone offsetY height = .bottom ↔ offsetY > 0.75 * height) ∧
      (onDrop.zone offsetY height = .middle ↔
        0.25 * height ≤ offsetY ∧ offsetY ≤ 0.75 * height) ∧
      onDrop.zone (0.25 * height) height = .middle ∧
      onDrop.zone (0.75 * height) height = .middle ∧
      onDragOver true false offsetY height = some (onDrop.zone offsetY height) ∧
      ∀ allowEditing isEditing zone,
        onDragOver allowEditing isEditing offsetY height = some zone →
          zone = onDrop.zone offsetY height := by
  have hzone : ∀ y : ℚ, onDrop.zone y height =
      if y < 0.25 * height then Zone.top
      else if y > 0.75 * height then Zone.bottom else Zone.middle := by
    intro y
    unfold onDrop.zone
    rw [mul_comm height 0.25, mul_comm height 0.75]
  have hq : (0.25 : ℚ) * height < 0.75 * height := by
    have : (0.75 : ℚ) * height - 0.25 * height = height / 2 := by ring
    linarith
  refine ⟨?_, ?_, ?_, ?_, ?_, ?_, ?_⟩
  · rw [hzone]
    constructor
    · intro h
      by_contra hc
      rw [if_neg hc] at h
      split at h <;> cases h
    · intro h
      rw [if_pos h]
  · rw [hzone]
    constructor
    · intro h
      by_cases h1 : offsetY < 0.25 * height
      · rw [if_pos h1] at h
        cases h
      · rw [if_neg h1] at h
        by_contra hc
        rw [if_neg hc] at h
        cases h
    · intro h
      have h1 : ¬ offsetY < 0.25 * height := by
        intro h1
        exact absurd (lt_trans h1 hq) (not_lt.mpr (le_of_lt h))
      rw [if_neg h1, if_pos h]
  · rw [hzone]
    constructor
    · intro h
      by_cases h1 : offsetY < 0.25 * height
      · rw [if_pos h1] at h
        cases h
      · rw [if_neg h1] at h
        by_cases h2 : offsetY > 0.75 * height
        · rw [if_pos h2] at h
          cases h
        · exact ⟨not_lt.mp h1, not_lt.mp h2⟩
    · rintro ⟨h1, h2⟩
      rw [if_neg (not_lt.mpr h1), if_neg (not_lt.mpr h2)]
  · rw [hzone, if_neg (lt_irrefl _), if_neg (not_lt.mpr (le_of_lt hq))]
  · rw [hzone, if_neg (not_lt.mpr (le_of_lt hq)), if_neg (lt_irrefl _)]
  · rfl
  · intro allowEditing isEditing zone h
    unfold onDragOver at h
    split at h
    · cases h
    · simp only [Option.some.injEq] at h
      rw [← h]
      rfl

/-- C3 (witness): a row 40 pixels high, offset 10 (the boundary of the top
quarter), which is in the middle zone. -/
theorem dropZone_partition_witness :
    (0 : ℚ) < 40 ∧ onDrop.zone 10 40 = .middle ∧
      onDragOver true false 10 40 = some (onDrop.zone 10 40) :=
  ⟨by norm_num,
    ((dropZone_partition 10 40 (by norm_num)).2.2.1).2 ⟨by norm_num, by norm_num⟩,
    (dropZone_partition 10 40 (by norm_num)).2.2.2.2.2.1⟩

/-- The text written by `onDragStart` parses to an object whose `index` is the row
index. -/
theorem onDragStart_parse (shiftKey : Bool) (index : Nat) (data : JSString)
    (hdata : onDragStart true false shiftKey index = some data) :
    JS.JSON.parse data =
      some (.object [(utf16 "index", JS.Value.ofNat index),
        (utf16 "type", .string (if shiftKey then utf16 "move" else utf16 "merge"))]) := by
  have h1 : utf16 "\x7b\"index\":" = [123, 34, 105, 110, 100, 101, 120, 34, 58] := by decide
  have h2 : utf16 ",\"type\":\"" = [44, 34, 116, 121, 112, 101, 34, 58, 34] := by decide
  have h3 : utf16 "\"\x7d" = [34, 125] := by decide
  have h4 : utf16 "move" = [109, 111, 118, 101] := by decide
  have h5 : utf16 "merge" = [109, 101, 114, 103, 101] := by decide
  have h6 : utf16 "index" = [105, 110, 100, 101, 120] := by decide
  have h7 : utf16 "type" = [116, 121, 112, 101] := by decide
  simp only [onDragStart, Bool.not_true, Bool.or_false, Bool.false_eq_true, if_false,
    Option.some.injEq] at hdata
  subst hdata
  rw [h1, h2, h3, h4, h5, h6, h7]
  have ht : (if shiftKey = true then [109, 111, 118, 101] else [109, 101, 114, 103, 101]) =
      [109, 111, 118, 101] ∨
      (if shiftKey = true then [109, 111, 118, 101] else [109, 101, 114, 103, 101]) =
      [109, 101, 114, 103, 101] := by
    cases shiftKey <;> simp
  generalize (if shiftKey = true then [109, 111, 118, 101] else [109, 101, 114, 103, 101]) = t
    at ht ⊢
  have hlist : [123, 34, 105, 110, 100, 101, 120, 34, 58] ++ JS.natToString index ++
      [44, 34, 116, 121, 112, 101, 34, 58, 34] ++ t ++ [34, 125] =
      123 :: 34 :: 105 :: 110 :: 100 :: 101 :: 120 :: 34 :: 58 ::
        (JS.natToString index ++
          44 :: 34 :: 116 :: 121 :: 112 :: 101 :: 34 :: 58 :: 34 :: (t ++ [34, 125])) := by
    simp
  rw [hlist]
  unfold JS.JSON.parse
  rw [JS.parseValue_dragData _ index t (by simp only [List.length_cons]; omega) ht]
  rfl

/-- The dispatch of `onDrop` on a payload that parses to a value whose `index` is
the number `fromIndex`. -/
theorem onDrop_of_index (allowEditing isEditing : Bool) (offsetY height : ℚ)
    (data : JSString) (dragData : JS.Value) (fromIndex toIndex : Nat)
    (hparse : JS.JSON.parse data = some dragData)
    (hindex : dragData.index = some (JS.Value.ofNat fromIndex)) :
    onDrop allowEditing isEditing offsetY height data toIndex =
      if allowEditing = false ∨ isEditing = true then []
      else specDrop (onDrop.zone offsetY height) fromIndex toIndex := by
  unfold onDrop specDrop
  by_cases hguard : allowEditing = false ∨ isEditing = true
  · rw [if_pos hguard, if_pos (by simpa using hguard)]
  · rw [if_neg hguard, if_neg (by simpa using hguard)]
    simp only [hparse, hindex, Option.some_bind, JS.strictEquals_ofNat, JS.lessThan_ofNat,
      Option.map_some', decide_eq_true_eq]
    by_cases heq : fromIndex = toIndex
    · rw [if_pos heq, if_pos heq]
    · rw [if_neg heq, if_neg heq]
      cases onDrop.zone offsetY height <;> rfl

/-- C2 (amended): a drop of row `from` on row `to` whose payload is the text
written by `onDragStart` for row `from` (with either drag type), or any text that
parses to an object with `index = from`, issues, when editing is allowed and the
target row is not in text-edit mode, exactly the request chosen by the zone: top
gives `onMove(from, to)`, bottom gives `onMove(from, to + (from < to ? 0 : 1))`,
middle gives `onMerge(from)` if `from < to` and `onMerge(to)` otherwise, and
nothing when `from = to`. When editing is not allowed or the target row is in
text-edit mode, the drop issues no request. -/
theorem onDrop_wellFormed (allowEditing isEditing : Bool) (offsetY height : ℚ)
    (fromIndex toIndex : Nat) :
    (∀ shiftKey data, onDragStart true false shiftKey fromIndex = some data →
      onDrop allowEditing isEditing offsetY height data toIndex =
        if allowEditing = false ∨ isEditing = true then []
        else specDrop (onDrop.zone offsetY height) fromIndex toIndex) ∧
    (∀ data dragData, JS.JSON.parse data = some dragData →
      dragData.index = some (JS.Value.ofNat fromIndex) →
      onDrop allowEditing isEditing offsetY height data toIndex =
        if allowEditing = false ∨ isEditing = true then []
        else specDrop (onDrop.zone offsetY height) fromIndex toIndex) ∧
    (fromIndex ≠ toIndex →
      (specDrop (onDrop.zone offsetY height) fromIndex toIndex).length = 1) ∧
    (fromIndex = toIndex → specDrop (onDrop.zone offsetY height) fromIndex toIndex = []) := by
  refine ⟨?_, ?_, ?_, ?_⟩
  · intro shiftKey data hdata
    exact onDrop_of_index allowEditing isEditing offsetY height data _ fromIndex toIndex
      (onDragStart_parse shiftKey fromIndex data hdata) (by with_unfolding_all rfl)
  · intro data dragData hparse hindex
    exact onDrop_of_index allowEditing isEditing offsetY height data dragData fromIndex toIndex
      hparse hindex
  · intro hne
    unfold specDrop
    rw [if_neg hne]
    cases onDrop.zone offsetY height
    · rfl
    · show (if fromIndex < toIndex then [Call.onMerge (JS.Value.ofNat fromIndex)]
        else [Call.onMerge (JS.Value.ofNat toIndex)]).length = 1
      split <;> rfl
    · rfl
  · intro heq
    unfold specDrop
    rw [if_pos heq]

/-- C2 (witness): the payload written by `onDragStart` for row 2 with the Shift
key, dropped in the middle zone of row 0 and in the top zone of row 3, with
editing allowed. -/
theorem onDrop_wellFormed_witness :
    onDragStart true false true 2 = some (utf16 "\x7b\"index\":2,\"type\":\"move\"\x7d") ∧
      onDrop true false 20 40 (utf16 "\x7b\"index\":2,\"type\":\"move\"\x7d") 0 =
        [.onMerge (JS.Value.ofNat 0)] ∧
      onDrop true false 0 40 (utf16 "\x7b\"index\":2,\"type\":\"move\"\x7d") 3 =
        [.onMove (JS.Value.ofNat 2) 3] := by
  have hstart : onDragStart true false true 2 =
      some (utf16 "\x7b\"index\":2,\"type\":\"move\"\x7d") := by
    simp [onDragStart, JS.natToString]
    decide
  refine ⟨hstart, ?_, ?_⟩
  · rw [(onDrop_wellFormed true false 20 40 2 0).1 true _ hstart]
    with_unfolding_all rfl
  · rw [(onDrop_wellFormed true false 0 40 2 3).1 true _ hstart]
    with_unfolding_all rfl

/-- C2 (counterexample): a well-formed payload of row 0 dropped in the top zone
of row 1 while that row is in text-edit mode, or while editing is not allowed,
issues no request, where the claim asks for `onMove(0, 1)`. -/
theorem onDrop_guarded_no_request :
    (JS.JSON.parse (utf16 "\x7b\"index\":0,\"type\":\"move\"\x7d")).bind JS.Value.index =
        some (JS.Value.ofNat 0) ∧
      onDrop.zone 0 40 = .top ∧
      onDrop true true 0 40 (utf16 "\x7b\"index\":0,\"type\":\"move\"\x7d") 1 = [] ∧
      onDrop false false 0 40 (utf16 "\x7b\"index\":0,\"type\":\"move\"\x7d") 1 = [] :=
  ⟨by with_unfolding_all rfl, by decide!, rfl, rfl⟩

/-- C9 (evaluation at the failing inputs): the bare decimal string of any `n` is
valid JSON, so the `try` block does not throw, the `catch` block is not reached,
and `dragData.index` is read from a number, which gives `undefined`: for every
`n` and every target row the top zone gives `onMove(undefined, to)`, the bottom
zone `onMove(undefined, to + 1)` and the middle zone `onMerge(to)`, also when
`n = to`. For `"0"` dropped on row 1 the top zone gives `onMove(undefined, 1)`
where the payload with `index: 0` gives `onMove(0, 1)`. -/
theorem onDrop_bare_integer (offsetY height : ℚ) (n toIndex : Nat) :
    (onDrop true false offsetY height (JS.natToString n) toIndex =
      match onDrop.zone offsetY height with
      | .top => [.onMove .undefined toIndex]
      | .bottom => [.onMove .undefined (toIndex + 1)]
      | .middle => [.onMerge (JS.Value.ofNat toIndex)]) ∧
      JS.natToString 0 = utf16 "0" ∧
      JS.JSON.parse (utf16 "0") = some (JS.Value.ofNat 0) ∧
      onDrop true false 0 40 (utf16 "0") 1 = [.onMove .undefined 1] ∧
      onDrop true false 0 40 (utf16 "\x7b\"index\":0\x7d") 1 = [.onMove (JS.Value.ofNat 0) 1] ∧
      onDrop true false 40 40 (utf16 "0") 1 = [.onMove .undefined 2] ∧
      onDrop true false 20 40 (utf16 "0") 1 = [.onMerge (JS.Value.ofNat 1)] ∧
      onDrop true false 20 40 (utf16 "1") 1 = [.onMerge (JS.Value.ofNat 1)] := by
  refine ⟨?_, by decide, ?_, ?_, ?_, ?_, ?_, ?_⟩
  · unfold onDrop
    simp only [JS.parse_natToString, Option.some_bind]
    cases onDrop.zone offsetY height <;> rfl
  all_goals with_unfolding_all rfl

/-- C10 (evaluation at the failing inputs): the payload `"abc"` is neither JSON
nor an integer, yet dropped in the middle zone of row 0 it gives `onMerge(0)` and
in the top zone `onMove(NaN, 0)`; `"null"` gives the same, and the empty object
gives `onMove(undefined, 0)` and `onMerge(0)`. In general every payload that
`JSON.parse` rejects and `parseInt` reads as NaN gives `onMove(NaN, to)` in the
top zone, `onMove(NaN, to + 1)` in the bottom zone and `onMerge(to)` in the
middle zone. -/
theorem onDrop_unparseable (offsetY height : ℚ) (toIndex : Nat) :
    (∀ data, JS.JSON.parse data = none → JS.parseInt data = .nan →
      onDrop true false offsetY height data toIndex =
        match onDrop.zone offsetY height with
        | .top => [.onMove (.number .nan) toIndex]
        | .bottom => [.onMove (.number .nan) (toIndex + 1)]
        | .middle => [.onMerge (JS.Value.ofNat toIndex)]) ∧
      JS.JSON.parse (utf16 "abc") = none ∧ JS.parseInt (utf16 "abc") = .nan ∧
      onDrop true false 20 40 (utf16 "abc") 0 = [.onMerge (JS.Value.ofNat 0)] ∧
      onDrop true false 0 40 (utf16 "abc") 0 = [.onMove (.number .nan) 0] ∧
      onDrop true false 20 40 (utf16 "null") 0 = [.onMerge (JS.Value.ofNat 0)] ∧
      onDrop true false 0 40 (utf16 "null") 0 = [.onMove (.number .nan) 0] ∧
      onDrop true false 20 40 (utf16 "\x7b\x7d") 0 = [.onMerge (JS.Value.ofNat 0)] ∧
      onDrop true false 0 40 (utf16 "\x7b\x7d") 0 = [.onMove .undefined 0] := by
  refine ⟨?_, ?_, ?_, ?_, ?_, ?_, ?_, ?_, ?_⟩
  · intro data hparse hint
    unfold onDrop
    simp only [hparse, hint, Option.none_bind]
    cases onDrop.zone offsetY height <;> rfl
  all_goals with_unfolding_all rfl

/-- `parseTimeInput` never gives a negative number. -/
theorem parseTimeInput_nonneg (str : JSString) (s : ℚ) (h : parseTimeInput str = some s) :
    0 ≤ s := by
  unfold parseTimeInput at h
  split at h
  · split at h
    · simp only [Option.some.injEq] at h
      rw [← h]
      positivity
    · cases h
  · cases h

/-- The three outcomes of the handler: nothing changed, an accepted start edit,
an accepted end edit. -/
theorem commit_cases (props : Props) (field : Field) (seconds : Option ℚ) :
    (handleTimeInputBlur.commit props field seconds).Unchanged props ∨
      (∃ s, seconds = some s ∧ 0 ≤ s ∧ field = .start ∧ s < props.lyric.«end» ∧
        (handleTimeInputBlur.commit props field seconds).lyric =
          (if props.onUpdateLyrics then props.lyric else { props.lyric with start := s }) ∧
        (handleTimeInputBlur.commit props field seconds).update =
          (if props.onUpdateLyrics then
            some fun prev => prev.mapIdx fun i l =>
              if i = props.index then { l with start := s } else l
          else none)) ∨
      (∃ s, seconds = some s ∧ 0 ≤ s ∧ field = .«end» ∧ s > props.lyric.start ∧
        (handleTimeInputBlur.commit props field seconds).lyric =
          (if props.onUpdateLyrics then props.lyric else { props.lyric with «end» := s }) ∧
        (handleTimeInputBlur.commit props field seconds).update =
          (if props.onUpdateLyrics then
            some fun prev => prev.mapIdx fun i l =>
              if i = props.index then { l with «end» := s } else l
          else none)) := by
  unfold handleTimeInputBlur.commit
  cases seconds with
  | none => exact Or.inl ⟨rfl, rfl, rfl⟩
  | some s =>
    by_cases h0 : s ≥ 0
    · by_cases h1 : field = .start ∧ s < props.lyric.«end»
      · refine Or.inr (Or.inl ⟨s, rfl, h0, h1.1, h1.2, ?_, ?_⟩) <;> simp only [h0, h1] <;> simp
      · by_cases h2 : field = .«end» ∧ s > props.lyric.start
        · refine Or.inr (Or.inr ⟨s, rfl, h0, h2.1, h2.2, ?_, ?_⟩) <;>
            simp only [h0, h1, h2] <;> simp
        · refine Or.inl ?_
          simp only [h0, h1, h2]
          exact ⟨rfl, rfl, rfl⟩
    · refine Or.inl ?_
      simp only [h0]
      exact ⟨rfl, rfl, rfl⟩

/-- A missing, negative or out-of-range value changes nothing. -/
theorem commit_rejected (props : Props) (field : Field) (seconds : Option ℚ)
    (hrej : seconds = none ∨ ∃ s, seconds = some s ∧
      (s < 0 ∨ (field = .start ∧ s ≥ props.lyric.«end») ∨
        (field = .«end» ∧ s ≤ props.lyric.start))) :
    (handleTimeInputBlur.commit props field seconds).Unchanged props := by
  rcases commit_cases props field seconds with h | ⟨s, hs, h0, hf, hlt, _⟩ | ⟨s, hs, h0, hf, hgt, _⟩
  · exact h
  · exfalso
    rcases hrej with hn | ⟨s', hs', hneg | ⟨_, hge⟩ | ⟨hf', _⟩⟩
    · rw [hn] at hs; cases hs
    · rw [hs'] at hs; cases hs; linarith
    · rw [hs'] at hs; cases hs; linarith
    · rw [hf'] at hf; cases hf
  · exfalso
    rcases hrej with hn | ⟨s', hs', hneg | ⟨hf', _⟩ | ⟨_, hle⟩⟩
    · rw [hn] at hs; cases hs
    · rw [hs'] at hs; cases hs; linarith
    · rw [hf'] at hf; cases hf
    · rw [hs'] at hs; cases hs; linarith

/-- C6: for a subtitle with `start < end`, a time-input edit is rejected, with no
call and both `start` and `end` unchanged, when the text is unparseable, when a
start edit parses to a value `>= end`, when an end edit parses to a value
`<= start`, and when the value is negative (which no text parses to); and after
the handler the subtitle, whether assigned in place or rebuilt by the updater
given to `onUpdateLyrics`, still has `start < end`, and still has `0 <= start`
if it had before. -/
theorem handleTimeInputBlur_keeps_timing (props : Props) (value : JSString) (field : Field)
    (hlt : props.lyric.start < props.lyric.«end») :
    (parseTimeInput value = none →
        (handleTimeInputBlur props value field).Unchanged props) ∧
      (∀ s, parseTimeInput value = some s → field = .start → s ≥ props.lyric.«end» →
        (handleTimeInputBlur props value field).Unchanged props) ∧
      (∀ s, parseTimeInput value = some s → field = .«end» → s ≤ props.lyric.start →
        (handleTimeInputBlur props value field).Unchanged props) ∧
      (∀ s, s < 0 → (handleTimeInputBlur.commit props field (some s)).Unchanged props) ∧
      (∀ s, parseTimeInput value = some s → 0 ≤ s) ∧
      ((handleTimeInputBlur props value field).lyric.start <
          (handleTimeInputBlur props value field).lyric.«end» ∧
        (0 ≤ props.lyric.start → TimingOk (handleTimeInputBlur props value field).lyric)) ∧
      ∀ f prev, (handleTimeInputBlur props value field).update = some f →
        prev[props.index]? = some props.lyric →
          ∃ l, (f prev)[props.index]? = some l ∧ l.start < l.«end» ∧
            (0 ≤ props.lyric.start → TimingOk l) := by
  refine ⟨?_, ?_, ?_, ?_, parseTimeInput_nonneg value, ?_, ?_⟩
  · intro h
    exact commit_rejected props field _ (Or.inl h)
  · intro s hs hf hge
    exact commit_rejected props field _ (Or.inr ⟨s, hs, Or.inr (Or.inl ⟨hf, hge⟩)⟩)
  · intro s hs hf hle
    exact commit_rejected props field _ (Or.inr ⟨s, hs, Or.inr (Or.inr ⟨hf, hle⟩)⟩)
  · intro s hneg
    exact commit_rejected props field _ (Or.inr ⟨s, rfl, Or.inl hneg⟩)
  · unfold handleTimeInputBlur
    rcases commit_cases props field (parseTimeInput value) with
      ⟨_, _, h⟩ | ⟨s, hs, h0, hf, hlt', hl, _⟩ | ⟨s, hs, h0, hf, hgt, hl, _⟩
    · rw [h]
      exact ⟨hlt, fun h0 => ⟨h0, hlt⟩⟩
    · rw [hl]
      cases props.onUpdateLyrics
      · exact ⟨hlt', fun _ => ⟨h0, hlt'⟩⟩
      · exact ⟨hlt, fun h0 => ⟨h0, hlt⟩⟩
    · rw [hl]
      cases props.onUpdateLyrics
      · exact ⟨hgt, fun h0 => ⟨h0, hgt⟩⟩
      · exact ⟨hlt, fun h0 => ⟨h0, hlt⟩⟩
  · intro f prev hf hprev
    unfold handleTimeInputBlur at hf
    rcases commit_cases props field (parseTimeInput value) with
      ⟨_, h, _⟩ | ⟨s, hs, h0, hfield, hlt', _, hu⟩ | ⟨s, hs, h0, hfield, hgt, _, hu⟩
    · rw [h] at hf
      cases hf
    · rw [hu] at hf
      cases hupd : props.onUpdateLyrics
      · rw [hupd] at hf
        cases hf
      · rw [hupd] at hf
        simp only [if_true, Option.some.injEq] at hf
        subst hf
        refine ⟨{ props.lyric with start := s }, ?_, hlt', fun _ => ⟨h0, hlt'⟩⟩
        simp [hprev]
    · rw [hu] at hf
      cases hupd : props.onUpdateLyrics
      · rw [hupd] at hf
        cases hf
      · rw [hupd] at hf
        simp only [if_true, Option.some.injEq] at hf
        subst hf
        refine ⟨{ props.lyric with «end» := s }, ?_, hgt, fun h0' => ⟨h0', hgt⟩⟩
        simp [hprev]

/-- C6 (witness): the subtitle (1, 3) in a row without `onUpdateLyrics`; the start
edit `"00:03.00"` is rejected and the start edit `"00:02.50"` is accepted and
leaves `start < end`. -/
theorem handleTimeInputBlur_keeps_timing_witness :
    (1 : ℚ) < 3 ∧
      (handleTimeInputBlur ⟨⟨1, 1, 3, none⟩, 0, false, true, false, true, false⟩
        (utf16 "00:03.00") .start).Unchanged
          ⟨⟨1, 1, 3, none⟩, 0, false, true, false, true, false⟩ ∧
      (handleTimeInputBlur ⟨⟨1, 1, 3, none⟩, 0, false, true, false, true, false⟩
          (utf16 "00:02.50") .start).lyric.start <
        (handleTimeInputBlur ⟨⟨1, 1, 3, none⟩, 0, false, true, false, true, false⟩
          (utf16 "00:02.50") .start).lyric.«end» ∧
      (handleTimeInputBlur ⟨⟨1, 1, 3, none⟩, 0, false, true, false, true, false⟩
          (utf16 "00:02.50") .start).lyric.start = 5 / 2 := by
  refine ⟨by norm_num, ?_, ?_, by with_unfolding_all rfl⟩
  · exact (handleTimeInputBlur_keeps_timing
      ⟨⟨1, 1, 3, none⟩, 0, false, true, false, true, false⟩ (utf16 "00:03.00") .start
      (by norm_num)).2.1 3 (by with_unfolding_all rfl) rfl (by norm_num)
  · exact (handleTimeInputBlur_keeps_timing
      ⟨⟨1, 1, 3, none⟩, 0, false, true, false, true, false⟩ (utf16 "00:02.50") .start
      (by norm_num)).2.2.2.2.2.1.1

/-- A row rendered by `VirtualizedLyricRow` shows a subtitle of the list and has
no `onUpdateLyrics`. -/
theorem virtualizedLyricRow_props (lyrics : List Lyric) (currentIndex : Int)
    (allowEditing : Bool) (index : Nat) (props : Props)
    (hrow : LyricsDisplay.VirtualizedLyricRow lyrics currentIndex allowEditing index =
      some props) :
    lyrics[index]? = some props.lyric ∧ props.onUpdateLyrics = false := by
  unfold LyricsDisplay.VirtualizedLyricRow at hrow
  cases hl : lyrics[index]? with
  | none => simp [hl] at hrow
  | some lyric =>
    simp only [hl, Option.map_some', Option.some.injEq] at hrow
    subst hrow
    exact ⟨rfl, rfl⟩

/-- C7 (evaluation at the failing inputs): in every row that `VirtualizedLyricRow`
renders, which gets no `onUpdateLyrics`, the time-input handler never hands an
updater to `onUpdateLyrics`, and an accepted start edit (a parsed value below the
subtitle's end) or end edit (a parsed value above its start) is assigned to the
subtitle object that was passed to the row. For the subtitle (0, 2) the start
edit `"00:01.00"` calls `onTextEdit(0, lyric.text)` with the unchanged text and
leaves the passed object with `start = 1`. -/
theorem handleTimeInputBlur_in_place (lyrics : List Lyric) (currentIndex : Int)
    (allowEditing : Bool) (index : Nat) (value : JSString) :
    (∀ props, LyricsDisplay.VirtualizedLyricRow lyrics currentIndex allowEditing index =
        some props →
      (∀ field, (handleTimeInputBlur props value field).update = none) ∧
      (∀ s, parseTimeInput value = some s → s < props.lyric.«end» →
        (handleTimeInputBlur props value .start).lyric = { props.lyric with start := s }) ∧
      (∀ s, parseTimeInput value = some s → s > props.lyric.start →
        (handleTimeInputBlur props value .«end»).lyric = { props.lyric with «end» := s })) ∧
    LyricsDisplay.VirtualizedLyricRow [⟨1, 0, 2, some (utf16 "a")⟩] 0 true 0 =
        some ⟨⟨1, 0, 2, some (utf16 "a")⟩, 0, true, true, false, true, false⟩ ∧
      (handleTimeInputBlur ⟨⟨1, 0, 2, some (utf16 "a")⟩, 0, true, true, false, true, false⟩
        (utf16 "00:01.00") .start).calls = [.onTextEdit 0 (some (utf16 "a"))] ∧
      (handleTimeInputBlur ⟨⟨1, 0, 2, some (utf16 "a")⟩, 0, true, true, false, true, false⟩
        (utf16 "00:01.00") .start).lyric = ⟨1, 1, 2, some (utf16 "a")⟩ ∧
      (handleTimeInputBlur ⟨⟨1, 0, 2, some (utf16 "a")⟩, 0, true, true, false, true, false⟩
        (utf16 "00:04.00") .«end»).lyric = ⟨1, 0, 4, some (utf16 "a")⟩ := by
  refine ⟨?_, ?_, ?_, ?_, ?_⟩
  · intro props hrow
    have hno := (virtualizedLyricRow_props lyrics currentIndex allowEditing index props hrow).2
    refine ⟨?_, ?_, ?_⟩
    · intro field
      unfold handleTimeInputBlur
      rcases commit_cases props field (parseTimeInput value) with
        ⟨_, h, _⟩ | ⟨s, _, _, _, _, _, hu⟩ | ⟨s, _, _, _, _, _, hu⟩
      · exact h
      · rw [hu, hno]
        rfl
      · rw [hu, hno]
        rfl
    · intro s hs hlt
      have h0 := parseTimeInput_nonneg value s hs
      unfold handleTimeInputBlur handleTimeInputBlur.commit
      simp [hs, h0, hlt, hno]
    · intro s hs hgt
      have h0 := parseTimeInput_nonneg value s hs
      unfold handleTimeInputBlur handleTimeInputBlur.commit
      simp [hs, h0, hgt, hno]
  all_goals with_unfolding_all rfl

/-- C8 (amended): submitting the text editor calls `onTextEdit` exactly when the
trimmed editor text differs from the subtitle's current text, and then once,
with the row index and the trimmed text; when the trimmed editor text equals the
current text, in particular when the editor text equals a current text that has
no white space at its ends, nothing is called. -/
theorem handleTextSubmit_calls (props : Props) (editText : JSString) :
    ((handleTextSubmit props editText).1 = [] ↔ some (JS.trim editText) = props.lyric.text) ∧
      ((handleTextSubmit props editText).1 ≠ [] →
        (handleTextSubmit props editText).1 =
            [.onTextEdit props.index (some (JS.trim editText))] ∧
          some (JS.trim editText) ≠ props.lyric.text) ∧
      (some editText = props.lyric.text → JS.trim editText = editText →
        (handleTextSubmit props editText).1 = []) := by
  unfold handleTextSubmit
  by_cases h : some (JS.trim editText) = props.lyric.text
  · simp [h]
  · simp [h]
    intro h1 h2
    rw [h2] at h
    exact absurd h1 h

/-- C8 (counterexample): the current text `" a"` begins with a space; submitting
the editor with that same text calls `onTextEdit(0, "a")`. -/
theorem handleTextSubmit_untrimmed_text :
    (handleTextSubmit ⟨⟨1, 0, 2, some (utf16 " a")⟩, 0, false, true, false, true, false⟩
      (utf16 " a")).1 = [.onTextEdit 0 (some (utf16 "a"))] := by
  with_unfolding_all rfl


/-- C13 (evaluation at the failing input): a click on the text of a row whose
start is 5, made 50 ms after the recorded drag end, calls `onLyricClick(5)`,
where the same click on the row container calls nothing; the handler of the text
does not read the drag end at all, so it seeks at every time. On the row
container a click less than 100 ms after the drag end calls nothing and a click
100 ms or more after it calls `onLyricClick` with the row's start. -/
theorem textOnClick_not_suppressed (props : Props) (now lastDragEnd : ℚ) :
    textOnClick props false = [.onLyricClick props.lyric.start] ∧
      (now - lastDragEnd < 100 → onClick props now lastDragEnd = []) ∧
      (100 ≤ now - lastDragEnd →
        onClick props now lastDragEnd = [.onLyricClick props.lyric.start]) ∧
      textOnClick ⟨⟨1, 5, 7, none⟩, 0, false, true, false, true, false⟩ false =
        [.onLyricClick 5] ∧
      onClick ⟨⟨1, 5, 7, none⟩, 0, false, true, false, true, false⟩ 1050 1000 = [] := by
  refine ⟨rfl, ?_, ?_, rfl, ?_⟩
  · intro h
    unfold onClick
    rw [if_pos h]
  · intro h
    unfold onClick
    rw [if_neg (not_lt.mpr h)]
  · unfold onClick
    rw [if_pos (by norm_num)]

/-- C14 (evaluation at the failing input): on the first row "insert above" calls
`onInsert(0)`, the same request as "insert below", not `onInsert(-1)`; on every
other row it calls `onInsert(i - 1)`, which differs from the `onInsert(i)` of
"insert below". -/
theorem handleInsertAbove_first_row (props : Props) :
    (props.index = 0 →
        handleInsertAbove props = [.onInsert 0] ∧
          handleInsertAbove props = handleInsertBelow props) ∧
      (0 < props.index →
        handleInsertAbove props = [.onInsert ((props.index : Int) - 1)] ∧
          handleInsertAbove props ≠ handleInsertBelow props) ∧
      handleInsertAbove ⟨⟨1, 0, 2, none⟩, 0, false, true, false, true, false⟩ = [.onInsert 0] ∧
      handleInsertBelow ⟨⟨1, 0, 2, none⟩, 0, false, true, false, true, false⟩ = [.onInsert 0] := by
  refine ⟨?_, ?_, rfl, rfl⟩
  · intro h
    unfold handleInsertAbove handleInsertBelow
    rw [h]
    exact ⟨rfl, rfl⟩
  · intro h
    unfold handleInsertAbove handleInsertBelow
    rw [if_pos h]
    refine ⟨rfl, ?_⟩
    intro heq
    simp only [List.cons.injEq, Call.onInsert.injEq, and_true] at heq
    omega

/-- C15 (evaluation at the failing input): row 0 dropped in the middle zone of
row 2 gives `onMerge(0)`, which combines rows 0 and 1 and leaves the target row 2
out. In general a drop in the middle zone gives `onMerge(min(from, to))`, whose
two rows are the dragged row and the target row exactly when the two are
adjacent. -/
theorem onDrop_middle_merge_rows (offsetY height : ℚ) (fromIndex toIndex : Nat) :
    (∀ shiftKey data, onDragStart true false shiftKey fromIndex = some data →
      onDrop.zone offsetY height = .middle → fromIndex ≠ toIndex →
        onDrop true false offsetY height data toIndex =
            [.onMerge (JS.Value.ofNat (min fromIndex toIndex))] ∧
          ((fromIndex ∈ mergedRows (min fromIndex toIndex) ∧
              toIndex ∈ mergedRows (min fromIndex toIndex)) ↔
            (fromIndex + 1 = toIndex ∨ toIndex + 1 = fromIndex))) ∧
      onDragStart true false false 0 = some (utf16 "\x7b\"index\":0,\"type\":\"merge\"\x7d") ∧
      onDrop true false 20 40 (utf16 "\x7b\"index\":0,\"type\":\"merge\"\x7d") 2 =
        [.onMerge (JS.Value.ofNat 0)] ∧
      mergedRows 0 = [0, 1] ∧ 2 ∉ mergedRows 0 := by
  refine ⟨?_, ?_, ?_, rfl, by decide⟩
  · intro shiftKey data hdata hzone hne
    have hdrop := onDrop_of_index true false offsetY height data _ fromIndex toIndex
      (onDragStart_parse shiftKey fromIndex data hdata) (by with_unfolding_all rfl)
    rw [hdrop, hzone]
    simp only [Bool.true_eq_false, Bool.false_eq_true, or_self, if_false, specDrop, hne]
    constructor
    · by_cases hlt : fromIndex < toIndex
      · rw [if_pos hlt, min_eq_left (le_of_lt hlt)]
      · rw [if_neg hlt, min_eq_right (not_lt.mp hlt)]
    · unfold mergedRows
      simp only [List.mem_cons, List.mem_singleton, List.not_mem_nil, or_false]
      omega
  · simp [onDragStart, JS.natToString]
    decide
  · with_unfolding_all rfl

end LyricItem

namespace LyricsDisplay

/-- The `handleDrag` arguments of two lists of calls in a row. -/
theorem handleDragArgs_append (a b : List DragCall) :
    handleDragArgs (a ++ b) = handleDragArgs a ++ handleDragArgs b := by
  induction a with
  | nil => rfl
  | cons c cs ih =>
    cases c <;> simp [handleDragArgs, ih]

/-- The calls of a run of queued callbacks carry the queued `clientX` values. -/
theorem handleDragArgs_map (frames : List ℚ) (duration : ℚ) :
    handleDragArgs (frames.map fun x => DragCall.handleDrag x duration) = frames := by
  induction frames with
  | nil => rfl
  | cons x xs ih => simp [handleDragArgs, ih]

/-- One event keeps the account of the queued callbacks: what was queued before,
plus the move processed by this event, is what `handleDrag` was called with plus
what is still queued. -/
theorem dragStep_frames (lyrics : List Lyric) (duration : ℚ) (s : DragState) (e : DragEvent) :
    handleDragArgs (dragStep lyrics duration s e).2 ++ (dragStep lyrics duration s e).1.frames =
      s.frames ++ (processedMoves lyrics duration s [e]).map Prod.snd := by
  cases e with
  | mouseDown index field clientX =>
    simp only [dragStep, handleMouseDown, processedMoves, List.append_nil, List.map_nil]
    cases lyrics[index]? <;> simp [handleDragArgs]
  | mouseMove now clientX =>
    simp only [dragStep, processedMoves, List.append_nil]
    cases hl : s.listening
    · simp [handleDragArgs]
    · unfold handleMouseMove
      by_cases hthr : now - s.lastMoveTime < 16
      · simp [hthr, handleDragArgs]
      · simp [hthr, handleDragArgs]
  | mouseUp =>
    simp only [dragStep, handleMouseUp, processedMoves, List.append_nil, List.map_nil]
    cases s.listening <;> simp [handleDragArgs]
  | animationFrame =>
    simp only [dragStep, processedMoves, List.append_nil, List.map_nil, handleDragArgs_map]

/-- The processed moves of a sequence that starts with the event `e`. -/
theorem processedMoves_cons (lyrics : List Lyric) (duration : ℚ) (s : DragState)
    (e : DragEvent) (es : List DragEvent) :
    processedMoves lyrics duration s (e :: es) =
      processedMoves lyrics duration s [e] ++
        processedMoves lyrics duration (dragStep lyrics duration s e).1 es := by
  simp [processedMoves]

/-- A sequence of events keeps the account of the queued callbacks: no callback
is ever cancelled. -/
theorem dragRun_frames (lyrics : List Lyric) (duration : ℚ) (es : List DragEvent)
    (s : DragState) :
    handleDragArgs (dragRun lyrics duration s es).2 ++ (dragRun lyrics duration s es).1.frames =
      s.frames ++ (processedMoves lyrics duration s es).map Prod.snd := by
  induction es generalizing s with
  | nil => simp [dragRun, processedMoves, handleDragArgs]
  | cons e es ih =>
    have hstep := dragStep_frames lyrics duration s e
    have hrest := ih (dragStep lyrics duration s e).1
    rw [processedMoves_cons, List.map_append, ← List.append_assoc, ← hstep]
    simp only [dragRun, handleDragArgs_append, List.append_assoc]
    rw [hrest]

/-- C11 (amended): `LyricsDisplay` cancels no queued animation frame and its
frame callback checks nothing: in every sequence of events each processed move
queues one callback, and every queued callback calls `handleDrag` with its
`clientX` when an animation frame runs, or is still queued. A mouse-up calls
`endDrag` and leaves the queue as it is, so the callbacks queued at mouse-up
call `handleDrag` after `endDrag`; once the listeners are removed, a move queues
nothing. -/
theorem dragRun_frames_not_cancelled (lyrics : List Lyric) (duration : ℚ) (s : DragState)
    (es : List DragEvent) :
    (handleDragArgs (dragRun lyrics duration s es).2 ++ (dragRun lyrics duration s es).1.frames =
        s.frames ++ (processedMoves lyrics duration s es).map Prod.snd) ∧
      (dragStep lyrics duration s .mouseUp).1.frames = s.frames ∧
      (s.listening = true →
        (dragRun lyrics duration s [.mouseUp, .animationFrame]).2 =
          .endDrag :: s.frames.map fun x => .handleDrag x duration) ∧
      (s.listening = false →
        ∀ now clientX, dragStep lyrics duration s (.mouseMove now clientX) = (s, [])) := by
  refine ⟨dragRun_frames lyrics duration es s, ?_, ?_, ?_⟩
  · simp only [dragStep, handleMouseUp]
    cases s.listening <;> rfl
  · intro h
    simp [dragRun, dragStep, handleMouseUp, h]
  · intro h now clientX
    simp [dragStep, h]

/-- C11 (counterexample): mouse-down on the start handle of row 0, one mouse-move
at time 100 with `clientX = 15`, mouse-up, then the animation frame: the calls
are `startDrag`, `endDrag` and then `handleDrag(15, duration)`, after `endDrag`. -/
theorem handleDrag_after_endDrag :
    dragRun [⟨1, 0, 2, none⟩] 60 DragState.init
        [.mouseDown 0 .start 10, .mouseMove 100 15, .mouseUp, .animationFrame] =
      ({ listening := false, lastMoveTime := 100, frames := [] },
        [.startDrag 0 .start 10 0, .endDrag, .handleDrag 15 60]) := by
  decide!

/-- The ref `lastMoveTimeRef` after one event: the time of the move if the event
is a processed move, and unchanged otherwise. -/
theorem dragStep_lastMoveTime (lyrics : List Lyric) (duration : ℚ) (s : DragState)
    (e : DragEvent) :
    (processedMoves lyrics duration s [e] = [] ∧
        (dragStep lyrics duration s e).1.lastMoveTime = s.lastMoveTime) ∨
      ∃ now clientX, e = .mouseMove now clientX ∧ s.listening = true ∧
        s.lastMoveTime + 16 ≤ now ∧
        processedMoves lyrics duration s [e] = [(now, clientX)] ∧
        (dragStep lyrics duration s e).1.lastMoveTime = now ∧
        (dragStep lyrics duration s e).1.frames = s.frames ++ [clientX] := by
  cases e with
  | mouseDown index field clientX =>
    left
    simp only [dragStep, handleMouseDown, processedMoves, List.append_nil]
    cases lyrics[index]? <;> simp
  | mouseMove now clientX =>
    cases hl : s.listening
    · left
      simp [dragStep, processedMoves, hl]
    · by_cases hthr : now - s.lastMoveTime < 16
      · left
        simp [dragStep, processedMoves, handleMouseMove, hl, hthr]
      · right
        refine ⟨now, clientX, rfl, rfl, by linarith, ?_, ?_, ?_⟩ <;>
          simp [dragStep, processedMoves, handleMouseMove, hl, hthr]
  | mouseUp =>
    left
    simp only [dragStep, handleMouseUp, processedMoves, List.append_nil]
    cases s.listening <;> simp
  | animationFrame =>
    left
    simp [dragStep, processedMoves]

/-- The times of the processed moves of a sequence are spaced by at least 16,
starting from the value of `lastMoveTimeRef`. -/
theorem processedMoves_chain (lyrics : List Lyric) (duration : ℚ) (es : List DragEvent)
    (s : DragState) :
    List.Chain (fun a b => a + 16 ≤ b) s.lastMoveTime
      ((processedMoves lyrics duration s es).map Prod.fst) := by
  induction es generalizing s with
  | nil => simp [processedMoves]
  | cons e es ih =>
    rw [processedMoves_cons, List.map_append]
    have hrest := ih (dragStep lyrics duration s e).1
    rcases dragStep_lastMoveTime lyrics duration s e with
      ⟨hnone, hlast⟩ | ⟨now, clientX, _, _, hgap, hone, hlast, _⟩
    · rw [hnone]
      rw [hlast] at hrest
      simpa using hrest
    · rw [hone]
      rw [hlast] at hrest
      have hcons : List.Chain (fun a b => a + 16 ≤ b) s.lastMoveTime
          (now :: (processedMoves lyrics duration (dragStep lyrics duration s e).1 es).map
            Prod.fst) := List.Chain.cons hgap hrest
      simpa using hcons

/-- C12: in every sequence of events of the drag controller, whatever the
timestamps, two consecutively processed mouse-moves are at least 16 ms apart
(and the first is at least 16 ms after the value of `lastMoveTimeRef`); a
mouse-move that arrives less than 16 ms after the last processed one is dropped:
nothing is queued, nothing is called and the state is unchanged; a delivered
mouse-move that is not dropped queues one callback. -/
theorem handleMouseMove_throttle (lyrics : List Lyric) (duration : ℚ) (s : DragState)
    (es : List DragEvent) :
    List.Chain' (fun a b => a + 16 ≤ b) ((processedMoves lyrics duration s es).map Prod.fst) ∧
      List.Chain (fun a b => a + 16 ≤ b) s.lastMoveTime
        ((processedMoves lyrics duration s es).map Prod.fst) ∧
      (∀ now clientX, now - s.lastMoveTime < 16 →
        handleMouseMove s now clientX = none ∧
          dragStep lyrics duration s (.mouseMove now clientX) = (s, []) ∧
          processedMoves lyrics duration s [.mouseMove now clientX] = []) ∧
      (∀ now clientX, s.listening = true → 16 ≤ now - s.lastMoveTime →
        dragStep lyrics duration s (.mouseMove now clientX) =
            ({ s with lastMoveTime := now, frames := s.frames ++ [clientX] }, []) ∧
          processedMoves lyrics duration s [.mouseMove now clientX] = [(now, clientX)]) := by
  have hchain := processedMoves_chain lyrics duration es s
  refine ⟨?_, hchain, ?_, ?_⟩
  · cases hpm : (processedMoves lyrics duration s es).map Prod.fst with
    | nil => exact List.chain'_nil
    | cons a as =>
      rw [hpm] at hchain
      exact (List.chain_cons.mp hchain).2
  · intro now clientX hthr
    refine ⟨?_, ?_, ?_⟩
    · simp [handleMouseMove, hthr]
    · cases hl : s.listening <;> simp [dragStep, handleMouseMove, hthr, hl]
    · simp [processedMoves, handleMouseMove, hthr]
  · intro now clientX hl hthr
    have hn : ¬ now - s.lastMoveTime < 16 := not_lt.mpr hthr
    constructor
    · simp [dragStep, handleMouseMove, hl, hn]
    · simp [processedMoves, handleMouseMove, hl, hn]

end LyricsDisplay

namespace JS

/-- Reading a property after two properties were set at the end of an object. -/
theorem getProp_append_two (properties : List (JSString × Value)) (k1 k2 key : JSString)
    (v1 v2 : Value) :
    getProp (properties ++ [(k1, v1), (k2, v2)]) key =
      if key = k2 then v2 else if key = k1 then v1 else getProp properties key := by
  unfold getProp
  simp only [List.reverse_append, List.reverse_cons, List.reverse_nil, List.nil_append,
    List.singleton_append, List.cons_append, List.find?_cons]
  by_cases h2 : k2 = key
  · subst h2
    simp
  · have h2' : ¬ key = k2 := fun h => h2 h.symm
    have hb2 : (k2 == key) = false := beq_eq_false_iff_ne.mpr h2
    by_cases h1 : k1 = key
    · subst h1
      simp [hb2, h2']
    · have h1' : ¬ key = k1 := fun h => h1 h.symm
      have hb1 : (k1 == key) = false := beq_eq_false_iff_ne.mpr h1
      simp [hb1, hb2, h1', h2']

end JS

namespace OutputContainer

/-- C16: with `subtitleSource = 'translated'`, `handleUpdateLyrics(L)` and
`handleSaveSubtitles(L)` set `translatedSubtitles` only: `editedLyrics` and
`subtitleSource` keep their values and `setSubtitlesData` is not called; with
`subtitleSource = 'original'`, `handleUpdateLyrics(L)` sets `editedLyrics` only. -/
theorem translated_track_only (s : State) (updatedLyrics : Subtitles) (setSubtitlesData : Bool)
    (hsource : s.subtitleSource = utf16 "translated") :
    handleUpdateLyrics s updatedLyrics =
        { s with translatedSubtitles := some (updatedLyrics.getD []) } ∧
      (handleUpdateLyrics s updatedLyrics).editedLyrics = s.editedLyrics ∧
      handleSaveSubtitles s setSubtitlesData updatedLyrics =
        ({ s with translatedSubtitles := updatedLyrics }, []) ∧
      (handleSaveSubtitles s setSubtitlesData updatedLyrics).1.editedLyrics = s.editedLyrics ∧
      ∀ s' : State, s'.subtitleSource = utf16 "original" →
        handleUpdateLyrics s' updatedLyrics =
            { s' with editedLyrics := some (updatedLyrics.getD []) } ∧
          (handleUpdateLyrics s' updatedLyrics).translatedSubtitles = s'.translatedSubtitles := by
  have hne : ¬ s.subtitleSource = utf16 "original" := by
    rw [hsource]
    decide
  refine ⟨?_, ?_, ?_, ?_, ?_⟩
  · unfold handleUpdateLyrics
    rw [if_neg hne]
  · unfold handleUpdateLyrics
    rw [if_neg hne]
  · unfold handleSaveSubtitles
    rw [if_neg hne]
  · unfold handleSaveSubtitles
    rw [if_neg hne]
  · intro s' hs'
    unfold handleUpdateLyrics
    rw [if_pos hs']
    exact ⟨rfl, rfl⟩

/-- C16 (witness): the translated track with one edited row and an empty
translation, updated to the list of one empty subtitle object. -/
theorem translated_track_only_witness :
    (⟨some [[]], some [], utf16 "translated"⟩ : State).subtitleSource = utf16 "translated" ∧
      (handleUpdateLyrics ⟨some [[]], some [], utf16 "translated"⟩ (some [[]])).editedLyrics =
        some [[]] ∧
      (handleUpdateLyrics ⟨some [[]], some [], utf16 "translated"⟩
        (some [[]])).translatedSubtitles = some [[]] := by
  have h := translated_track_only ⟨some [[]], some [], utf16 "translated"⟩ (some [[]]) true rfl
  refine ⟨rfl, h.2.1, ?_⟩
  rw [h.1]
  rfl

/-- C17 (evaluation at the failing input): with the original track shown,
`handleSaveSubtitles(L)` calls `setSubtitlesData(L)` and leaves
`translatedSubtitles` as it is; when the prop `subtitlesData` then becomes `L`,
the effect that depends on it sets `translatedSubtitles` to `null`, whatever it
held. With a translation of one row in the state, saving one edited row leaves
no translation. -/
theorem save_original_resets_translation (s : State) (savedLyrics : Subtitles) :
    (s.subtitleSource = utf16 "original" →
      (handleSaveSubtitles s true savedLyrics).2 = [savedLyrics] ∧
        (handleSaveSubtitles s true savedLyrics).1.translatedSubtitles =
          s.translatedSubtitles) ∧
      (subtitlesDataEffect (handleSaveSubtitles s true savedLyrics).1
        savedLyrics).translatedSubtitles = none ∧
      (handleSaveSubtitles
          ⟨some [[(utf16 "text", .string (utf16 "a"))]],
            some [[(utf16 "text", .string (utf16 "b"))]], utf16 "original"⟩
          true (some [[(utf16 "text", .string (utf16 "c"))]])).2 =
        [some [[(utf16 "text", .string (utf16 "c"))]]] ∧
      (subtitlesDataEffect
        (handleSaveSubtitles
          ⟨some [[(utf16 "text", .string (utf16 "a"))]],
            some [[(utf16 "text", .string (utf16 "b"))]], utf16 "original"⟩
          true (some [[(utf16 "text", .string (utf16 "c"))]])).1
        (some [[(utf16 "text", .string (utf16 "c"))]])).translatedSubtitles = none := by
  refine ⟨?_, rfl, rfl, rfl⟩
  intro hsource
  unfold handleSaveSubtitles
  rw [if_pos hsource]
  exact ⟨rfl, rfl⟩

/-- The projection of an array: one new object for each source object, in order,
with the properties of the source object, then `startTime` and `endTime`. -/
theorem format_some (S : List Subtitle) :
    formatSubtitlesForLyricsDisplay none (some S) false =
      S.map fun sub =>
        sub ++ [(utf16 "startTime", JS.getProp sub (utf16 "start")),
          (utf16 "endTime", JS.getProp sub (utf16 "end"))] := rfl

/-- C18 (amended): `formatSubtitlesForLyricsDisplay` projects its source data,
which is `editedLyrics` when the argument is `subtitlesData` itself and
`editedLyrics` is an array, and the argument otherwise. For a source that is not
an array the result is the empty list. For a source list the result has the same
length and order, and element `i` has every property of the source element
other than `startTime` and `endTime` unchanged, `startTime` equal to its `start`
and `endTime` equal to its `end`. -/
theorem formatSubtitles_projection (editedLyrics subtitles : Subtitles)
    (isSubtitlesData : Bool) :
    formatSubtitlesForLyricsDisplay editedLyrics subtitles isSubtitlesData =
        formatSubtitlesForLyricsDisplay none
          (if isSubtitlesData = true ∧ editedLyrics.isSome = true then editedLyrics
            else subtitles) false ∧
      formatSubtitlesForLyricsDisplay none none false = [] ∧
      ∀ S : List Subtitle,
        (formatSubtitlesForLyricsDisplay none (some S) false).length = S.length ∧
          ∀ (i : Nat) (sub : Subtitle), S[i]? = some sub →
            ∃ r, (formatSubtitlesForLyricsDisplay none (some S) false)[i]? = some r ∧
              (∀ key, key ≠ utf16 "startTime" → key ≠ utf16 "endTime" →
                JS.getProp r key = JS.getProp sub key) ∧
              JS.getProp r (utf16 "startTime") = JS.getProp sub (utf16 "start") ∧
              JS.getProp r (utf16 "endTime") = JS.getProp sub (utf16 "end") := by
  refine ⟨?_, rfl, ?_⟩
  · unfold formatSubtitlesForLyricsDisplay
    cases isSubtitlesData <;> cases editedLyrics <;> simp
  · intro S
    rw [format_some]
    refine ⟨by simp, ?_⟩
    intro i sub hsub
    refine ⟨_, by rw [List.getElem?_map, hsub]; rfl, ?_, ?_, ?_⟩
    · intro key h1 h2
      rw [JS.getProp_append_two, if_neg h2, if_neg h1]
    · rw [JS.getProp_append_two, if_neg (by decide), if_pos rfl]
    · rw [JS.getProp_append_two, if_pos rfl]

/-- C18 (counterexample): called with `subtitlesData` itself, a list of two rows,
while `editedLyrics` holds one row, the function returns one row; and a source
object with `start = 1` and a property `startTime = 5` gives an object whose
`startTime` is 1. -/
theorem formatSubtitles_not_argument :
    (formatSubtitlesForLyricsDisplay (some [[(utf16 "id", JS.Value.ofNat 1)]])
        (some [[(utf16 "id", JS.Value.ofNat 1)], [(utf16 "id", JS.Value.ofNat 2)]])
        true).length = 1 ∧
      JS.getProp [(utf16 "start", JS.Value.ofNat 1), (utf16 "startTime", JS.Value.ofNat 5)]
          (utf16 "startTime") = JS.Value.ofNat 5 ∧
      (formatSubtitlesForLyricsDisplay none
          (some [[(utf16 "start", JS.Value.ofNat 1), (utf16 "startTime", JS.Value.ofNat 5)]])
          false).map (fun r => JS.getProp r (utf16 "startTime")) = [JS.Value.ofNat 1] := by
  refine ⟨rfl, ?_, ?_⟩ <;> with_unfolding_all rfl

end OutputContainer

namespace subtitleUtils

/-- The loop with its accumulator gives the accumulator followed by what the
loop adds. -/
theorem mergeLoop_eq (rest : List Lyric) (current : Lyric) (merged : List Lyric) :
    mergeLoop current merged rest = merged ++ mergeFrom current rest := by
  induction rest generalizing current merged with
  | nil => rfl
  | cons next rest ih =>
    unfold mergeLoop mergeFrom
    split
    · exact ih _ _
    · rw [ih, List.append_assoc]
      rfl

/-- The first subtitle that the loop adds starts where `current` starts. -/
theorem mergeFrom_head (rest : List Lyric) (current : Lyric) :
    ∃ hd tl, mergeFrom current rest = hd :: tl ∧ hd.start = current.start := by
  induction rest generalizing current with
  | nil => exact ⟨current, [], rfl, rfl⟩
  | cons next rest ih =>
    unfold mergeFrom
    split
    · obtain ⟨hd, tl, h, hs⟩ := ih (mergeInto current next)
      exact ⟨hd, tl, h, hs⟩
    · exact ⟨current, _, rfl, rfl⟩

/-- Each subtitle that the loop adds ends before the next one starts. -/
theorem mergeFrom_chain (rest : List Lyric) (current : Lyric) :
    List.Chain' (fun a b : Lyric => a.«end» < b.start) (mergeFrom current rest) := by
  induction rest generalizing current with
  | nil => simp [mergeFrom]
  | cons next rest ih =>
    unfold mergeFrom
    split
    · exact ih _
    · next hno =>
      obtain ⟨hd, tl, h, hs⟩ := mergeFrom_head rest next
      have hch := ih next
      rw [h] at hch ⊢
      refine List.Chain'.cons ?_ hch
      rw [hs]
      exact not_le.mp hno

/-- The starts of the subtitles that the loop adds are among the starts of
`current` and the remaining elements, in order. -/
theorem mergeFrom_starts (rest : List Lyric) (current : Lyric) :
    ((mergeFrom current rest).map (·.start)).Sublist ((current :: rest).map (·.start)) := by
  induction rest generalizing current with
  | nil => simp [mergeFrom]
  | cons next rest ih =>
    unfold mergeFrom
    split
    · have h := ih (mergeInto current next)
      simp only [List.map_cons] at h ⊢
      have hstart : (mergeInto current next).start = current.start := rfl
      rw [hstart] at h
      exact h.trans (List.Sublist.cons₂ _ (List.Sublist.cons _ (List.Sublist.refl _)))
    · have h := ih next
      simp only [List.map_cons] at h ⊢
      exact List.Sublist.cons₂ _ h

/-- Reassigning the ids keeps the starts and the ends. -/
theorem reassignIdsFrom_times (l : List Lyric) (n : Nat) :
    (reassignIdsFrom n l).map (fun s => (s.start, s.«end»)) =
      l.map (fun s => (s.start, s.«end»)) := by
  induction l generalizing n with
  | nil => rfl
  | cons s ss ih => simp [reassignIdsFrom, ih]

/-- After the reassignment the subtitle at position `i` has the id `n + i + 1`. -/
theorem reassignIdsFrom_id (l : List Lyric) (n i : Nat) (s : Lyric)
    (h : (reassignIdsFrom n l)[i]? = some s) : s.id = n + i + 1 := by
  induction l generalizing n i with
  | nil => simp [reassignIdsFrom] at h
  | cons x xs ih =>
    cases i with
    | zero =>
      simp [reassignIdsFrom] at h
      rw [← h]
    | succ i =>
      simp only [reassignIdsFrom, List.getElem?_cons_succ] at h
      have := ih (n + 1) i h
      omega

/-- Merging subtitles one after the other into a first one gives the merged
subtitle of the claim. -/
theorem foldl_mergeInto (others : List Lyric) (first : Lyric) :
    others.foldl mergeInto first = specGroup first others := by
  induction others generalizing first with
  | nil => rfl
  | cons o os ih =>
    rw [List.foldl_cons, ih]
    cases os with
    | nil => simp [specGroup, mergeInto, textOf]
    | cons p ps => simp [specGroup, mergeInto, textOf]

/-- The loop cuts the sequence of `current` and the remaining elements into
consecutive groups and adds one merged subtitle for each group. -/
theorem mergeFrom_groups (rest : List Lyric) (first : Lyric) (others : List Lyric) :
    ∃ groups : List (Lyric × List Lyric),
      first :: (others ++ rest) = groups.flatMap (fun g => g.1 :: g.2) ∧
        mergeFrom (others.foldl mergeInto first) rest =
          groups.map fun g => g.2.foldl mergeInto g.1 := by
  induction rest generalizing first others with
  | nil => exact ⟨[(first, others)], by simp, by simp [mergeFrom]⟩
  | cons next rest ih =>
    unfold mergeFrom
    split
    · obtain ⟨groups, hseq, hres⟩ := ih first (others ++ [next])
      refine ⟨groups, ?_, ?_⟩
      · rw [← hseq]
        simp
      · rw [← hres, List.foldl_append]
        rfl
    · obtain ⟨groups, hseq, hres⟩ := ih next []
      refine ⟨(first, others) :: groups, ?_, ?_⟩
      · simp only [List.nil_append] at hseq
        simp [← hseq]
      · simp only [List.foldl_nil] at hres
        simp [hres]

/-- The merge loop on a sorted list of at least one element, before the ids are
reassigned. -/
theorem mergeOverlappingSubtitles_eq (subtitles : List Lyric) (h : 2 ≤ subtitles.length) :
    ∃ first rest, sortByStart subtitles = first :: rest ∧
      mergeOverlappingSubtitles subtitles = reassignIdsFrom 0 (mergeFrom first rest) := by
  have hlen : (sortByStart subtitles).length = subtitles.length :=
    (List.perm_insertionSort startLE subtitles).length_eq
  unfold mergeOverlappingSubtitles
  rw [if_neg (by omega)]
  cases hs : sortByStart subtitles with
  | nil =>
    rw [hs] at hlen
    simp at hlen
    omega
  | cons first rest =>
    refine ⟨first, rest, rfl, ?_⟩
    simp only [mergeLoop_eq, List.nil_append]

/-- C19: for every array of two or more subtitles the result of
`mergeOverlappingSubtitles` is sorted by non-decreasing start and each element
ends before the next one starts. The result is made from the input sorted by
start (a stable sort), cut into consecutive groups: each group gives one
subtitle with the start of its first element, the maximum end of the group and
the texts of the group joined by `'\n'` in that order, and the ids are the
positions. -/
theorem mergeOverlappingSubtitles_sorted (subtitles : List Lyric)
    (h : 2 ≤ subtitles.length) :
    List.Sorted startLE (mergeOverlappingSubtitles subtitles) ∧
      List.Chain' (fun a b : Lyric => a.«end» < b.start) (mergeOverlappingSubtitles subtitles) ∧
      List.Sorted startLE (sortByStart subtitles) ∧
      (sortByStart subtitles).Perm subtitles ∧
      ∃ groups : List (Lyric × List Lyric),
        sortByStart subtitles = groups.flatMap (fun g => g.1 :: g.2) ∧
          mergeOverlappingSubtitles subtitles =
            reassignIdsFrom 0 (groups.map fun g => specGroup g.1 g.2) := by
  obtain ⟨first, rest, hsorted, hres⟩ := mergeOverlappingSubtitles_eq subtitles h
  have hs : List.Sorted startLE (sortByStart subtitles) :=
    List.sorted_insertionSort startLE subtitles
  have htimes := reassignIdsFrom_times (mergeFrom first rest) 0
  refine ⟨?_, ?_, hs, List.perm_insertionSort startLE subtitles, ?_⟩
  · rw [hres]
    have hstarts : (reassignIdsFrom 0 (mergeFrom first rest)).map (·.start) =
        (mergeFrom first rest).map (·.start) := by
      have := congrArg (List.map Prod.fst) htimes
      simpa [List.map_map] using this
    have hsub := mergeFrom_starts rest first
    rw [hsorted] at hs
    have hle : List.Pairwise (· ≤ ·) ((first :: rest).map (·.start)) := by
      rw [List.pairwise_map]
      exact hs
    have hle' := hle.sublist hsub
    rw [← hstarts, List.pairwise_map] at hle'
    exact hle'
  · rw [hres]
    have hch := mergeFrom_chain rest first
    have hmap : List.Chain' (fun p q : ℚ × ℚ => p.2 < q.1)
        ((mergeFrom first rest).map fun s => (s.start, s.«end»)) := by
      rw [List.chain'_map]
      exact hch
    rw [← htimes, List.chain'_map] at hmap
    exact hmap
  · obtain ⟨groups, hseq, hgr⟩ := mergeFrom_groups rest first []
    refine ⟨groups, ?_, ?_⟩
    · rw [hsorted, ← hseq]
      rfl
    · rw [hres]
      simp only [List.foldl_nil] at hgr
      rw [hgr]
      congr 1
      apply List.map_congr_left
      intro g _
      exact foldl_mergeInto g.2 g.1

/-- C19 (witness): three subtitles given out of order, (5, 8), (0, 2) and (2, 4);
the last two touch and are merged. -/
theorem mergeOverlappingSubtitles_sorted_witness :
    2 ≤ [(⟨1, 5, 8, some (utf16 "c")⟩ : Lyric), ⟨2, 0, 2, some (utf16 "a")⟩,
        ⟨3, 2, 4, some (utf16 "b")⟩].length ∧
      List.Chain' (fun a b : Lyric => a.«end» < b.start)
        (mergeOverlappingSubtitles [⟨1, 5, 8, some (utf16 "c")⟩, ⟨2, 0, 2, some (utf16 "a")⟩,
          ⟨3, 2, 4, some (utf16 "b")⟩]) ∧
      mergeOverlappingSubtitles [⟨1, 5, 8, some (utf16 "c")⟩, ⟨2, 0, 2, some (utf16 "a")⟩,
          ⟨3, 2, 4, some (utf16 "b")⟩] =
        [⟨1, 0, 4, some (utf16 "a\nb")⟩, ⟨2, 5, 8, some (utf16 "c")⟩] :=
  ⟨by decide,
    (mergeOverlappingSubtitles_sorted [⟨1, 5, 8, some (utf16 "c")⟩,
      ⟨2, 0, 2, some (utf16 "a")⟩, ⟨3, 2, 4, some (utf16 "b")⟩] (by decide)).2.1,
    by decide!⟩

/-- C20 (amended): for every array of two or more subtitles every element of the
result of `mergeOverlappingSubtitles` has the id of its 1-based position in the
result; an array of at most one subtitle is returned as it is, with the ids it
has. -/
theorem mergeOverlappingSubtitles_ids (subtitles : List Lyric) :
    (2 ≤ subtitles.length →
      ∀ (i : Nat) (s : Lyric), (mergeOverlappingSubtitles subtitles)[i]? = some s →
        s.id = i + 1) ∧
      (subtitles.length ≤ 1 → mergeOverlappingSubtitles subtitles = subtitles) ∧
      mergeOverlappingSubtitles [⟨7, 5, 6, some (utf16 "b")⟩, ⟨9, 0, 1, some (utf16 "a")⟩] =
        [⟨1, 0, 1, some (utf16 "a")⟩, ⟨2, 5, 6, some (utf16 "b")⟩] := by
  refine ⟨?_, ?_, by decide!⟩
  · intro h i s hs
    obtain ⟨first, rest, _, hres⟩ := mergeOverlappingSubtitles_eq subtitles h
    rw [hres] at hs
    have := reassignIdsFrom_id _ 0 i s hs
    omega
  · intro h
    unfold mergeOverlappingSubtitles
    rw [if_pos h]

/-- C20 (counterexample): an array of one subtitle with id 7 is returned as it
is: the only element of the result has id 7, and its 1-based position is 1. -/
theorem mergeOverlappingSubtitles_single_keeps_id :
    mergeOverlappingSubtitles [⟨7, 0, 1, some (utf16 "a")⟩] =
        [⟨7, 0, 1, some (utf16 "a")⟩] ∧
      (∃ s : Lyric, (mergeOverlappingSubtitles [⟨7, 0, 1, some (utf16 "a")⟩])[0]? = some s ∧
        s.id = 7 ∧ s.id ≠ 0 + 1) := by
  refine ⟨by decide!, ⟨7, 0, 1, some (utf16 "a")⟩, by decide!, rfl, by decide!⟩


/-- The value of `validateSubtitle` on an object, from its three properties. -/
theorem validateSubtitle_object (properties : List (JSString × JS.Value)) :
    validateSubtitle (.object properties) = true ↔
      ∃ start «end» text,
        JS.getProp properties (utf16 "start") = .number start ∧
        JS.getProp properties (utf16 "end") = .number «end» ∧
        JS.getProp properties (utf16 "text") = .string text ∧
        start.lessThan 0 = false ∧ «end».lessThan 0 = false ∧
        start.greaterEq «end» = false := by
  have h1 : (utf16 "object" != utf16 "object") = false := by decide
  have h2 : (utf16 "number" != utf16 "number") = false := by decide
  have h3 : (utf16 "string" != utf16 "string") = false := by decide
  have h4 : (utf16 "undefined" != utf16 "number") = true := by decide
  have h5 : (utf16 "object" != utf16 "number") = true := by decide
  have h6 : (utf16 "boolean" != utf16 "number") = true := by decide
  have h7 : (utf16 "string" != utf16 "number") = true := by decide
  have h8 : (utf16 "undefined" != utf16 "string") = true := by decide
  have h9 : (utf16 "object" != utf16 "string") = true := by decide
  have h10 : (utf16 "boolean" != utf16 "string") = true := by decide
  have h11 : (utf16 "number" != utf16 "string") = true := by decide
  unfold validateSubtitle
  simp only [JS.toBoolean, JS.typeof, JS.Value.get, h1, Bool.not_true, Bool.or_self,
    Bool.false_eq_true, if_false]
  cases hs : JS.getProp properties (utf16 "start") <;>
    simp only [JS.typeof, h2, h4, h5, h6, h7, Bool.true_or, Bool.false_or, if_true,
      Bool.false_eq_true, false_and, exists_false, reduceCtorEq, exists_const, iff_self] <;>
  cases he : JS.getProp properties (utf16 "end") <;>
    simp only [JS.typeof, h2, h4, h5, h6, h7, Bool.true_or, Bool.false_or, if_true, if_false,
      Bool.false_eq_true, false_and, and_false, exists_false, reduceCtorEq, exists_const,
      iff_self] <;>
  cases ht : JS.getProp properties (utf16 "text") <;>
    simp [JS.typeof, h3, h8, h9, h10, h11, and_assoc]

/-- C23 (evaluation at the failing input): `validateSubtitle` returns true for the
object with `start` NaN, `end` 1 and `text` `'a'`, although `0 <= NaN` is false:
a NaN is of type number and fails each of the three comparisons that reject. In
general the function returns true exactly for an object whose `start` and `end`
are numbers and whose `text` is a string with `start < 0`, `end < 0` and
`start >= end` all false; for `start` and `end` other than NaN that is
`0 <= start < end`. It rejects `start = end`, a negative start and a missing
text. -/
theorem validateSubtitle_accepts_nan (subtitle : JS.Value) :
    validateSubtitle (.object [(utf16 "start", .number .nan),
        (utf16 "end", .number (.finite 1)), (utf16 "text", .string (utf16 "a"))]) = true ∧
      (validateSubtitle subtitle = true ↔
        ∃ properties start «end» text, subtitle = .object properties ∧
          JS.getProp properties (utf16 "start") = .number start ∧
          JS.getProp properties (utf16 "end") = .number «end» ∧
          JS.getProp properties (utf16 "text") = .string text ∧
          start.lessThan 0 = false ∧ «end».lessThan 0 = false ∧
          start.greaterEq «end» = false) ∧
      (∀ start «end» : JS.Number, start ≠ .nan → «end» ≠ .nan →
        ((start.lessThan 0 = false ∧ «end».lessThan 0 = false ∧
            start.greaterEq «end» = false) ↔
          (start.greaterEq (.finite 0) = true ∧ «end».greaterEq start = true ∧
            start ≠ «end»))) ∧
      (∀ a b : ℚ,
        ((JS.Number.finite a).lessThan 0 = false ∧ (JS.Number.finite b).lessThan 0 = false ∧
            (JS.Number.finite a).greaterEq (.finite b) = false) ↔ (0 ≤ a ∧ a < b)) ∧
      validateSubtitle (.object [(utf16 "start", JS.Value.ofNat 2),
        (utf16 "end", JS.Value.ofNat 2), (utf16 "text", .string (utf16 "a"))]) = false ∧
      validateSubtitle (.object [(utf16 "start", .number (.finite (-1))),
        (utf16 "end", JS.Value.ofNat 2), (utf16 "text", .string (utf16 "a"))]) = false ∧
      validateSubtitle (.object [(utf16 "start", JS.Value.ofNat 1),
        (utf16 "end", JS.Value.ofNat 2)]) = false ∧
      validateSubtitle (.object [(utf16 "start", JS.Value.ofNat 1),
        (utf16 "end", JS.Value.ofNat 2), (utf16 "text", .string (utf16 "a"))]) = true := by
  refine ⟨by decide!, ?_, ?_, ?_, by decide!, by decide!, by decide!, by decide!⟩
  · cases subtitle with
    | object properties =>
      rw [validateSubtitle_object]
      constructor
      · rintro ⟨start, e, text, h⟩
        exact ⟨properties, start, e, text, rfl, h⟩
      · rintro ⟨properties', start, e, text, hp, h⟩
        cases hp
        exact ⟨start, e, text, h⟩
    | _ =>
      constructor
      · intro h
        have hb : (utf16 "boolean" != utf16 "object") = true := by decide
        have hn : (utf16 "number" != utf16 "object") = true := by decide
        have hs : (utf16 "string" != utf16 "object") = true := by decide
        have hu : (utf16 "undefined" != utf16 "object") = true := by decide
        simp [validateSubtitle, JS.toBoolean, JS.typeof, JS.Value.get, JS.getProp, hb, hn, hs,
          hu] at h
      · rintro ⟨properties', start, e, text, hp, h⟩
        cases hp
  · intro start e hs he
    cases start with
    | nan => exact absurd rfl hs
    | posInf =>
      cases e <;> simp [JS.Number.lessThan, JS.Number.greaterEq] at he ⊢
    | negInf =>
      cases e <;> simp [JS.Number.lessThan, JS.Number.greaterEq] at he ⊢
    | finite a =>
      cases e with
      | nan => exact absurd rfl he
      | posInf => simp [JS.Number.lessThan, JS.Number.greaterEq]
      | negInf => simp [JS.Number.lessThan, JS.Number.greaterEq]
      | finite b =>
        simp only [JS.Number.lessThan, JS.Number.greaterEq, decide_eq_false_iff_not, not_lt,
          Nat.cast_zero, ge_iff_le, not_le, decide_eq_true_eq, ne_eq, JS.Number.finite.injEq]
        constructor
        · rintro ⟨h1, h2, h3⟩
          exact ⟨h1, le_of_lt h3, ne_of_lt h3⟩
        · rintro ⟨h1, h2, h3⟩
          exact ⟨h1, le_trans h1 h2, lt_of_le_of_ne h2 h3⟩
  · intro a b
    simp only [JS.Number.lessThan, JS.Number.greaterEq, decide_eq_false_iff_not, not_lt,
      Nat.cast_zero, ge_iff_le, not_le]
    constructor
    · rintro ⟨h1, _, h3⟩
      exact ⟨h1, h3⟩
    · rintro ⟨h1, h3⟩
      exact ⟨h1, le_of_lt (lt_of_le_of_lt h1 h3), h3⟩

end subtitleUtils

namespace JS

/-- On a non-empty string of digits `parseInt` gives the decimal value. -/
theorem parseInt_digits (ds : List Nat) (hne : ds ≠ []) (hds : ∀ x ∈ ds, isDigit x = true) :
    parseInt ds = .finite (digitsValue ds : ℚ) := by
  cases ds with
  | nil => exact absurd rfl hne
  | cons d tl =>
    have htw := takeWhile_digits tl (fun x hx => hds x (by simp [hx]))
    have hd : isDigit d = true := hds d (by simp)
    simp only [isDigit, Bool.and_eq_true, decide_eq_true_eq] at hd
    obtain ⟨hd1, hd2⟩ := hd
    interval_cases d <;>
      simp [parseInt, List.takeWhile, List.dropWhile, isDigit, isStrWhiteSpace, htw]

/-- Zeros in front of a string of digits do not change its value. -/
theorem digitsValue_replicate_zero (k : Nat) (ds : List Nat) :
    digitsValue (List.replicate k 48 ++ ds) = digitsValue ds := by
  unfold digitsValue
  rw [List.foldl_append]
  congr 1
  induction k with
  | zero => rfl
  | succ k ih => simpa [List.replicate_succ] using ih


/-- The value of two strings of digits in a row. -/
theorem digitsValue_append (a b : List Nat) :
    digitsValue (a ++ b) = digitsValue a * 10 ^ b.length + digitsValue b := by
  induction b using List.reverseRecOn with
  | nil => simp [digitsValue]
  | append_singleton b c ih =>
    have h1 : digitsValue (a ++ (b ++ [c])) = 10 * digitsValue (a ++ b) + (c - 48) := by
      simp [digitsValue, ← List.append_assoc, List.foldl_append]
    have h2 : digitsValue (b ++ [c]) = 10 * digitsValue b + (c - 48) := by
      simp [digitsValue, List.foldl_append]
    rw [h1, h2, ih]
    simp only [List.length_append, List.length_singleton, pow_succ]
    ring

/-- A string with the code unit `c` removed from its end, followed by as many
`c` as were removed, is the string. -/
theorem strip_append_replicate (l : List Nat) (c : Nat) :
    (l.reverse.dropWhile (· == c)).reverse ++
        List.replicate (l.length - (l.reverse.dropWhile (· == c)).reverse.length) c = l := by
  have h := List.takeWhile_append_dropWhile (· == c) l.reverse
  have htw : l.reverse.takeWhile (· == c) =
      List.replicate (l.reverse.takeWhile (· == c)).length c := by
    rw [List.eq_replicate_iff]
    refine ⟨rfl, ?_⟩
    intro b hb
    have := List.mem_takeWhile_imp hb
    simpa using this
  have hlen : l.length = (l.reverse.takeWhile (· == c)).length +
      (l.reverse.dropWhile (· == c)).length := by
    have := congrArg List.length h
    simp only [List.length_append, List.length_reverse] at this
    omega
  have hl : l = (l.reverse.dropWhile (· == c)).reverse ++
      (l.reverse.takeWhile (· == c)).reverse := by
    have := congrArg List.reverse h
    simp only [List.reverse_append, List.reverse_reverse] at this
    exact this.symm
  have hsub : l.length - (l.reverse.dropWhile (· == c)).reverse.length =
      (l.reverse.takeWhile (· == c)).length := by
    rw [List.length_reverse]
    omega
  rw [hsub]
  conv_rhs => rw [hl]
  rw [htw, List.reverse_replicate, List.length_replicate]

/-- The denominator of a natural number is 1, so it has no decimal places. -/
theorem decimalPlaces_natCast (n : Nat) : decimalPlaces (n : ℚ) = 0 := by
  simp [decimalPlaces, decimalPlacesFrom]

/-- The decimal text of a number below `10 ^ 21` has at most 21 digits. -/
theorem length_natToString_le (n : Nat) (hn : n < 10 ^ 21) : (natToString n).length ≤ 21 := by
  unfold natToString
  split
  · simp
  · next h0 =>
    simp only [List.length_map, List.length_reverse]
    have h := Nat.base_pow_length_digits_le 10 n (by norm_num) h0
    by_contra hcon
    have h22 : 22 ≤ (Nat.digits 10 n).length := by omega
    have : 10 ^ 22 ≤ 10 ^ (Nat.digits 10 n).length := Nat.pow_le_pow_right (by norm_num) h22
    omega

/-- The text of a positive integer below `10 ^ 21` is its decimal digits. -/
theorem positiveToString_natCast (n : Nat) (hn : n < 10 ^ 21) :
    positiveToString (n : ℚ) = natToString n := by
  have hlen := length_natToString_le n hn
  have hstrip := strip_append_replicate (natToString n) 48
  have hk : ((natToString n).reverse.dropWhile (· == 48)).reverse.length ≤
      (natToString n).length := by
    have := congrArg List.length hstrip
    simp only [List.length_append, List.length_replicate] at this
    omega
  have hnum : ((n : ℚ) * 10 ^ 0).num.natAbs = n := by simp
  unfold positiveToString decimalForm
  simp only [decimalPlaces_natCast, hnum, Nat.cast_zero, sub_zero]
  rw [if_pos ⟨by exact_mod_cast hk, by exact_mod_cast hlen⟩]
  simpa using hstrip

/-- The text of a non-negative integer below `10 ^ 21` is its decimal digits. -/
theorem numberToString_natCast (n : Nat) (hn : n < 10 ^ 21) :
    numberToString (n : ℚ) = natToString n := by
  unfold numberToString
  by_cases h0 : n = 0
  · subst h0
    simp [natToString]
  · have hne : (n : ℚ) ≠ 0 := by exact_mod_cast h0
    have hpos : ¬ (n : ℚ) < 0 := by
      have : (0 : ℚ) ≤ n := by exact_mod_cast Nat.zero_le n
      linarith
    rw [if_neg hne, if_neg hpos, positiveToString_natCast n hn]

/-- A non-negative integer below `10 ^ 21`, padded with zeros, is a non-empty
string of digits whose value is the integer. -/
theorem padStart_numberToString (n width : Nat) (hn : n < 10 ^ 21) :
    (∀ x ∈ padStart (numberToString (n : ℚ)) width 48, isDigit x = true) ∧
      padStart (numberToString (n : ℚ)) width 48 ≠ [] ∧
      digitsValue (padStart (numberToString (n : ℚ)) width 48) = n := by
  rw [numberToString_natCast n hn]
  unfold padStart
  refine ⟨?_, ?_, ?_⟩
  · intro x hx
    rw [List.mem_append] at hx
    rcases hx with hx | hx
    · rw [List.eq_of_mem_replicate hx]
      rfl
    · exact natToString_digits n x hx
  · intro h
    have h2 := (List.append_eq_nil.mp h).2
    unfold natToString at h2
    split at h2 <;> simp at h2
    · next h0 => exact h0 (Nat.digits_eq_nil_iff_eq_zero.mp h2)
  · rw [digitsValue_replicate_zero, digitsValue_natToString]

end JS

namespace timeUtils

/-- The pattern matches three non-empty runs of digits separated by `m`, `s` and
ended by `ms`, and captures the three runs. -/
theorem matchTimeString_digits (m s ms : JSString)
    (hm : ∀ x ∈ m, JS.isDigit x = true) (hs : ∀ x ∈ s, JS.isDigit x = true)
    (hms : ∀ x ∈ ms, JS.isDigit x = true) (hm0 : m ≠ []) (hs0 : s ≠ []) (hms0 : ms ≠ []) :
    matchTimeString (m ++ [109] ++ s ++ [115] ++ ms ++ [109, 115]) = some (m, s, ms) := by
  have h1 := JS.takeWhile_digits_append m 109 (s ++ 115 :: (ms ++ [109, 115])) hm (by decide)
  have h2 := JS.takeWhile_digits_append s 115 (ms ++ [109, 115]) hs (by decide)
  have h3 := JS.takeWhile_digits_append ms 109 [115] hms (by decide)
  have heq : m ++ [109] ++ s ++ [115] ++ ms ++ [109, 115] =
      m ++ 109 :: (s ++ 115 :: (ms ++ [109, 115])) := by simp
  rw [heq]
  unfold matchTimeString
  rw [h1.1, h1.2]
  simp only []
  rw [h2.1, h2.2]
  simp only []
  have h3' : ms ++ [109, 115] = ms ++ 109 :: [115] := rfl
  rw [h3', h3.1, h3.2]
  simp [hm0, hs0, hms0]

/-- A string that the pattern matches is made of the three captured groups,
which are non-empty runs of digits, and the letters between them. -/
theorem matchTimeString_some (str g1 g2 g3 : JSString)
    (h : matchTimeString str = some (g1, g2, g3)) :
    str = g1 ++ [109] ++ g2 ++ [115] ++ g3 ++ [109, 115] ∧
      (∀ x ∈ g1, JS.isDigit x = true) ∧ (∀ x ∈ g2, JS.isDigit x = true) ∧
      (∀ x ∈ g3, JS.isDigit x = true) ∧ g1 ≠ [] ∧ g2 ≠ [] ∧ g3 ≠ [] := by
  unfold matchTimeString at h
  split at h
  · next rest1 h1 =>
    split at h
    · next rest2 h2 =>
      split at h
      · next h3 =>
        split at h
        · next hne =>
          simp only [Option.some.injEq, Prod.mk.injEq] at h
          obtain ⟨e1, e2, e3⟩ := h
          have a1 := List.takeWhile_append_dropWhile JS.isDigit str
          have a2 := List.takeWhile_append_dropWhile JS.isDigit rest1
          have a3 := List.takeWhile_append_dropWhile JS.isDigit rest2
          rw [e1, h1] at a1
          rw [e2, h2] at a2
          rw [e3, h3] at a3
          refine ⟨?_, ?_, ?_, ?_, ?_, ?_, ?_⟩
          · rw [← a1, ← a2, ← a3]
            simp
          · intro x hx
            rw [← e1] at hx
            exact (List.mem_takeWhile_imp hx)
          · intro x hx
            rw [← e2] at hx
            exact (List.mem_takeWhile_imp hx)
          · intro x hx
            rw [← e3] at hx
            exact (List.mem_takeWhile_imp hx)
          · rw [← e1]
            exact hne.1
          · rw [← e2]
            exact hne.2.1
          · rw [← e3]
            exact hne.2.2
        · exact absurd h (by simp)
      · exact absurd h (by simp)
    · exact absurd h (by simp)
  · exact absurd h (by simp)

/-- The value of `convertTimeStringToSeconds` on three non-empty runs of digits
joined by `m`, `s` and `ms`. -/
theorem convertTimeStringToSeconds_digits (m s ms : JSString)
    (hm : ∀ x ∈ m, JS.isDigit x = true) (hs : ∀ x ∈ s, JS.isDigit x = true)
    (hms : ∀ x ∈ ms, JS.isDigit x = true) (hm0 : m ≠ []) (hs0 : s ≠ []) (hms0 : ms ≠ []) :
    convertTimeStringToSeconds (.string (m ++ [109] ++ s ++ [115] ++ ms ++ [109, 115])) =
      .finite ((JS.digitsValue m : ℚ) * 60 + JS.digitsValue s + JS.digitsValue ms / 1000) := by
  have hne : m ++ [109] ++ s ++ [115] ++ ms ++ [109, 115] ≠ [] := by simp
  unfold convertTimeStringToSeconds
  simp only [hne, if_false]
  rw [matchTimeString_digits m s ms hm hs hms hm0 hs0 hms0]
  simp only []
  rw [JS.parseInt_digits m hm0 hm, JS.parseInt_digits s hs0 hs, JS.parseInt_digits ms hms0 hms]

/-- C24: for every string `<m>m<s>s<ms>ms` with `m`, `s` and `ms` non-empty
strings of decimal digits, `convertTimeStringToSeconds` returns
`m * 60 + s + ms / 1000` (`'01m02s500ms'` gives 62.5), and for every other
argument, string or not, it returns 0. -/
theorem convertTimeStringToSeconds_spec (timeString : JS.Value) :
    (∀ m s ms : JSString, (∀ x ∈ m, JS.isDigit x = true) → (∀ x ∈ s, JS.isDigit x = true) →
        (∀ x ∈ ms, JS.isDigit x = true) → m ≠ [] → s ≠ [] → ms ≠ [] →
        timeString = .string (m ++ [109] ++ s ++ [115] ++ ms ++ [109, 115]) →
        convertTimeStringToSeconds timeString =
          .finite ((JS.digitsValue m : ℚ) * 60 + JS.digitsValue s + JS.digitsValue ms / 1000)) ∧
      ((¬ ∃ m s ms : JSString, (∀ x ∈ m, JS.isDigit x = true) ∧
          (∀ x ∈ s, JS.isDigit x = true) ∧ (∀ x ∈ ms, JS.isDigit x = true) ∧
          m ≠ [] ∧ s ≠ [] ∧ ms ≠ [] ∧
          timeString = .string (m ++ [109] ++ s ++ [115] ++ ms ++ [109, 115])) →
        convertTimeStringToSeconds timeString = .finite 0) ∧
      convertTimeStringToSeconds (.string (utf16 "01m02s500ms")) = .finite (125 / 2) ∧
      convertTimeStringToSeconds (.string (utf16 "1m2s")) = .finite 0 ∧
      convertTimeStringToSeconds (.string (utf16 "")) = .finite 0 ∧
      convertTimeStringToSeconds .undefined = .finite 0 := by
  refine ⟨?_, ?_, by decide!, by decide!, by decide!, rfl⟩
  · intro m s ms hm hs hms hm0 hs0 hms0 heq
    subst heq
    exact convertTimeStringToSeconds_digits m s ms hm hs hms hm0 hs0 hms0
  · intro hnot
    cases timeString with
    | string str =>
      unfold convertTimeStringToSeconds
      simp only []
      split
      · rfl
      · cases hmatch : matchTimeString str with
        | none => rfl
        | some g =>
          obtain ⟨g1, g2, g3⟩ := g
          obtain ⟨hstr, hd1, hd2, hd3, hn1, hn2, hn3⟩ := matchTimeString_some str g1 g2 g3 hmatch
          exact absurd ⟨g1, g2, g3, hd1, hd2, hd3, hn1, hn2, hn3, by rw [hstr]⟩ hnot
    | _ => rfl

end timeUtils

namespace JS

/-- The text of the number `10 ^ 21` is in the exponent form. -/
theorem numberToString_pow21 : numberToString ((10 ^ 21 : Nat) : ℚ) = utf16 "1e+21" := by
  have h : natToString (10 ^ 21) = 49 :: List.replicate 21 48 := by
    simp [natToString]
  have h21 : natToString 21 = [50, 49] := by simp [natToString]
  have hnum : (((10 ^ 21 : Nat) : ℚ) * 10 ^ 0).num.natAbs = 10 ^ 21 := by
    rw [pow_zero, mul_one, Rat.num_natCast, Int.natAbs_ofNat]
  have hne : ((10 ^ 21 : Nat) : ℚ) ≠ 0 := by norm_num
  have hpos : ¬ ((10 ^ 21 : Nat) : ℚ) < 0 := by norm_num
  unfold numberToString
  rw [if_neg hne, if_neg hpos]
  unfold positiveToString decimalForm
  simp only [decimalPlaces_natCast, hnum, h]
  simp [h21]
  decide


/-- The worker of `log2` finds the position of the highest bit when the fuel is
at least the number. -/
theorem log2Fuel_spec (fuel n : Nat) (hn : 0 < n) (hfuel : n ≤ fuel) :
    2 ^ log2Fuel fuel n ≤ n ∧ n < 2 ^ (log2Fuel fuel n + 1) := by
  induction fuel generalizing n with
  | zero => omega
  | succ fuel ih =>
    unfold log2Fuel
    by_cases h2 : n < 2
    · rw [if_pos h2]
      have : n = 1 := by omega
      subst this
      decide
    · rw [if_neg h2]
      obtain ⟨h1, h3⟩ := ih (n / 2) (by omega) (by omega)
      constructor
      · rw [pow_succ]
        omega
      · rw [pow_succ]
        omega

/-- The highest bit of a positive integer. -/
theorem log2_spec (n : Nat) (hn : 0 < n) : 2 ^ log2 n ≤ n ∧ n < 2 ^ (log2 n + 1) :=
  log2Fuel_spec n n hn (le_refl n)

/-- A quotient of two positive integers with highest bits `a` and `b` lies
between `2 ^ (a - b - 1)` and `2 ^ (a - b + 1)`. -/
theorem quotient_between (x : ℚ) (n d a b : Nat) (hd : 0 < d) (hx : x = (n : ℚ) / (d : ℚ))
    (ha1 : 2 ^ a ≤ n) (ha2 : n < 2 ^ (a + 1)) (hb1 : 2 ^ b ≤ d) (hb2 : d < 2 ^ (b + 1)) :
    (2 : ℚ) ^ ((a : Int) - (b : Int) - 1) ≤ x ∧ x < (2 : ℚ) ^ ((a : Int) - (b : Int) + 1) := by
  have hden : (0 : ℚ) < (d : ℚ) := by exact_mod_cast hd
  have ha1q : (2 : ℚ) ^ a ≤ (n : ℚ) := by exact_mod_cast ha1
  have ha2q : (n : ℚ) < (2 : ℚ) ^ (a + 1) := by exact_mod_cast ha2
  have hb1q : (2 : ℚ) ^ b ≤ (d : ℚ) := by exact_mod_cast hb1
  have hb2q : (d : ℚ) < (2 : ℚ) ^ (b + 1) := by exact_mod_cast hb2
  have h2 : (0 : ℚ) < 2 := by norm_num
  have hpa : (0 : ℚ) < (2 : ℚ) ^ a := pow_pos h2 _
  have hpb : (0 : ℚ) < (2 : ℚ) ^ b := pow_pos h2 _
  have he0 : (2 : ℚ) ^ ((a : Int) - (b : Int)) = (2 : ℚ) ^ a / (2 : ℚ) ^ b := by
    rw [zpow_sub₀ (by norm_num : (2 : ℚ) ≠ 0), zpow_natCast, zpow_natCast]
  constructor
  · rw [zpow_sub_one₀ (by norm_num : (2 : ℚ) ≠ 0), he0, hx, le_div_iff₀ hden]
    have h3 : (2 : ℚ) ^ a / (2 : ℚ) ^ b * 2⁻¹ * (d : ℚ) =
        (2 : ℚ) ^ a * ((d : ℚ) / (2 : ℚ) ^ (b + 1)) := by
      rw [pow_succ]
      field_simp
    rw [h3]
    have h1 : (d : ℚ) / (2 : ℚ) ^ (b + 1) ≤ 1 := by
      rw [div_le_iff₀ (pow_pos h2 _)]
      linarith
    calc (2 : ℚ) ^ a * ((d : ℚ) / (2 : ℚ) ^ (b + 1)) ≤ (2 : ℚ) ^ a * 1 :=
          mul_le_mul_of_nonneg_left h1 (le_of_lt hpa)
      _ = (2 : ℚ) ^ a := by ring
      _ ≤ _ := ha1q
  · rw [zpow_add_one₀ (by norm_num : (2 : ℚ) ≠ 0), he0, hx, div_lt_iff₀ hden]
    have h3 : (2 : ℚ) ^ a / (2 : ℚ) ^ b * 2 * (d : ℚ) =
        (2 : ℚ) ^ (a + 1) * ((d : ℚ) / (2 : ℚ) ^ b) := by
      rw [pow_succ]
      field_simp
    rw [h3]
    have h1 : (1 : ℚ) ≤ (d : ℚ) / (2 : ℚ) ^ b := by
      rw [le_div_iff₀ hpb]
      linarith
    calc (n : ℚ) < (2 : ℚ) ^ (a + 1) := ha2q
      _ = (2 : ℚ) ^ (a + 1) * 1 := by ring
      _ ≤ _ := mul_le_mul_of_nonneg_left h1 (le_of_lt (pow_pos h2 _))

/-- The binary exponent of a positive number `x` brackets it between two powers of
two. -/
theorem binaryExponent_spec (x : ℚ) (hx : 0 < x) :
    (2 : ℚ) ^ binaryExponent x ≤ x ∧ x < (2 : ℚ) ^ (binaryExponent x + 1) := by
  have hnum : 0 < x.num := Rat.num_pos.mpr hx
  have hnat : 0 < x.num.natAbs := Int.natAbs_pos.mpr (ne_of_gt hnum)
  obtain ⟨ha1, ha2⟩ := log2_spec x.num.natAbs hnat
  obtain ⟨hb1, hb2⟩ := log2_spec x.den x.den_pos
  have h1 : ((x.num.natAbs : Nat) : ℚ) = (x.num : ℚ) := by
    calc ((x.num.natAbs : Nat) : ℚ) = (((x.num.natAbs : Nat) : Int) : ℚ) :=
          (Int.cast_natCast _).symm
      _ = (x.num : ℚ) := by rw [Int.natAbs_of_nonneg (le_of_lt hnum)]
  have hxq : x = ((x.num.natAbs : Nat) : ℚ) / (x.den : ℚ) := by
    rw [h1]
    exact (Rat.num_div_den x).symm
  obtain ⟨hlower, hupper⟩ :=
    quotient_between x x.num.natAbs x.den (log2 x.num.natAbs) (log2 x.den) x.den_pos hxq
      ha1 ha2 hb1 hb2
  unfold binaryExponent
  split
  · next h => exact ⟨h, hupper⟩
  · next h =>
    refine ⟨hlower, ?_⟩
    rw [sub_add_cancel]
    exact not_le.mp h

/-- A positive number below `2 ^ m` has a binary exponent below `m`. -/
theorem binaryExponent_lt (x : ℚ) (hx : 0 < x) (m : Int) (h : x < (2 : ℚ) ^ m) :
    binaryExponent x < m := by
  have h1 := (binaryExponent_spec x hx).1
  have h2 : (2 : ℚ) ^ binaryExponent x < (2 : ℚ) ^ m := lt_of_le_of_lt h1 h
  exact (zpow_lt_zpow_iff_right₀ (by norm_num : (1 : ℚ) < 2)).mp h2

/-- A number that is at least `2 ^ m` has a binary exponent of at least `m`. -/
theorem le_binaryExponent (x : ℚ) (hx : 0 < x) (m : Int) (h : (2 : ℚ) ^ m ≤ x) :
    m ≤ binaryExponent x := by
  have h1 := (binaryExponent_spec x hx).2
  have h2 : (2 : ℚ) ^ m < (2 : ℚ) ^ (binaryExponent x + 1) := lt_of_le_of_lt h h1
  have := (zpow_lt_zpow_iff_right₀ (by norm_num : (1 : ℚ) < 2)).mp h2
  omega

/-- The rounded integer is within a half of the number, and an integer on one
side of the number stays on that side of the rounded integer. -/
theorem roundHalfEven_spec (y : ℚ) :
    |(roundHalfEven y : ℚ) - y| ≤ 1 / 2 ∧
      (∀ c : Int, (c : ℚ) ≤ y → c ≤ roundHalfEven y) ∧
      (∀ c : Int, y ≤ (c : ℚ) → roundHalfEven y ≤ c) := by
  have hfl : ((⌊y⌋ : Int) : ℚ) ≤ y := Int.floor_le y
  have hlt : y < ((⌊y⌋ : Int) : ℚ) + 1 := Int.lt_floor_add_one y
  have hlow : ∀ c : Int, (c : ℚ) ≤ y → c ≤ ⌊y⌋ := fun c hc => Int.le_floor.mpr hc
  have hup : ∀ c : Int, y ≤ (c : ℚ) → y ≠ ((⌊y⌋ : Int) : ℚ) → ⌊y⌋ + 1 ≤ c := by
    intro c hc hne
    have h1 : ((⌊y⌋ : Int) : ℚ) < (c : ℚ) := lt_of_lt_of_le (lt_of_le_of_ne hfl (Ne.symm hne)) hc
    have : ⌊y⌋ < c := by exact_mod_cast h1
    omega
  have hup0 : ∀ c : Int, y ≤ (c : ℚ) → ⌊y⌋ ≤ c := by
    intro c hc
    have h1 : ((⌊y⌋ : Int) : ℚ) ≤ (c : ℚ) := le_trans hfl hc
    exact_mod_cast h1
  unfold roundHalfEven
  split
  · next h =>
    refine ⟨?_, hlow, hup0⟩
    rw [abs_le]
    constructor <;> linarith
  · next h =>
    have hne : y ≠ ((⌊y⌋ : Int) : ℚ) := by
      intro heq
      apply h
      rw [← heq]
      norm_num
    have hcast : (((⌊y⌋ + 1 : Int)) : ℚ) = ((⌊y⌋ : Int) : ℚ) + 1 := by push_cast; ring
    split
    · next h' =>
      refine ⟨?_, fun c hc => le_trans (hlow c hc) (by omega), fun c hc => hup c hc hne⟩
      rw [hcast, abs_le]
      constructor <;> linarith
    · next h' =>
      have hhalf : y - ((⌊y⌋ : Int) : ℚ) = 1 / 2 := le_antisymm (not_lt.mp h') (not_lt.mp h)
      split
      · refine ⟨?_, hlow, hup0⟩
        rw [abs_le]
        constructor <;> linarith
      · refine ⟨?_, fun c hc => le_trans (hlow c hc) (by omega), fun c hc => hup c hc hne⟩
        rw [hcast, abs_le]
        constructor <;> linarith

/-- The spacing of the doubles is positive. -/
theorem doubleSpacing_pos (x : ℚ) : 0 < doubleSpacing x := by
  unfold doubleSpacing
  positivity

/-- The double of a positive number is the rounded multiple of the spacing. -/
theorem roundToDouble_pos (x : ℚ) (hx : 0 < x) :
    roundToDouble x = roundHalfEven (x / doubleSpacing x) * doubleSpacing x := by
  unfold roundToDouble
  rw [if_neg (ne_of_gt hx), if_neg (not_lt.mpr (le_of_lt hx))]

/-- The double of a positive number is within half the spacing of the number. -/
theorem roundToDouble_error (x : ℚ) (hx : 0 < x) :
    |roundToDouble x - x| ≤ doubleSpacing x / 2 := by
  have hq := doubleSpacing_pos x
  have h := (roundHalfEven_spec (x / doubleSpacing x)).1
  rw [roundToDouble_pos x hx]
  have heq : (roundHalfEven (x / doubleSpacing x) : ℚ) * doubleSpacing x - x =
      ((roundHalfEven (x / doubleSpacing x) : ℚ) - x / doubleSpacing x) * doubleSpacing x := by
    field_simp
  rw [heq, abs_mul, abs_of_pos hq]
  calc |(roundHalfEven (x / doubleSpacing x) : ℚ) - x / doubleSpacing x| * doubleSpacing x
      ≤ 1 / 2 * doubleSpacing x := mul_le_mul_of_nonneg_right h (le_of_lt hq)
    _ = doubleSpacing x / 2 := by ring

/-- A multiple of the spacing that is not above a positive number is not above
its double, and one that is not below the number is not below its double. -/
theorem roundToDouble_grid (x : ℚ) (hx : 0 < x) (c : Int) :
    ((c : ℚ) * doubleSpacing x ≤ x → (c : ℚ) * doubleSpacing x ≤ roundToDouble x) ∧
      (x ≤ (c : ℚ) * doubleSpacing x → roundToDouble x ≤ (c : ℚ) * doubleSpacing x) := by
  have hq := doubleSpacing_pos x
  obtain ⟨_, hlow, hup⟩ := roundHalfEven_spec (x / doubleSpacing x)
  rw [roundToDouble_pos x hx]
  constructor
  · intro h
    have h1 : (c : ℚ) ≤ x / doubleSpacing x := (le_div_iff₀ hq).mpr h
    have h2 : ((c : Int) : ℚ) ≤ (roundHalfEven (x / doubleSpacing x) : ℚ) := by
      exact_mod_cast hlow c h1
    exact mul_le_mul_of_nonneg_right h2 (le_of_lt hq)
  · intro h
    have h1 : x / doubleSpacing x ≤ (c : ℚ) := (div_le_iff₀ hq).mpr h
    have h2 : (roundHalfEven (x / doubleSpacing x) : ℚ) ≤ ((c : Int) : ℚ) := by
      exact_mod_cast hup c h1
    exact mul_le_mul_of_nonneg_right h2 (le_of_lt hq)

/-- The spacing at a positive number `x` with `2 ^ lo ≤ x < 2 ^ (hi + 1)`, for
`lo` at least -1022: it is `1 / 2 ^ c` for a `c` from `52 - hi` to `52 - lo`. -/
theorem doubleSpacing_eq (x : ℚ) (hx : 0 < x) (lo hi : Int) (hlo : (2 : ℚ) ^ lo ≤ x)
    (hhi : x < (2 : ℚ) ^ (hi + 1)) (hlo' : -1022 ≤ lo) (hhi' : hi ≤ 52) :
    ∃ c : Nat, doubleSpacing x = 1 / (2 : ℚ) ^ c ∧ 52 - hi ≤ (c : Int) ∧ (c : Int) ≤ 52 - lo := by
  have h1 := le_binaryExponent x hx lo hlo
  have h2 := binaryExponent_lt x hx (hi + 1) hhi
  refine ⟨(52 - binaryExponent x).toNat, ?_, by omega, by omega⟩
  unfold doubleSpacing
  have hmax : max (binaryExponent x) (-1022) = binaryExponent x := max_eq_left (by omega)
  rw [hmax]
  have : binaryExponent x - 52 = -(((52 - binaryExponent x).toNat : Nat) : Int) := by
    rw [Int.toNat_of_nonneg (by omega)]
    ring
  rw [this, zpow_neg, zpow_natCast, one_div]

/-- The double of 0 is 0. -/
theorem roundToDouble_zero : roundToDouble 0 = 0 := by
  unfold roundToDouble
  rw [if_pos rfl]


/-- The spacing at a positive number `x` from `2 ^ lo` (with `lo` at least -1022)
to below `2 ^ 53` is `1 / 2 ^ c` for the `c` that brings `x * 2 ^ c` between
`2 ^ 52` and `2 ^ 53`. -/
theorem doubleSpacing_normal (x : ℚ) (hx : 0 < x) (lo : Int) (hlo : (2 : ℚ) ^ lo ≤ x)
    (hlo' : -1022 ≤ lo) (hhi : x < (2 : ℚ) ^ (53 : Nat)) :
    ∃ c : Nat, doubleSpacing x = 1 / (2 : ℚ) ^ c ∧ (2 : ℚ) ^ (52 : Nat) ≤ x * (2 : ℚ) ^ c ∧
      x * (2 : ℚ) ^ c < (2 : ℚ) ^ (53 : Nat) := by
  have h1 := le_binaryExponent x hx lo hlo
  have hhi2 : x < (2 : ℚ) ^ ((53 : Nat) : Int) := by
    rw [zpow_natCast]
    exact hhi
  have h2 := binaryExponent_lt x hx _ hhi2
  obtain ⟨hs1, hs2⟩ := binaryExponent_spec x hx
  have hc : (((52 - binaryExponent x).toNat : Nat) : Int) = 52 - binaryExponent x :=
    Int.toNat_of_nonneg (by omega)
  have h20 : (2 : ℚ) ≠ 0 := by norm_num
  have hpow : (2 : ℚ) ^ (52 - binaryExponent x).toNat = (2 : ℚ) ^ (52 - binaryExponent x) := by
    rw [← zpow_natCast, hc]
  have hpos : (0 : ℚ) < (2 : ℚ) ^ (52 - binaryExponent x) := by positivity
  refine ⟨(52 - binaryExponent x).toNat, ?_, ?_, ?_⟩
  · unfold doubleSpacing
    have hmax : max (binaryExponent x) (-1022) = binaryExponent x := max_eq_left (by omega)
    rw [hmax, hpow, one_div, ← zpow_neg]
    congr 1
    ring
  · rw [hpow]
    calc (2 : ℚ) ^ (52 : Nat) = (2 : ℚ) ^ binaryExponent x * (2 : ℚ) ^ (52 - binaryExponent x) := by
          rw [← zpow_add₀ h20, ← zpow_natCast]
          congr 1
          push_cast
          ring
      _ ≤ x * (2 : ℚ) ^ (52 - binaryExponent x) := mul_le_mul_of_nonneg_right hs1 (le_of_lt hpos)
  · rw [hpow]
    calc x * (2 : ℚ) ^ (52 - binaryExponent x)
        < (2 : ℚ) ^ (binaryExponent x + 1) * (2 : ℚ) ^ (52 - binaryExponent x) :=
          mul_lt_mul_of_pos_right hs2 hpos
      _ = (2 : ℚ) ^ (53 : Nat) := by
          rw [← zpow_add₀ h20, ← zpow_natCast]
          congr 1
          push_cast
          ring

/-- A quotient `N / 2 ^ d` of an integer, with `2 ^ d` at most the inverse of the
spacing at `x`, stays on its side of `x` when `x` is rounded. -/
theorem roundToDouble_dyadic (x : ℚ) (hx : 0 < x) (c d : Nat)
    (hq : doubleSpacing x = 1 / (2 : ℚ) ^ c) (hdc : d ≤ c) (N : Int) :
    ((N : ℚ) / (2 : ℚ) ^ d ≤ x → (N : ℚ) / (2 : ℚ) ^ d ≤ roundToDouble x) ∧
      (x ≤ (N : ℚ) / (2 : ℚ) ^ d → roundToDouble x ≤ (N : ℚ) / (2 : ℚ) ^ d) := by
  have h := roundToDouble_grid x hx (N * 2 ^ (c - d))
  have heq : ((N * 2 ^ (c - d) : Int) : ℚ) * doubleSpacing x = (N : ℚ) / (2 : ℚ) ^ d := by
    rw [hq]
    push_cast
    have hc : (2 : ℚ) ^ c = (2 : ℚ) ^ (c - d) * (2 : ℚ) ^ d := by
      rw [← pow_add, Nat.sub_add_cancel hdc]
    rw [hc]
    field_simp
    ring
  rw [heq] at h
  exact h

/-- A power of two with a greater value has a greater exponent. -/
theorem lt_of_two_pow_lt (a b : Nat) (h : (2 : ℚ) ^ a < (2 : ℚ) ^ b) : a < b :=
  (pow_lt_pow_iff_right₀ (by norm_num : (1 : ℚ) < 2)).mp h

end JS

namespace timeUtils

/-- The integer part of a number that is not negative is its floor. -/
theorem truncate_nonneg (x : ℚ) (hx : 0 ≤ x) : JS.truncate x = ⌊x⌋ := by
  unfold JS.truncate
  rw [if_pos hx]

/-- The double `t` of a time of `k` whole milliseconds, for a positive `k` below
`2 ^ 43` seconds: the spacing `1 / 2 ^ c` at the time is at most `1 / 1024`, so
`t` is within `1 / 2048` of the time; `t` is a multiple `M / 2 ^ c` of the
spacing from `2 ^ 52` to `2 ^ 53` spacings; it has the whole seconds of the
time, and it is the time itself when this is a whole number of seconds. -/
theorem double_of_ms (k : Nat) (hk0 : 0 < k) (hk : k < 1000 * 2 ^ 43) :
    ∃ (c : Nat) (M : Int), 10 ≤ c ∧ c ≤ 62 ∧
      JS.roundToDouble ((k : ℚ) / 1000) = (M : ℚ) / (2 : ℚ) ^ c ∧
      (2 : ℚ) ^ (52 : Nat) ≤ JS.roundToDouble ((k : ℚ) / 1000) * (2 : ℚ) ^ c ∧
      JS.roundToDouble ((k : ℚ) / 1000) * (2 : ℚ) ^ c ≤ (2 : ℚ) ^ (53 : Nat) ∧
      |JS.roundToDouble ((k : ℚ) / 1000) - (k : ℚ) / 1000| ≤ 1 / 2048 ∧
      ((k / 1000 : Nat) : ℚ) ≤ JS.roundToDouble ((k : ℚ) / 1000) ∧
      JS.roundToDouble ((k : ℚ) / 1000) < ((k / 1000 : Nat) : ℚ) + 1 ∧
      (k % 1000 = 0 → JS.roundToDouble ((k : ℚ) / 1000) = ((k / 1000 : Nat) : ℚ)) := by
  have hkq : (k : ℚ) = 1000 * ((k / 1000 : Nat) : ℚ) + ((k % 1000 : Nat) : ℚ) := by
    exact_mod_cast (Nat.div_add_mod k 1000).symm
  have hn : ((k % 1000 : Nat) : ℚ) ≤ 999 := by
    have : k % 1000 ≤ 999 := by omega
    exact_mod_cast this
  have hn0 : (0 : ℚ) ≤ ((k % 1000 : Nat) : ℚ) := Nat.cast_nonneg _
  have hk1 : (1 : ℚ) ≤ (k : ℚ) := by exact_mod_cast hk0
  have hk2 : (k : ℚ) < 1000 * 2 ^ 43 := by exact_mod_cast hk
  have hx : (0 : ℚ) < (k : ℚ) / 1000 := by positivity
  have hlo : (2 : ℚ) ^ (-10 : Int) ≤ (k : ℚ) / 1000 := by
    have : (2 : ℚ) ^ (-10 : Int) = 1 / 1024 := by norm_num [zpow_neg]
    rw [this, le_div_iff₀ (by norm_num : (0 : ℚ) < 1000)]
    linarith
  have hhi : (k : ℚ) / 1000 < (2 : ℚ) ^ (53 : Nat) := by
    rw [div_lt_iff₀ (by norm_num : (0 : ℚ) < 1000)]
    norm_num
    linarith
  obtain ⟨c, hq, hc1, hc2⟩ :=
    JS.doubleSpacing_normal ((k : ℚ) / 1000) hx (-10) hlo (by norm_num) hhi
  have hpc : (0 : ℚ) < (2 : ℚ) ^ c := by positivity
  have hc10 : 10 ≤ c := by
    by_contra hlt
    have hle : (2 : ℚ) ^ c ≤ (2 : ℚ) ^ 9 :=
      pow_le_pow_right₀ (by norm_num) (by omega)
    have h1 : (k : ℚ) / 1000 * (2 : ℚ) ^ c ≤ (k : ℚ) / 1000 * (2 : ℚ) ^ 9 :=
      mul_le_mul_of_nonneg_left hle (le_of_lt hx)
    have h2 : (k : ℚ) / 1000 * (2 : ℚ) ^ 9 < (2 : ℚ) ^ (52 : Nat) := by
      norm_num
      linarith
    linarith
  have hc62 : c ≤ 62 := by
    by_contra hlt
    have hle : (2 : ℚ) ^ 63 ≤ (2 : ℚ) ^ c :=
      pow_le_pow_right₀ (by norm_num) (by omega)
    have h1 : (k : ℚ) / 1000 * (2 : ℚ) ^ 63 ≤ (k : ℚ) / 1000 * (2 : ℚ) ^ c :=
      mul_le_mul_of_nonneg_left hle (le_of_lt hx)
    have h2 : (2 : ℚ) ^ (53 : Nat) ≤ (k : ℚ) / 1000 * (2 : ℚ) ^ 63 := by
      norm_num
      linarith
    linarith
  have hq1024 : (2 : ℚ) ^ 10 ≤ (2 : ℚ) ^ c := pow_le_pow_right₀ (by norm_num) hc10
  have herr : |JS.roundToDouble ((k : ℚ) / 1000) - (k : ℚ) / 1000| ≤ 1 / 2048 := by
    refine le_trans (JS.roundToDouble_error _ hx) ?_
    rw [hq, div_div, div_le_div_iff₀ (by positivity) (by norm_num)]
    norm_num at hq1024 ⊢
    linarith
  have hgrid := fun (d : Nat) (hd : d ≤ c) (N : Int) =>
    JS.roundToDouble_dyadic ((k : ℚ) / 1000) hx c d hq hd N
  have hKx : ((k / 1000 : Nat) : ℚ) ≤ (k : ℚ) / 1000 := by
    rw [le_div_iff₀ (by norm_num : (0 : ℚ) < 1000)]
    linarith
  have hKt : ((k / 1000 : Nat) : ℚ) ≤ JS.roundToDouble ((k : ℚ) / 1000) := by
    have := (hgrid 0 (Nat.zero_le c) ((k / 1000 : Nat) : Int)).1
    simp only [pow_zero, div_one, Int.cast_natCast] at this
    exact this hKx
  have hwhole : k % 1000 = 0 → JS.roundToDouble ((k : ℚ) / 1000) = ((k / 1000 : Nat) : ℚ) := by
    intro h0
    have hxK : (k : ℚ) / 1000 ≤ ((k / 1000 : Nat) : ℚ) := by
      rw [div_le_iff₀ (by norm_num : (0 : ℚ) < 1000), hkq, h0]
      simp
      linarith
    have := (hgrid 0 (Nat.zero_le c) ((k / 1000 : Nat) : Int)).2
    simp only [pow_zero, div_one, Int.cast_natCast] at this
    exact le_antisymm (this hxK) hKt
  have htK : JS.roundToDouble ((k : ℚ) / 1000) < ((k / 1000 : Nat) : ℚ) + 1 := by
    by_cases h0 : k % 1000 = 0
    · rw [hwhole h0]
      linarith
    · have h1 := (abs_le.mp herr).2
      have hxle : (k : ℚ) / 1000 ≤ ((k / 1000 : Nat) : ℚ) + 999 / 1000 := by
        rw [div_le_iff₀ (by norm_num : (0 : ℚ) < 1000)]
        linarith
      linarith
  have hpow52 := (hgrid c (le_refl c) (2 ^ 52)).1
  have hpow53 := (hgrid c (le_refl c) (2 ^ 53)).2
  have h52 : (((2 : Int) ^ 52 : Int) : ℚ) / (2 : ℚ) ^ c ≤ (k : ℚ) / 1000 := by
    rw [div_le_iff₀ hpc]
    push_cast
    exact hc1
  have h53 : (k : ℚ) / 1000 ≤ (((2 : Int) ^ 53 : Int) : ℚ) / (2 : ℚ) ^ c := by
    rw [le_div_iff₀ hpc]
    push_cast
    exact le_of_lt hc2
  refine ⟨c, JS.roundHalfEven ((k : ℚ) / 1000 / JS.doubleSpacing ((k : ℚ) / 1000)), hc10, hc62,
    ?_, ?_, ?_, herr, hKt, htK, hwhole⟩
  · rw [JS.roundToDouble_pos _ hx, hq]
    field_simp
  · have := hpow52 h52
    rw [div_le_iff₀ hpc] at this
    push_cast at this
    exact this
  · have := hpow53 h53
    rw [le_div_iff₀ hpc] at this
    push_cast at this
    exact this


/-- The whole minutes, with the quotient and the remainder of the whole seconds
by 60 given: for a double `t` with `60 * Q + R` whole seconds that is a multiple
of a spacing `1 / 2 ^ c`, the rounded quotient `t / 60` has the floor `Q`. -/
theorem floor_minutes_double_aux (t : ℚ) (Q R c : Nat) (M : Int) (ht0 : 0 < t) (hR : R ≤ 59)
    (hKt : (60 * Q + R : ℚ) ≤ t) (htK : t < (60 * Q + R : ℚ) + 1)
    (hM : t = (M : ℚ) / (2 : ℚ) ^ c) (hlow : (2 : ℚ) ^ (52 : Nat) ≤ t * (2 : ℚ) ^ c)
    (hup : t * (2 : ℚ) ^ c ≤ (2 : ℚ) ^ (53 : Nat)) (hc : c ≤ 62)
    (hK : (60 * Q + R : ℚ) < 8796093022208) :
    ⌊JS.roundToDouble (t / 60)⌋ = (Q : Int) := by
  have hpc : (0 : ℚ) < (2 : ℚ) ^ c := by positivity
  have hz0 : (0 : ℚ) < t / 60 := by positivity
  have hr : (R : ℚ) ≤ 59 := by exact_mod_cast hR
  have hr0 : (0 : ℚ) ≤ (R : ℚ) := Nat.cast_nonneg _
  have hQ0 : (0 : ℚ) ≤ (Q : ℚ) := Nat.cast_nonneg _
  have e52 : (2 : ℚ) ^ (52 : Nat) = 4503599627370496 := by norm_num
  have e53 : (2 : ℚ) ^ (53 : Nat) = 9007199254740992 := by norm_num
  rw [e52] at hlow
  rw [e53] at hup
  have hlo : (2 : ℚ) ^ ((46 : Int) - (c : Int)) ≤ t / 60 := by
    rw [zpow_sub₀ (by norm_num : (2 : ℚ) ≠ 0), zpow_natCast]
    have h46 : (2 : ℚ) ^ (46 : Int) = 70368744177664 := by norm_num
    rw [h46, div_le_div_iff₀ hpc (by norm_num)]
    linarith
  have hhi : t / 60 < (2 : ℚ) ^ (53 : Nat) := by
    rw [div_lt_iff₀ (by norm_num : (0 : ℚ) < 60), e53]
    linarith
  obtain ⟨cz, hqz, hz1, hz2⟩ :=
    JS.doubleSpacing_normal (t / 60) hz0 ((46 : Int) - (c : Int)) hlo (by omega) hhi
  rw [e52] at hz1
  have hpcz : (0 : ℚ) < (2 : ℚ) ^ cz := by positivity
  have hcz : c + 5 ≤ cz := by
    by_contra hlt
    have hle : (2 : ℚ) ^ cz ≤ (2 : ℚ) ^ (c + 4) :=
      pow_le_pow_right₀ (by norm_num) (by omega)
    have h1 : t / 60 * (2 : ℚ) ^ cz ≤ t / 60 * (2 : ℚ) ^ (c + 4) :=
      mul_le_mul_of_nonneg_left hle (le_of_lt hz0)
    have h2 : t / 60 * (2 : ℚ) ^ (c + 4) = t * (2 : ℚ) ^ c * (16 / 60) := by
      rw [pow_add]
      ring
    linarith
  have hQz : (Q : ℚ) ≤ t / 60 := by
    rw [le_div_iff₀ (by norm_num : (0 : ℚ) < 60)]
    linarith
  have hlower : (Q : ℚ) ≤ JS.roundToDouble (t / 60) := by
    have := (JS.roundToDouble_dyadic (t / 60) hz0 cz 0 hqz (Nat.zero_le cz) (Q : Int)).1
    simp only [pow_zero, div_one, Int.cast_natCast] at this
    exact this hQz
  have hMlt : M < (60 * ((Q : Int) + 1)) * 2 ^ c := by
    have h1 : (M : ℚ) = t * (2 : ℚ) ^ c := by
      rw [hM]
      field_simp
    have h2 : t < 60 * ((Q : ℚ) + 1) := by linarith
    have h3 : (M : ℚ) < 60 * ((Q : ℚ) + 1) * (2 : ℚ) ^ c := by
      rw [h1]
      exact mul_lt_mul_of_pos_right h2 hpc
    have h4 : (M : ℚ) < (((60 * ((Q : Int) + 1)) * 2 ^ c : Int) : ℚ) := by
      push_cast
      exact h3
    exact_mod_cast h4
  have hstep : t + 1 / (2 : ℚ) ^ c ≤ 60 * ((Q : ℚ) + 1) := by
    have h1 : M + 1 ≤ (60 * ((Q : Int) + 1)) * 2 ^ c := by omega
    have h2 : ((M + 1 : Int) : ℚ) ≤ (((60 * ((Q : Int) + 1)) * 2 ^ c : Int) : ℚ) := by
      exact_mod_cast h1
    push_cast at h2
    rw [hM, div_add_div_same, div_le_iff₀ hpc]
    exact h2
  have herr := JS.roundToDouble_error (t / 60) hz0
  rw [hqz] at herr
  have hsmall : 1 / (2 : ℚ) ^ cz / 2 ≤ 1 / (2 : ℚ) ^ c / 64 := by
    have hle : (2 : ℚ) ^ (c + 5) ≤ (2 : ℚ) ^ cz := pow_le_pow_right₀ (by norm_num) hcz
    rw [pow_add] at hle
    rw [div_div, div_div, div_le_div_iff₀ (by positivity) (by positivity)]
    norm_num at hle ⊢
    linarith
  have hupper : JS.roundToDouble (t / 60) < (Q : ℚ) + 1 := by
    have h1 := (abs_le.mp herr).2
    have h2 : t / 60 ≤ (Q : ℚ) + 1 - 1 / (2 : ℚ) ^ c / 60 := by
      rw [div_le_iff₀ (by norm_num : (0 : ℚ) < 60)]
      have : ((Q : ℚ) + 1 - 1 / (2 : ℚ) ^ c / 60) * 60 =
          60 * ((Q : ℚ) + 1) - 1 / (2 : ℚ) ^ c := by ring
      rw [this]
      linarith
    have h3 : 1 / (2 : ℚ) ^ c / 64 < 1 / (2 : ℚ) ^ c / 60 := by
      have hpos : (0 : ℚ) < 1 / (2 : ℚ) ^ c := by positivity
      rw [div_lt_div_iff₀ (by norm_num) (by norm_num)]
      linarith
    linarith
  rw [Int.floor_eq_iff]
  exact ⟨by exact_mod_cast hlower, by exact_mod_cast hupper⟩

/-- The whole minutes: for a double `t` with `K` whole seconds that is a multiple
of a spacing `1 / 2 ^ c`, the rounded quotient `t / 60` has the floor
`K / 60`. -/
theorem floor_minutes_double (t : ℚ) (K c : Nat) (M : Int) (ht0 : 0 < t)
    (hKt : (K : ℚ) ≤ t) (htK : t < (K : ℚ) + 1) (hM : t = (M : ℚ) / (2 : ℚ) ^ c)
    (hlow : (2 : ℚ) ^ (52 : Nat) ≤ t * (2 : ℚ) ^ c)
    (hup : t * (2 : ℚ) ^ c ≤ (2 : ℚ) ^ (53 : Nat)) (hc : c ≤ 62) (hK : K < 2 ^ 43) :
    ⌊JS.roundToDouble (t / 60)⌋ = ((K / 60 : Nat) : Int) := by
  have hKq : (K : ℚ) = 60 * ((K / 60 : Nat) : ℚ) + ((K % 60 : Nat) : ℚ) := by
    exact_mod_cast (Nat.div_add_mod K 60).symm
  have hK' : K < 8796093022208 := lt_of_lt_of_le hK (by norm_num)
  have hKb : (K : ℚ) < 8796093022208 := by exact_mod_cast hK'
  rw [hKq] at hKt htK hKb
  exact floor_minutes_double_aux t (K / 60) (K % 60) c M ht0 (by omega) hKt htK hM hlow hup hc hKb

/-- The seconds, with the quotient and the remainder of the whole seconds by 60
given. -/
theorem floor_secs_double_aux (t : ℚ) (Q R : Nat) (hR : R ≤ 59)
    (hKt : (60 * Q + R : ℚ) ≤ t) (htK : t < (60 * Q + R : ℚ) + 1) :
    ⌊JS.remainder t 60⌋ = (R : Int) := by
  have hr : (R : ℚ) ≤ 59 := by exact_mod_cast hR
  have hr0 : (0 : ℚ) ≤ (R : ℚ) := Nat.cast_nonneg _
  have hQ0 : (0 : ℚ) ≤ (Q : ℚ) := Nat.cast_nonneg _
  have hnn : (0 : ℚ) ≤ t / 60 := by
    apply div_nonneg _ (by norm_num)
    linarith
  have hfl : ⌊t / 60⌋ = (Q : Int) := by
    rw [Int.floor_eq_iff]
    constructor
    · rw [le_div_iff₀ (by norm_num : (0 : ℚ) < 60)]
      push_cast
      linarith
    · rw [div_lt_iff₀ (by norm_num : (0 : ℚ) < 60)]
      push_cast
      linarith
  unfold JS.remainder
  rw [truncate_nonneg _ hnn, hfl, Int.floor_eq_iff]
  push_cast
  constructor <;> linarith

/-- The seconds: for a `t` with `K` whole seconds the remainder `t % 60` has the
floor `K % 60`. -/
theorem floor_secs_double (t : ℚ) (K : Nat) (hKt : (K : ℚ) ≤ t) (htK : t < (K : ℚ) + 1) :
    ⌊JS.remainder t 60⌋ = ((K % 60 : Nat) : Int) := by
  have hKq : (K : ℚ) = 60 * ((K / 60 : Nat) : ℚ) + ((K % 60 : Nat) : ℚ) := by
    exact_mod_cast (Nat.div_add_mod K 60).symm
  rw [hKq] at hKt htK
  exact floor_secs_double_aux t (K / 60) (K % 60) (by omega) hKt htK

/-- The fraction: for a `t` with `K` whole seconds the remainder `t % 1` is
`t - K`. -/
theorem remainder_one (t : ℚ) (K : Nat) (hKt : (K : ℚ) ≤ t) (htK : t < (K : ℚ) + 1) :
    JS.remainder t 1 = t - (K : ℚ) := by
  have hK0 : (0 : ℚ) ≤ (K : ℚ) := Nat.cast_nonneg _
  have hnn : (0 : ℚ) ≤ t / 1 := by
    rw [div_one]
    linarith
  have hfl : ⌊t / 1⌋ = (K : Int) := by
    rw [div_one, Int.floor_eq_iff]
    exact ⟨by exact_mod_cast hKt, by exact_mod_cast htK⟩
  unfold JS.remainder
  rw [truncate_nonneg _ hnn, hfl]
  push_cast
  ring

/-- The milliseconds: the rounded product of a number `y` within a half of a
positive integer `n` below 1000 has the floor `n` or `n - 1`. -/
theorem floor_ms_double (y : ℚ) (n : Nat) (hn1 : 1 ≤ n) (hn : n < 1000)
    (hy1 : (n : ℚ) - 1 / 2 ≤ y) (hy2 : y ≤ (n : ℚ) + 1 / 2) :
    ⌊JS.roundToDouble y⌋ = (n : Int) ∨ ⌊JS.roundToDouble y⌋ = (n : Int) - 1 := by
  have hn1q : (1 : ℚ) ≤ (n : ℚ) := by exact_mod_cast hn1
  have hnq : (n : ℚ) < 1000 := by exact_mod_cast hn
  have hy0 : (0 : ℚ) < y := by linarith
  have hlo : (2 : ℚ) ^ (-1 : Int) ≤ y := by
    have : (2 : ℚ) ^ (-1 : Int) = 1 / 2 := by norm_num [zpow_neg]
    rw [this]
    linarith
  have hhi : y < (2 : ℚ) ^ (53 : Nat) := by
    norm_num
    linarith
  obtain ⟨c, hq, hc1, hc2⟩ := JS.doubleSpacing_normal y hy0 (-1) hlo (by norm_num) hhi
  have hc : 1 ≤ c := by
    by_contra hlt
    have h0 : c = 0 := by omega
    rw [h0, pow_zero, mul_one] at hc1
    norm_num at hc1
    linarith
  have h1 := (JS.roundToDouble_dyadic y hy0 c 1 hq hc (2 * (n : Int) - 1)).1
  have h2 := (JS.roundToDouble_dyadic y hy0 c 1 hq hc (2 * (n : Int) + 1)).2
  have e1 : (((2 * (n : Int) - 1 : Int)) : ℚ) / (2 : ℚ) ^ 1 = (n : ℚ) - 1 / 2 := by
    push_cast
    ring
  have e2 : (((2 * (n : Int) + 1 : Int)) : ℚ) / (2 : ℚ) ^ 1 = (n : ℚ) + 1 / 2 := by
    push_cast
    ring
  rw [e1] at h1
  rw [e2] at h2
  have hl := h1 hy1
  have hu := h2 hy2
  by_cases hge : (n : ℚ) ≤ JS.roundToDouble y
  · left
    rw [Int.floor_eq_iff]
    push_cast
    exact ⟨hge, by linarith⟩
  · right
    rw [Int.floor_eq_iff]
    push_cast
    constructor <;> linarith


/-- The text that `formatSecondsToMMmSSsNNNms` gives for a double whose three
floors are the non-negative integers `q`, `s` and `m`: their texts, padded to
2, 2 and 3 characters. -/
theorem formatSecondsToMMmSSsNNNms_floors (t : ℚ) (q s m : Nat)
    (h1 : ⌊JS.roundToDouble (t / 60)⌋ = (q : Int)) (h2 : ⌊JS.remainder t 60⌋ = (s : Int))
    (h3 : ⌊JS.roundToDouble (JS.remainder t 1 * 1000)⌋ = (m : Int)) :
    formatSecondsToMMmSSsNNNms (some t) =
      JS.padStart (JS.numberToString ((q : Nat) : ℚ)) 2 48 ++ [109] ++
        JS.padStart (JS.numberToString ((s : Nat) : ℚ)) 2 48 ++ [115] ++
        JS.padStart (JS.numberToString ((m : Nat) : ℚ)) 3 48 ++ [109, 115] := by
  unfold formatSecondsToMMmSSsNNNms
  simp only [h1, h2, h3, Int.cast_natCast]

/-- The value that `convertTimeStringToSeconds` reads from the text of minutes
`q`, seconds `s` and milliseconds `m` below `10 ^ 21`. -/
theorem convertTimeStringToSeconds_padded (q s m : Nat) (hq : q < 10 ^ 21) (hs : s < 10 ^ 21)
    (hm : m < 10 ^ 21) :
    convertTimeStringToSeconds
        (.string (JS.padStart (JS.numberToString ((q : Nat) : ℚ)) 2 48 ++ [109] ++
          JS.padStart (JS.numberToString ((s : Nat) : ℚ)) 2 48 ++ [115] ++
          JS.padStart (JS.numberToString ((m : Nat) : ℚ)) 3 48 ++ [109, 115])) =
      .finite ((q : ℚ) * 60 + (s : ℚ) + (m : ℚ) / 1000) := by
  obtain ⟨d1, n1, v1⟩ := JS.padStart_numberToString q 2 hq
  obtain ⟨d2, n2, v2⟩ := JS.padStart_numberToString s 2 hs
  obtain ⟨d3, n3, v3⟩ := JS.padStart_numberToString m 3 hm
  rw [convertTimeStringToSeconds_digits _ _ _ d1 d2 d3 n1 n2 n3, v1, v2, v3]

/-- The three floors of `formatSecondsToMMmSSsNNNms` on the double of a time of a
positive number `k` of whole milliseconds below `2 ^ 43` seconds: the whole
minutes and the seconds of the time, and its milliseconds or one less. -/
theorem formatSeconds_floors (k : Nat) (hk0 : 0 < k) (hk : k < 1000 * 2 ^ 43) :
    ⌊JS.roundToDouble (JS.roundToDouble ((k : ℚ) / 1000) / 60)⌋ = ((k / 60000 : Nat) : Int) ∧
      ⌊JS.remainder (JS.roundToDouble ((k : ℚ) / 1000)) 60⌋ = ((k / 1000 % 60 : Nat) : Int) ∧
      ∃ ms : Nat,
        ⌊JS.roundToDouble (JS.remainder (JS.roundToDouble ((k : ℚ) / 1000)) 1 * 1000)⌋ =
            (ms : Int) ∧
          (ms = k % 1000 ∨ (k % 1000 ≠ 0 ∧ ms + 1 = k % 1000)) := by
  obtain ⟨c, M, hc10, hc62, hM, hlow, hup, herr, hKt, htK, hwhole⟩ := double_of_ms k hk0 hk
  have hkq : (k : ℚ) = 1000 * ((k / 1000 : Nat) : ℚ) + ((k % 1000 : Nat) : ℚ) := by
    exact_mod_cast (Nat.div_add_mod k 1000).symm
  have hK : k / 1000 < 2 ^ 43 := by omega
  have ht0 : 0 < JS.roundToDouble ((k : ℚ) / 1000) := by
    have hpc : (0 : ℚ) < (2 : ℚ) ^ c := by positivity
    have h52 : (0 : ℚ) < (2 : ℚ) ^ (52 : Nat) := by positivity
    by_contra hneg
    have hle : JS.roundToDouble ((k : ℚ) / 1000) ≤ 0 := not_lt.mp hneg
    have : JS.roundToDouble ((k : ℚ) / 1000) * (2 : ℚ) ^ c ≤ 0 :=
      mul_nonpos_of_nonpos_of_nonneg hle (le_of_lt hpc)
    linarith
  have hdiv : k / 1000 / 60 = k / 60000 := by omega
  refine ⟨?_, floor_secs_double _ _ hKt htK, ?_⟩
  · rw [← hdiv]
    exact floor_minutes_double _ _ c M ht0 hKt htK hM hlow hup hc62 hK
  · rw [remainder_one _ _ hKt htK]
    by_cases h0 : k % 1000 = 0
    · refine ⟨0, ?_, Or.inl h0.symm⟩
      rw [hwhole h0, sub_self, zero_mul, JS.roundToDouble_zero]
      simp
    · have hn1 : 1 ≤ k % 1000 := by omega
      have hn : k % 1000 < 1000 := Nat.mod_lt _ (by norm_num)
      have hy : (JS.roundToDouble ((k : ℚ) / 1000) - ((k / 1000 : Nat) : ℚ)) * 1000 =
          ((k % 1000 : Nat) : ℚ) + 1000 * (JS.roundToDouble ((k : ℚ) / 1000) - (k : ℚ) / 1000) := by
        rw [hkq]
        ring
      obtain ⟨he1, he2⟩ := abs_le.mp herr
      rcases floor_ms_double
          ((JS.roundToDouble ((k : ℚ) / 1000) - ((k / 1000 : Nat) : ℚ)) * 1000) (k % 1000) hn1 hn
          (by rw [hy]; linarith) (by rw [hy]; linarith) with h | h
      · exact ⟨k % 1000, h, Or.inl rfl⟩
      · refine ⟨k % 1000 - 1, ?_, Or.inr ⟨h0, by omega⟩⟩
        rw [h]
        omega

/-- C29 (amended): for every time of a whole number `k` of milliseconds below
`2 ^ 43` seconds, given as the double `t` nearest to it,
`formatSecondsToMMmSSsNNNms(t)` is the text of the minutes and of the seconds of
the time and of its milliseconds or one millisecond less, so that
`convertTimeStringToSeconds` reads back the time of `k` or of `k - 1`
milliseconds (`m * 60 + s + ms / 1000` of the digits, in exact arithmetic), also
for times of 100 minutes or more; it reads back the time itself when the time is
a whole number of seconds. The double is within `1 / 2048` of the time. -/
theorem formatSeconds_roundTrip (k : Nat) (hk : k < 1000 * 2 ^ 43) :
    (convertTimeStringToSeconds
          (.string (formatSecondsToMMmSSsNNNms (some (JS.roundToDouble ((k : ℚ) / 1000))))) =
        .finite ((k : ℚ) / 1000) ∨
      (k % 1000 ≠ 0 ∧
        convertTimeStringToSeconds
            (.string (formatSecondsToMMmSSsNNNms (some (JS.roundToDouble ((k : ℚ) / 1000))))) =
          .finite (((k : ℚ) - 1) / 1000))) ∧
      (k % 1000 = 0 → JS.roundToDouble ((k : ℚ) / 1000) = (k : ℚ) / 1000) ∧
      |JS.roundToDouble ((k : ℚ) / 1000) - (k : ℚ) / 1000| ≤ 1 / 2048 := by
  rcases Nat.eq_zero_or_pos k with h0 | hk0
  · subst h0
    have hz : ((0 : Nat) : ℚ) / 1000 = 0 := by norm_num
    rw [hz, JS.roundToDouble_zero]
    refine ⟨Or.inl (by decide!), fun _ => rfl, by norm_num⟩
  · obtain ⟨h1, h2, ms, h3, hms⟩ := formatSeconds_floors k hk0 hk
    obtain ⟨_, _, _, _, _, _, _, herr, _, _, hwhole⟩ := double_of_ms k hk0 hk
    have hkq : (k : ℚ) = 1000 * ((k / 1000 : Nat) : ℚ) + ((k % 1000 : Nat) : ℚ) := by
      exact_mod_cast (Nat.div_add_mod k 1000).symm
    have hq2 : ((k / 1000 : Nat) : ℚ) =
        60 * ((k / 60000 : Nat) : ℚ) + ((k / 1000 % 60 : Nat) : ℚ) := by
      have : k / 1000 = 60 * (k / 60000) + k / 1000 % 60 := by omega
      exact_mod_cast this
    have hfmt := formatSecondsToMMmSSsNNNms_floors _ _ _ _ h1 h2 h3
    have hread := convertTimeStringToSeconds_padded (k / 60000) (k / 1000 % 60) ms
      (by omega) (by omega) (by omega)
    refine ⟨?_, ?_, herr⟩
    · rcases hms with hms | ⟨hne, hms⟩
      · left
        have hval : ((k / 60000 : Nat) : ℚ) * 60 + ((k / 1000 % 60 : Nat) : ℚ) + (ms : ℚ) / 1000 =
            (k : ℚ) / 1000 := by
          rw [hms]
          linear_combination (-1 / 1000 : ℚ) * hkq - hq2
        rw [hfmt, hread, hval]
      · right
        refine ⟨hne, ?_⟩
        have hmsq : (ms : ℚ) + 1 = ((k % 1000 : Nat) : ℚ) := by exact_mod_cast hms
        have hval : ((k / 60000 : Nat) : ℚ) * 60 + ((k / 1000 % 60 : Nat) : ℚ) + (ms : ℚ) / 1000 =
            ((k : ℚ) - 1) / 1000 := by
          linear_combination (-1 / 1000 : ℚ) * hkq - hq2 + (1 / 1000 : ℚ) * hmsq
        rw [hfmt, hread, hval]
    · intro h0
      rw [hwhole h0, hkq, h0]
      simp

/-- C29 (witness): 62.5 seconds, that is 62500 milliseconds, is a double; it is
written `01m02s500ms` and read back as 62.5. The double of 3723.004 seconds is
written `62m03s003ms`, one millisecond less. -/
theorem formatSeconds_roundTrip_witness :
    62500 < 1000 * 2 ^ 43 ∧
      (convertTimeStringToSeconds
            (.string (formatSecondsToMMmSSsNNNms
              (some (JS.roundToDouble (((62500 : Nat) : ℚ) / 1000))))) =
          .finite (((62500 : Nat) : ℚ) / 1000) ∨
        (62500 % 1000 ≠ 0 ∧
          convertTimeStringToSeconds
              (.string (formatSecondsToMMmSSsNNNms
                (some (JS.roundToDouble (((62500 : Nat) : ℚ) / 1000))))) =
            .finite ((((62500 : Nat) : ℚ) - 1) / 1000))) ∧
      formatSecondsToMMmSSsNNNms (some (JS.roundToDouble (125 / 2))) = utf16 "01m02s500ms" ∧
      formatSecondsToMMmSSsNNNms (some (JS.roundToDouble (3723004 / 1000))) =
        utf16 "62m03s003ms" :=
  ⟨by norm_num, (formatSeconds_roundTrip 62500 (by norm_num)).1, by decide!, by decide!⟩

/-- C29 (counterexample): the time 1.001, as a double, is a little less than
1.001; its fraction times 1000 is a double below 1, whose floor is 0, so the
text is `00m01s000ms` and the value read back is 1, which is neither the double
nor 1.001. And a time of `6 * 10 ^ 22` seconds, which is a double, has
`10 ^ 21` whole minutes, whose text is `1e+21`: the formatted text is
`1e+21m00s000ms`, which the pattern of `convertTimeStringToSeconds` does not
match, and the value read back is 0. -/
theorem formatSeconds_truncates_ms :
    JS.roundToDouble (1001 / 1000) = 2254051613498933 / 2251799813685248 ∧
      formatSecondsToMMmSSsNNNms (some (JS.roundToDouble (1001 / 1000))) =
        utf16 "00m01s000ms" ∧
      convertTimeStringToSeconds
          (.string (formatSecondsToMMmSSsNNNms (some (JS.roundToDouble (1001 / 1000))))) =
        .finite 1 ∧
      (1 : ℚ) ≠ JS.roundToDouble (1001 / 1000) ∧ (1 : ℚ) ≠ 1001 / 1000 ∧
      JS.roundToDouble (6 * 10 ^ 22) = 6 * 10 ^ 22 ∧
      formatSecondsToMMmSSsNNNms (some (6 * 10 ^ 22)) = utf16 "1e+21m00s000ms" ∧
      convertTimeStringToSeconds (.string (formatSecondsToMMmSSsNNNms (some (6 * 10 ^ 22)))) =
        .finite 0 := by
  have h1 : ⌊JS.roundToDouble ((6 * 10 ^ 22 : ℚ) / 60)⌋ = ((10 ^ 21 : Nat) : Int) := by decide!
  have h2 : ⌊JS.remainder (6 * 10 ^ 22) 60⌋ = ((0 : Nat) : Int) := by decide!
  have h3 : ⌊JS.roundToDouble (JS.remainder (6 * 10 ^ 22) 1 * 1000)⌋ = ((0 : Nat) : Int) := by
    decide!
  have h0 : JS.numberToString ((0 : Nat) : ℚ) = [48] := by simp [JS.numberToString]
  have hfmt : formatSecondsToMMmSSsNNNms (some (6 * 10 ^ 22)) = utf16 "1e+21m00s000ms" := by
    rw [formatSecondsToMMmSSsNNNms_floors _ _ _ _ h1 h2 h3, JS.numberToString_pow21, h0]
    decide
  refine ⟨by decide!, by decide!, by decide!, by decide!, by norm_num, by decide!, hfmt, ?_⟩
  rw [hfmt]
  decide!

end timeUtils

namespace JS

/-- A non-negative integer below 100, padded to two characters, is its two
decimal digits. -/
theorem padStart_two (n : Nat) (hn : n < 100) :
    padStart (numberToString (n : ℚ)) 2 48 = [n / 10 + 48, n % 10 + 48] := by
  rw [numberToString_natCast n (by omega)]
  interval_cases n <;> simp [natToString, padStart]

end JS

namespace LyricItem

/-- The text that `formatTimeInput` gives for a time with whole seconds `q`:
the minutes and the seconds of `q` and the rounded hundredths of the rest, each
padded to two characters. -/
theorem formatTimeInput_eq (t : ℚ) (q : Nat) (h1 : (q : ℚ) ≤ t) (h2 : t < q + 1) :
    formatTimeInput t =
      JS.padStart (JS.numberToString ((q / 60 : Nat) : ℚ)) 2 48 ++ [58] ++
        JS.padStart (JS.numberToString ((q % 60 : Nat) : ℚ)) 2 48 ++ [46] ++
        JS.padStart (JS.numberToString ((JS.round ((t - q) * 100) : Int) : ℚ)) 2 48 := by
  have hq : (q : ℚ) = 60 * ((q / 60 : Nat) : ℚ) + ((q % 60 : Nat) : ℚ) := by
    exact_mod_cast (Nat.div_add_mod q 60).symm
  have hlt : ((q % 60 : Nat) : ℚ) ≤ 59 := by
    have : q % 60 ≤ 59 := by omega
    exact_mod_cast this
  have hnn : (0 : ℚ) ≤ ((q % 60 : Nat) : ℚ) := by positivity
  have hfloor : ⌊t⌋ = (q : Int) := by
    rw [Int.floor_eq_iff]
    exact ⟨by exact_mod_cast h1, by exact_mod_cast h2⟩
  have hmin : ⌊t / 60⌋ = ((q / 60 : Nat) : Int) := by
    rw [Int.floor_eq_iff]
    constructor
    · rw [Int.cast_natCast]
      linarith
    · rw [Int.cast_natCast]
      linarith
  have htr : JS.truncate (t / 60) = ((q / 60 : Nat) : Int) := by
    have h0 : (0 : ℚ) ≤ t / 60 := by
      have : (0 : ℚ) ≤ q := by positivity
      linarith
    unfold JS.truncate
    rw [if_pos h0, hmin]
  have hsec : ⌊JS.remainder t 60⌋ = ((q % 60 : Nat) : Int) := by
    unfold JS.remainder
    rw [htr, Int.floor_eq_iff]
    constructor
    · rw [Int.cast_natCast, Int.cast_natCast]
      linarith
    · rw [Int.cast_natCast, Int.cast_natCast]
      linarith
  unfold formatTimeInput
  simp only [hfloor, hmin, hsec, Int.cast_natCast]

/-- The value that `parseTimeInput` reads from three pairs of digits. -/
theorem parseTimeInput_pairs (m s c : Nat) (hm : m < 100) (hs : s < 100) (hc : c < 100) :
    parseTimeInput ([m / 10 + 48, m % 10 + 48] ++ [58] ++ [s / 10 + 48, s % 10 + 48] ++ [46] ++
        [c / 10 + 48, c % 10 + 48]) = some ((m : ℚ) * 60 + s + (c : ℚ) / 100) := by
  have e1 : JS.isDigit (m / 10 + 48) = true := by simp [JS.isDigit]; omega
  have e2 : JS.isDigit (m % 10 + 48) = true := by simp [JS.isDigit]; omega
  have e3 : JS.isDigit (s / 10 + 48) = true := by simp [JS.isDigit]; omega
  have e4 : JS.isDigit (s % 10 + 48) = true := by simp [JS.isDigit]; omega
  have e5 : JS.isDigit (c / 10 + 48) = true := by simp [JS.isDigit]; omega
  have e6 : JS.isDigit (c % 10 + 48) = true := by simp [JS.isDigit]; omega
  have v : ∀ n : Nat, JS.digitsValue [n / 10 + 48, n % 10 + 48] = n := by
    intro n
    simp [JS.digitsValue]
    omega
  simp only [List.cons_append, List.nil_append, parseTimeInput, e1, e2, e3, e4, e5, e6,
    Bool.and_self, if_true, v]

/-- C28 (evaluation at the failing input): for the time 1.999 `formatTimeInput`
gives `00:01.100`, with the hundredths rounded up to 100 and written with three
digits, and `parseTimeInput` does not accept this text. In general, for a time
`t` with `0 <= t < 6000`: when the fraction of `t` is below 0.995 the text is
accepted and the value read differs from `t` by at most 0.005 (and is `t` for a
whole number of hundredths of a second); when the fraction is 0.995 or more the
text is not accepted. -/
theorem formatTimeInput_hundredths_overflow (t : ℚ) :
    formatTimeInput (1999 / 1000) = utf16 "00:01.100" ∧
      parseTimeInput (formatTimeInput (1999 / 1000)) = none ∧
      (0 ≤ t → t < 6000 → (t - (⌊t⌋ : Int)) * 100 < 199 / 2 →
        ∃ r, parseTimeInput (formatTimeInput t) = some r ∧ |r - t| ≤ 5 / 1000) ∧
      (0 ≤ t → t < 6000 → 199 / 2 ≤ (t - (⌊t⌋ : Int)) * 100 →
        parseTimeInput (formatTimeInput t) = none) ∧
      (∀ c : Nat, c < 600000 →
        parseTimeInput (formatTimeInput ((c : ℚ) / 100)) = some ((c : ℚ) / 100)) ∧
      parseTimeInput (formatTimeInput (125 / 2)) = some (125 / 2) := by
  have key : ∀ u : ℚ, 0 ≤ u → u < 6000 →
      ((u - (⌊u⌋ : Int)) * 100 < 199 / 2 →
        ∃ c : Nat, c < 100 ∧ ((c : ℚ) - 1 / 2 ≤ (u - (⌊u⌋ : Int)) * 100) ∧
          ((u - (⌊u⌋ : Int)) * 100 < (c : ℚ) + 1 / 2) ∧
          parseTimeInput (formatTimeInput u) =
            some (((⌊u⌋.toNat / 60 : Nat) : ℚ) * 60 + ((⌊u⌋.toNat % 60 : Nat) : ℚ) +
              (c : ℚ) / 100)) ∧
      (199 / 2 ≤ (u - (⌊u⌋ : Int)) * 100 → parseTimeInput (formatTimeInput u) = none) := by
    intro u h0 h6
    have hfl0 : 0 ≤ ⌊u⌋ := Int.floor_nonneg.mpr h0
    obtain ⟨q, hq⟩ := Int.eq_ofNat_of_zero_le hfl0
    have h1 : (q : ℚ) ≤ u := by
      have := Int.floor_le u
      rw [hq] at this
      exact_mod_cast this
    have h2 : u < q + 1 := by
      have := Int.lt_floor_add_one u
      rw [hq] at this
      exact_mod_cast this
    have hq6 : q < 6000 := by
      have : (q : ℚ) < 6000 := lt_of_le_of_lt h1 h6
      exact_mod_cast this
    have hqn : ⌊u⌋.toNat = q := by
      rw [hq]
      rfl
    have hm : q / 60 < 100 := by omega
    have hs : q % 60 < 100 := by omega
    rw [hq, Int.toNat_ofNat, formatTimeInput_eq u q h1 h2, JS.padStart_two _ hm,
      JS.padStart_two _ hs]
    simp only [Int.cast_natCast]
    constructor
    · intro hx
      have hr0 : 0 ≤ JS.round ((u - q) * 100) := by
        unfold JS.round
        rw [Int.le_floor]
        simp only [Int.cast_zero]
        linarith
      obtain ⟨c, hc⟩ := Int.eq_ofNat_of_zero_le hr0
      have hfloor := hc
      unfold JS.round at hfloor
      rw [Int.floor_eq_iff] at hfloor
      obtain ⟨lo, hi⟩ := hfloor
      simp only [Int.cast_natCast] at lo hi
      have hc100 : c < 100 := by
        have : (c : ℚ) < 100 := by linarith
        exact_mod_cast this
      refine ⟨c, hc100, by linarith, by linarith, ?_⟩
      rw [hc, Int.cast_natCast, JS.padStart_two _ hc100]
      exact parseTimeInput_pairs _ _ c hm hs hc100
    · intro hx
      have hr : JS.round ((u - q) * 100) = ((100 : Nat) : Int) := by
        unfold JS.round
        rw [Int.floor_eq_iff]
        simp only [Int.cast_natCast, Nat.cast_ofNat]
        constructor <;> linarith
      have h100 : JS.padStart (JS.numberToString ((100 : Nat) : ℚ)) 2 48 = [49, 48, 48] := by
        rw [JS.numberToString_natCast 100 (by norm_num)]
        simp [JS.natToString, JS.padStart]
      rw [hr, Int.cast_natCast, h100]
      rfl
  refine ⟨by decide!, by decide!, ?_, ?_, ?_, by decide!⟩
  · intro h0 h6 hx
    obtain ⟨c, _, lo, hi, hp⟩ := (key t h0 h6).1 hx
    refine ⟨_, hp, ?_⟩
    have hfl0 : 0 ≤ ⌊t⌋ := Int.floor_nonneg.mpr h0
    obtain ⟨q, hq⟩ := Int.eq_ofNat_of_zero_le hfl0
    have hqn : ⌊t⌋.toNat = q := by
      rw [hq]
      rfl
    have hqq : (q : ℚ) = 60 * ((q / 60 : Nat) : ℚ) + ((q % 60 : Nat) : ℚ) := by
      exact_mod_cast (Nat.div_add_mod q 60).symm
    rw [hq] at lo hi
    simp only [Int.cast_natCast] at lo hi
    rw [hqn, abs_le]
    constructor <;> linarith
  · intro h0 h6 hx
    exact (key t h0 h6).2 hx
  · intro c hc
    have h0 : (0 : ℚ) ≤ (c : ℚ) / 100 := by positivity
    have h6 : (c : ℚ) / 100 < 6000 := by
      have : (c : ℚ) < 600000 := by exact_mod_cast hc
      linarith
    have hfl : ⌊(c : ℚ) / 100⌋ = ((c / 100 : Nat) : Int) := by
      have := Rat.floor_natCast_div_natCast c 100
      simpa using this
    have hcc : (c : ℚ) = 100 * ((c / 100 : Nat) : ℚ) + ((c % 100 : Nat) : ℚ) := by
      exact_mod_cast (Nat.div_add_mod c 100).symm
    have hx : ((c : ℚ) / 100 - (⌊(c : ℚ) / 100⌋ : Int)) * 100 = ((c % 100 : Nat) : ℚ) := by
      rw [hfl, Int.cast_natCast]
      linear_combination hcc
    have hlt : ((c % 100 : Nat) : ℚ) ≤ 99 := by
      have : c % 100 ≤ 99 := by omega
      exact_mod_cast this
    obtain ⟨d, _, lo, hi, hp⟩ := (key _ h0 h6).1 (by rw [hx]; linarith)
    rw [hx] at lo hi
    have hd : d = c % 100 := by
      have a1 : (d : ℚ) < ((c % 100 : Nat) : ℚ) + 1 := by linarith
      have a2 : ((c % 100 : Nat) : ℚ) < (d : ℚ) + 1 := by linarith
      have b1 : d < c % 100 + 1 := by exact_mod_cast a1
      have b2 : c % 100 < d + 1 := by exact_mod_cast a2
      omega
    rw [hp, hfl, Int.toNat_ofNat, hd]
    congr 1
    have hqq : ((c / 100 : Nat) : ℚ) =
        60 * ((c / 100 / 60 : Nat) : ℚ) + ((c / 100 % 60 : Nat) : ℚ) := by
      exact_mod_cast (Nat.div_add_mod (c / 100) 60).symm
    linear_combination (-1 : ℚ) * hqq - (1 / 100 : ℚ) * hcc

end LyricItem

namespace geminiService

/-- The chunks pushed by the loop from a state on are the chunks already pushed,
then the chunks from the current one on. -/
theorem foldl_chunkStep (splitDuration : ℚ) (subtitles : List Lyric) (s : ChunkState) :
    (if (subtitles.foldl (chunkStep splitDuration) s).currentChunk.length > 0 then
        (subtitles.foldl (chunkStep splitDuration) s).chunks ++
          [(subtitles.foldl (chunkStep splitDuration) s).currentChunk]
      else (subtitles.foldl (chunkStep splitDuration) s).chunks) =
      s.chunks ++ chunksFrom splitDuration s.currentChunk s.chunkStartTime subtitles := by
  induction subtitles generalizing s with
  | nil =>
    simp only [List.foldl_nil, chunksFrom]
    split <;> simp
  | cons subtitle rest ih =>
    rw [List.foldl_cons, ih]
    unfold chunkStep
    conv_rhs => unfold chunksFrom
    split <;> simp

/-- The chunks from a state of the loop on, when the current chunk, if it is not
empty, starts at `chunkStartTime` and holds subtitles that start less than
`splitDuration` after it: they are the current chunk and the subtitles left, cut
into non-empty chunks that each span less than `splitDuration` and whose first
subtitles are `splitDuration` or more apart. -/
theorem chunksFrom_spec (splitDuration : ℚ) (hd : 0 < splitDuration) (subtitles : List Lyric)
    (currentChunk : List Lyric) (chunkStartTime : ℚ)
    (hempty : currentChunk = [] → ∀ first, subtitles.head? = some first →
      first.start = chunkStartTime)
    (hhead : ∀ first, currentChunk.head? = some first → first.start = chunkStartTime)
    (hin : ∀ s ∈ currentChunk, s.start - chunkStartTime < splitDuration) :
    (chunksFrom splitDuration currentChunk chunkStartTime subtitles).flatten =
        currentChunk ++ subtitles ∧
      (∀ c ∈ chunksFrom splitDuration currentChunk chunkStartTime subtitles, c ≠ []) ∧
      (∀ c ∈ chunksFrom splitDuration currentChunk chunkStartTime subtitles,
        ∀ first, c.head? = some first → ∀ s ∈ c, s.start - first.start < splitDuration) ∧
      List.Chain' (fun c c' : List Lyric => ∀ f f', c.head? = some f → c'.head? = some f' →
        splitDuration ≤ f'.start - f.start)
        (chunksFrom splitDuration currentChunk chunkStartTime subtitles) ∧
      (currentChunk ≠ [] → ∃ c rest,
        chunksFrom splitDuration currentChunk chunkStartTime subtitles = c :: rest ∧
          c.head? = currentChunk.head?) := by
  induction subtitles generalizing currentChunk chunkStartTime with
  | nil =>
    unfold chunksFrom
    by_cases hc : currentChunk.length > 0
    · rw [if_pos hc]
      have hne : currentChunk ≠ [] := by
        intro h
        rw [h] at hc
        simp at hc
      refine ⟨by simp, ?_, ?_, by simp, ?_⟩
      · intro c hcm
        simp only [List.mem_singleton] at hcm
        rw [hcm]
        exact hne
      · intro c hcm first hf s hs
        simp only [List.mem_singleton] at hcm
        rw [hcm] at hf hs
        rw [hhead first hf]
        exact hin s hs
      · intro _
        exact ⟨currentChunk, [], rfl, rfl⟩
    · rw [if_neg hc]
      have he : currentChunk = [] := by
        cases currentChunk with
        | nil => rfl
        | cons a l => simp at hc
      refine ⟨by simp [he], by simp, by simp, by simp, ?_⟩
      intro h
      exact absurd he h
  | cons subtitle rest ih =>
    unfold chunksFrom
    by_cases hcond : subtitle.start - chunkStartTime ≥ splitDuration ∧ currentChunk.length > 0
    · rw [if_pos hcond]
      have hne : currentChunk ≠ [] := by
        intro h
        rw [h] at hcond
        simp at hcond
      obtain ⟨h1, h2, h3, h4, h5⟩ := ih [subtitle] subtitle.start
        (by intro h; simp at h)
        (by intro first hf; simp at hf; rw [← hf])
        (by intro s hs; simp at hs; rw [hs]; simpa using hd)
      obtain ⟨c', rest', hr, hc'⟩ := h5 (by simp)
      refine ⟨?_, ?_, ?_, ?_, ?_⟩
      · simp [h1]
      · intro c hcm
        rcases List.mem_cons.mp hcm with h | h
        · rw [h]
          exact hne
        · exact h2 c h
      · intro c hcm first hf s hs
        rcases List.mem_cons.mp hcm with h | h
        · rw [h] at hf hs
          rw [hhead first hf]
          exact hin s hs
        · exact h3 c h first hf s hs
      · rw [hr]
        rw [hr] at h4
        refine List.Chain'.cons ?_ h4
        intro f f' hf hf'
        rw [hc'] at hf'
        simp at hf'
        rw [← hf', hhead f hf]
        exact hcond.1
      · intro _
        exact ⟨currentChunk, _, rfl, rfl⟩
    · rw [if_neg hcond]
      have hstart : ∀ first, (currentChunk ++ [subtitle]).head? = some first →
          first.start = chunkStartTime := by
        intro first hf
        cases currentChunk with
        | nil =>
          simp at hf
          exact hempty rfl first (by simp [hf])
        | cons a l =>
          simp at hf
          exact hhead first (by simp [hf])
      obtain ⟨h1, h2, h3, h4, h5⟩ := ih (currentChunk ++ [subtitle]) chunkStartTime
        (by intro h; simp at h) hstart
        (by
          intro s hs
          rcases List.mem_append.mp hs with h | h
          · exact hin s h
          · simp at h
            rw [h]
            cases currentChunk with
            | nil =>
              rw [hempty rfl subtitle (by simp)]
              simpa using hd
            | cons a l =>
              have : ¬ subtitle.start - chunkStartTime ≥ splitDuration := by
                intro hge
                exact hcond ⟨hge, by simp⟩
              exact not_le.mp this)
      refine ⟨by simp [h1], h2, h3, h4, ?_⟩
      intro hne
      obtain ⟨c, rest', hr, hc⟩ := h5 (by simp)
      refine ⟨c, rest', hr, ?_⟩
      rw [hc]
      cases currentChunk with
      | nil => exact absurd rfl hne
      | cons a l => rfl

/-- C25: for every non-empty subtitle list and every `splitDuration > 0` the
chunks of `translateSubtitlesByChunks` are a partition of the list that keeps
the order: put end to end they are the list, and no chunk is empty; every
subtitle of a chunk starts less than `splitDuration` after the first subtitle of
the chunk, so that no subtitle inside a chunk could begin one; and the first
subtitle of each further chunk starts `splitDuration` or more after the first
subtitle of the chunk before it. -/
theorem chunks_partition (subtitles : List Lyric) (splitDuration : ℚ)
    (hne : subtitles ≠ []) (hd : 0 < splitDuration) :
    (translateSubtitlesByChunks.chunks subtitles splitDuration).flatten = subtitles ∧
      (∀ c ∈ translateSubtitlesByChunks.chunks subtitles splitDuration, c ≠ []) ∧
      (∀ c ∈ translateSubtitlesByChunks.chunks subtitles splitDuration,
        ∀ first, c.head? = some first → ∀ s ∈ c, s.start - first.start < splitDuration) ∧
      List.Chain' (fun c c' : List Lyric => ∀ f f', c.head? = some f → c'.head? = some f' →
        splitDuration ≤ f'.start - f.start)
        (translateSubtitlesByChunks.chunks subtitles splitDuration) := by
  cases subtitles with
  | nil => exact absurd rfl hne
  | cons first rest =>
    have hstart : (if first.start = 0 then (0 : ℚ) else first.start) = first.start := by
      split
      · next h => exact h.symm
      · rfl
    have heq : translateSubtitlesByChunks.chunks (first :: rest) splitDuration =
        chunksFrom splitDuration [] first.start (first :: rest) := by
      unfold translateSubtitlesByChunks.chunks
      simp only [List.getElem?_cons_zero, hstart]
      rw [foldl_chunkStep]
      rfl
    rw [heq]
    obtain ⟨h1, h2, h3, h4, _⟩ := chunksFrom_spec splitDuration hd (first :: rest) [] first.start
      (by intro _ f hf; simp at hf; rw [← hf])
      (by intro f hf; simp at hf)
      (by intro s hs; simp at hs)
    exact ⟨by simpa using h1, h2, h3, h4⟩

/-- C25 (witness): four subtitles that start at 0, 3, 10 and 11 with a split
duration of 10 give two chunks of two subtitles. -/
theorem chunks_partition_witness :
    ([⟨1, 0, 2, none⟩, ⟨2, 3, 4, none⟩, ⟨3, 10, 12, none⟩, ⟨4, 11, 13, none⟩] : List Lyric) ≠ [] ∧
      (0 : ℚ) < 10 ∧
      (translateSubtitlesByChunks.chunks
          [⟨1, 0, 2, none⟩, ⟨2, 3, 4, none⟩, ⟨3, 10, 12, none⟩, ⟨4, 11, 13, none⟩] 10).flatten =
        [⟨1, 0, 2, none⟩, ⟨2, 3, 4, none⟩, ⟨3, 10, 12, none⟩, ⟨4, 11, 13, none⟩] ∧
      translateSubtitlesByChunks.chunks
          [⟨1, 0, 2, none⟩, ⟨2, 3, 4, none⟩, ⟨3, 10, 12, none⟩, ⟨4, 11, 13, none⟩] 10 =
        [[⟨1, 0, 2, none⟩, ⟨2, 3, 4, none⟩], [⟨3, 10, 12, none⟩, ⟨4, 11, 13, none⟩]] :=
  ⟨by simp, by norm_num,
    (chunks_partition [⟨1, 0, 2, none⟩, ⟨2, 3, 4, none⟩, ⟨3, 10, 12, none⟩, ⟨4, 11, 13, none⟩]
      10 (by simp) (by norm_num)).1,
    by decide!⟩

end geminiService

namespace LyricsDisplay

/-- The active index is `i` when row `i` is active and no row before it is. -/
theorem currentIndex_eq_of_first (lyrics : List Lyric) (t : ℚ) (i : Nat)
    (hact : ActiveAt lyrics t i) (hlt : ∀ j, j < i → ¬ ActiveAt lyrics t j) :
    currentIndex lyrics t = (i : Int) := by
  unfold currentIndex JS.findIndex
  rw [JS.findIndexFrom_eq_ofNat]
  obtain ⟨x, hx⟩ : ∃ x, lyrics[i]? = some x := by
    obtain ⟨x, hx, _⟩ := hact
    exact ⟨x, hx⟩
  refine ⟨i, x, by omega, hx, ?_, ?_⟩
  · rw [Nat.zero_add]
    exact (currentIndex_pred_iff lyrics t i x hx).2 hact
  · intro j' y hj' hy
    rw [Nat.zero_add]
    cases hb : (decide (t ≥ y.start) &&
        (match lyrics[j' + 1]? with
         | some nextLyric => decide (t < nextLyric.start)
         | none => decide (t ≤ y.«end»))) with
    | false => first | exact hb | rfl
    | true => exact absurd ((currentIndex_pred_iff lyrics t j' y hy).1 hb) (hlt j' hj')

/-- In a list whose subtitles have a positive length and do not overlap, a
subtitle ends before or when every later one starts. -/
theorem end_le_start_of_lt (lyrics : List Lyric)
    (hpos : ∀ (i : Nat) (l : Lyric), lyrics[i]? = some l → l.start < l.«end»)
    (hsep : ∀ (i : Nat) (a b : Lyric), lyrics[i]? = some a → lyrics[i + 1]? = some b →
      a.«end» ≤ b.start)
    (j k : Nat) (a b : Lyric) (hjk : j < k) (ha : lyrics[j]? = some a)
    (hb : lyrics[k]? = some b) : a.«end» ≤ b.start := by
  induction k generalizing b with
  | zero => omega
  | succ k ih =>
    by_cases hjk' : j = k
    · subst hjk'
      exact hsep j a b ha hb
    · have hklen : k < lyrics.length := by
        by_contra hc
        rw [List.getElem?_eq_none (by omega)] at hb
        cases hb
      obtain ⟨c, hc⟩ : ∃ c, lyrics[k]? = some c := ⟨lyrics[k], List.getElem?_eq_getElem hklen⟩
      have h1 := ih c (by omega) hc
      have h2 := hpos k c hc
      have h3 := hsep k c b hc hb
      linarith

end LyricsDisplay

namespace VideoPreview

/-- The method `find` returns the element at the first position that satisfies
the callback. -/
theorem find?_first {α : Type} (p : α → Bool) (l : List α) (i : Nat) (x : α)
    (hx : l[i]? = some x) (hp : p x = true)
    (hfirst : ∀ j y, j < i → l[j]? = some y → p y = false) : l.find? p = some x := by
  induction l generalizing i with
  | nil => simp at hx
  | cons a as ih =>
    cases i with
    | zero =>
      simp at hx
      subst hx
      simp [List.find?, hp]
    | succ i =>
      have ha : p a = false := hfirst 0 a (by omega) (by simp)
      simp only [List.find?, ha]
      exact ih i (by simpa using hx)
        (fun j y hj hy => hfirst (j + 1) y (by omega) (by simpa using hy))

/-- C27: in a list whose subtitles satisfy `start < end` and `end <= next start`,
at every time `t` inside subtitle `i` (`start <= t <= end`): when `t` is not at
once the end of a subtitle and the start of the next one, the subtitle found for
the video overlay is subtitle `i` and the active index of the list is `i`; when
`t` is the end of subtitle `j` and the start of subtitle `j + 1`, the overlay
finds subtitle `j`, the active index is `j + 1`, the two subtitles differ, and
`i` is `j` or `j + 1`. -/
theorem overlay_matches_highlight (lyrics : List Lyric) (t : ℚ) (i : Nat) (l : Lyric)
    (hpos : ∀ (i : Nat) (l : Lyric), lyrics[i]? = some l → l.start < l.«end»)
    (hsep : ∀ (i : Nat) (a b : Lyric), lyrics[i]? = some a → lyrics[i + 1]? = some b →
      a.«end» ≤ b.start)
    (hi : lyrics[i]? = some l) (h1 : l.start ≤ t) (h2 : t ≤ l.«end») :
    ((¬ ∃ (j : Nat) (a b : Lyric), lyrics[j]? = some a ∧ lyrics[j + 1]? = some b ∧
          a.«end» = t ∧ b.start = t) →
        currentSubtitle lyrics t = some l ∧ LyricsDisplay.currentIndex lyrics t = (i : Int)) ∧
      (∀ (j : Nat) (a b : Lyric), lyrics[j]? = some a → lyrics[j + 1]? = some b → a.«end» = t →
        b.start = t →
        currentSubtitle lyrics t = some a ∧
          LyricsDisplay.currentIndex lyrics t = ((j + 1 : Nat) : Int) ∧ a ≠ b ∧
          (i = j ∨ i = j + 1)) := by
  have hle := LyricsDisplay.end_le_start_of_lt lyrics hpos hsep
  constructor
  · intro hno
    constructor
    · unfold currentSubtitle
      refine find?_first _ lyrics i l hi (by simp [h1, h2]) ?_
      intro j y hj hy
      have hyl := hle j i y l hj hy hi
      by_contra hp
      simp only [Bool.not_eq_false, Bool.and_eq_true, decide_eq_true_eq] at hp
      have hty : t = y.«end» := le_antisymm hp.2 (by linarith)
      have hls : l.start = t := le_antisymm h1 (by linarith)
      by_cases hji : j + 1 = i
      · subst hji
        exact hno ⟨j, y, l, hy, hi, hty.symm, hls⟩
      · have hlen : j + 1 < lyrics.length := by
          have := @LyricsDisplay.activeAt_lt_length lyrics l.start i
            ⟨l, hi, le_refl _, by
              cases hn : lyrics[i + 1]? with
              | none => exact Or.inr ⟨rfl, le_of_lt (hpos i l hi)⟩
              | some n =>
                refine Or.inl ⟨n, rfl, ?_⟩
                have := hsep i l n hi hn
                have := hpos i l hi
                linarith⟩
          omega
        obtain ⟨c, hc⟩ : ∃ c, lyrics[j + 1]? = some c :=
          ⟨lyrics[j + 1], List.getElem?_eq_getElem hlen⟩
        have a1 := hsep j y c hy hc
        have a2 := hpos (j + 1) c hc
        have a3 := hle (j + 1) i c l (by omega) hc hi
        linarith
    · apply LyricsDisplay.currentIndex_eq_of_first
      · refine ⟨l, hi, h1, ?_⟩
        cases hn : lyrics[i + 1]? with
        | none => exact Or.inr ⟨rfl, h2⟩
        | some n =>
          refine Or.inl ⟨n, rfl, ?_⟩
          have hs := hsep i l n hi hn
          rcases lt_or_eq_of_le (le_trans h2 hs) with h | h
          · exact h
          · exact absurd ⟨i, l, n, hi, hn, le_antisymm (by linarith) h2, h.symm⟩ hno
      · intro j hj hact
        obtain ⟨y, hy, _, hnext⟩ := hact
        rcases hnext with ⟨n, hn, hlt⟩ | ⟨hnone, _⟩
        · by_cases hji : j + 1 = i
          · subst hji
            rw [hi] at hn
            cases hn
            linarith
          · obtain a3 := hle (j + 1) i n l (by omega) hn hi
            have a2 := hpos (j + 1) n hn
            linarith
        · have hlen : i < lyrics.length := by
            by_contra hc
            rw [List.getElem?_eq_none (by omega)] at hi
            cases hi
          rw [List.getElem?_eq_none_iff] at hnone
          omega
  · intro j a b ha hb hae hbs
    have hab : a.start < a.«end» := hpos j a ha
    have hbb : b.start < b.«end» := hpos (j + 1) b hb
    refine ⟨?_, ?_, ?_, ?_⟩
    · unfold currentSubtitle
      refine find?_first _ lyrics j a ha (by simp; constructor <;> linarith) ?_
      intro j' y hj' hy
      have := hle j' j y a hj' hy ha
      simp only [Bool.and_eq_false_iff, decide_eq_false_iff_not, not_le]
      right
      linarith
    · apply LyricsDisplay.currentIndex_eq_of_first
      · refine ⟨b, hb, by linarith, ?_⟩
        cases hn : lyrics[j + 1 + 1]? with
        | none => exact Or.inr ⟨rfl, by linarith⟩
        | some n =>
          refine Or.inl ⟨n, rfl, ?_⟩
          have := hsep (j + 1) b n hb hn
          linarith
      · intro j' hj' hact
        obtain ⟨y, hy, _, hnext⟩ := hact
        rcases hnext with ⟨n, hn, hlt⟩ | ⟨hnone, _⟩
        · by_cases hjj : j' = j
          · subst hjj
            rw [hb] at hn
            cases hn
            linarith
          · have a3 := hle (j' + 1) (j + 1) n b (by omega) hn hb
            have a2 := hpos (j' + 1) n hn
            linarith
        · have hlen : j + 1 < lyrics.length := by
            by_contra hc
            rw [List.getElem?_eq_none (by omega)] at hb
            cases hb
          rw [List.getElem?_eq_none_iff] at hnone
          omega
    · intro h
      rw [h] at hab hae
      linarith
    · by_contra hcon
      have hcon' : i < j ∨ j + 1 < i := by omega
      rcases hcon' with h | h
      · have := hle i j l a h hi ha
        linarith
      · have := hle (j + 1) i b l h hb hi
        linarith

/-- C27 (witness): on the list (0,2), (2,5), (5,8), at time 3 inside the second
subtitle the overlay finds the second subtitle and the active index is 1; at
time 2, the end of the first subtitle and the start of the second, the overlay
finds the first subtitle and the active index is 1. -/
theorem overlay_matches_highlight_witness :
    (LyricsDisplay.scenario[1]? = some ⟨2, 2, 5, none⟩ ∧ (2 : ℚ) ≤ 3 ∧ (3 : ℚ) ≤ 5) ∧
      ((¬ ∃ (j : Nat) (a b : Lyric), LyricsDisplay.scenario[j]? = some a ∧
            LyricsDisplay.scenario[j + 1]? = some b ∧ a.«end» = 3 ∧ b.start = 3) →
        currentSubtitle LyricsDisplay.scenario 3 = some ⟨2, 2, 5, none⟩ ∧
          LyricsDisplay.currentIndex LyricsDisplay.scenario 3 = ((1 : Nat) : Int)) ∧
      currentSubtitle LyricsDisplay.scenario 3 = some ⟨2, 2, 5, none⟩ ∧
      LyricsDisplay.currentIndex LyricsDisplay.scenario 3 = 1 ∧
      currentSubtitle LyricsDisplay.scenario 2 = some ⟨1, 0, 2, none⟩ ∧
      LyricsDisplay.currentIndex LyricsDisplay.scenario 2 = 1 := by
  have hpos : ∀ (i : Nat) (l : Lyric), LyricsDisplay.scenario[i]? = some l →
      l.start < l.«end» := by
    intro i l h
    match i, h with
    | 0, h => simp [LyricsDisplay.scenario] at h; subst h; norm_num
    | 1, h => simp [LyricsDisplay.scenario] at h; subst h; norm_num
    | 2, h => simp [LyricsDisplay.scenario] at h; subst h; norm_num
    | n + 3, h => simp [LyricsDisplay.scenario] at h
  have hsep : ∀ (i : Nat) (a b : Lyric), LyricsDisplay.scenario[i]? = some a →
      LyricsDisplay.scenario[i + 1]? = some b → a.«end» ≤ b.start := by
    intro i a b ha hb
    match i, ha, hb with
    | 0, ha, hb =>
      simp [LyricsDisplay.scenario] at ha hb
      subst ha hb
      norm_num
    | 1, ha, hb =>
      simp [LyricsDisplay.scenario] at ha hb
      subst ha hb
      norm_num
    | n + 2, ha, hb => simp [LyricsDisplay.scenario] at hb
  exact ⟨⟨rfl, by norm_num, by norm_num⟩,
    (overlay_matches_highlight LyricsDisplay.scenario 3 1 ⟨2, 2, 5, none⟩ hpos hsep rfl
      (by norm_num) (by norm_num)).1, by decide!, by decide!, by decide!, by decide!⟩

end VideoPreview

namespace JS

/-- A string of digits has no code unit that is not a digit. -/
theorem not_mem_of_digits (ds : List Nat) (hds : ∀ x ∈ ds, isDigit x = true) (c : Nat)
    (hc : isDigit c = false) : c ∉ ds := by
  intro h
  rw [hds c h] at hc
  cases hc

/-- The decimal literal `int.frac`, with `int` a non-empty string of digits and
`frac` a string of digits, followed by nothing or by an exponent part: what
`unsignedDecimal` reads. -/
theorem unsignedDecimal_point (int frac : List Nat) (hint : ∀ x ∈ int, isDigit x = true)
    (hfrac : ∀ x ∈ frac, isDigit x = true) (hne : int ≠ []) :
    unsignedDecimal (int ++ 46 :: frac) =
        some ((digitsValue int : ℚ) + (digitsValue frac : ℚ) / 10 ^ frac.length) ∧
      ∀ e : List Nat, (∀ x ∈ e, isDigit x = true) → e ≠ [] →
        unsignedDecimal (int ++ 46 :: (frac ++ 101 :: 43 :: e)) =
            some (((digitsValue int : ℚ) + (digitsValue frac : ℚ) / 10 ^ frac.length) *
              10 ^ digitsValue e) ∧
          unsignedDecimal (int ++ 46 :: (frac ++ 101 :: 45 :: e)) =
            some (((digitsValue int : ℚ) + (digitsValue frac : ℚ) / 10 ^ frac.length) /
              10 ^ digitsValue e) := by
  constructor
  · have h1 := takeWhile_digits_append int 46 frac hint (by decide)
    have h2 := takeWhile_digits frac hfrac
    unfold unsignedDecimal
    simp only [h1.1, h1.2, h2.1, h2.2]
    simp [hne]
  · intro e he hene
    have hall : e.all isDigit = true := by
      rw [List.all_eq_true]
      exact he
    constructor
    · have h1 := takeWhile_digits_append int 46 (frac ++ 101 :: 43 :: e) hint (by decide)
      have h2 := takeWhile_digits_append frac 101 (43 :: e) hfrac (by decide)
      unfold unsignedDecimal
      simp only [h1.1, h1.2, h2.1, h2.2]
      simp [hne, hene, hall]
    · have h1 := takeWhile_digits_append int 46 (frac ++ 101 :: 45 :: e) hint (by decide)
      have h2 := takeWhile_digits_append frac 101 (45 :: e) hfrac (by decide)
      unfold unsignedDecimal
      simp only [h1.1, h1.2, h2.1, h2.2]
      simp [hne, hene, hall]

/-- The decimal literal `int` without a point, with `int` a non-empty string of
digits, followed by nothing or by an exponent part: what `unsignedDecimal`
reads. -/
theorem unsignedDecimal_int (int : List Nat) (hint : ∀ x ∈ int, isDigit x = true)
    (hne : int ≠ []) :
    unsignedDecimal int = some (digitsValue int : ℚ) ∧
      ∀ e : List Nat, (∀ x ∈ e, isDigit x = true) → e ≠ [] →
        unsignedDecimal (int ++ 101 :: 43 :: e) =
            some ((digitsValue int : ℚ) * 10 ^ digitsValue e) ∧
          unsignedDecimal (int ++ 101 :: 45 :: e) =
            some ((digitsValue int : ℚ) / 10 ^ digitsValue e) := by
  constructor
  · have h1 := takeWhile_digits int hint
    unfold unsignedDecimal
    simp only [h1.1, h1.2]
    simp [hne, digitsValue]
  · intro e he hene
    have hall : e.all isDigit = true := by
      rw [List.all_eq_true]
      exact he
    constructor
    · have h1 := takeWhile_digits_append int 101 (43 :: e) hint (by decide)
      unfold unsignedDecimal
      simp only [h1.1, h1.2]
      simp [hne, hene, hall, digitsValue]
    · have h1 := takeWhile_digits_append int 101 (45 :: e) hint (by decide)
      unfold unsignedDecimal
      simp only [h1.1, h1.2]
      simp [hne, hene, hall, digitsValue]

/-- The value of a string of zeros is zero. -/
theorem digitsValue_replicate (k : Nat) : digitsValue (List.replicate k 48) = 0 := by
  have := digitsValue_replicate_zero k []
  simpa [digitsValue] using this

/-- The text made from a non-empty string of digits and an exponent reads back,
as a decimal literal, as the value of the digits scaled by the power of ten. -/
theorem unsignedDecimal_decimalForm (digits : List Nat)
    (hd : ∀ x ∈ digits, isDigit x = true) (hne : digits ≠ []) (n : Int) :
    unsignedDecimal (decimalForm digits n) =
      some ((digitsValue digits : ℚ) * (10 : ℚ) ^ (n - (digits.length : Int))) := by
  have h10 : (10 : ℚ) ≠ 0 := by norm_num
  unfold decimalForm
  split
  · -- the digits followed by zeros
    next h =>
    obtain ⟨j, hj⟩ := Int.eq_ofNat_of_zero_le (show 0 ≤ n - (digits.length : Int) by omega)
    have hn : n.toNat - digits.length = j := by omega
    have hz : ∀ x ∈ digits ++ List.replicate j 48, isDigit x = true := by
      intro x hx
      rcases List.mem_append.mp hx with h | h
      · exact hd x h
      · rw [List.eq_of_mem_replicate h]
        rfl
    rw [hn, (unsignedDecimal_int _ hz (by simp [hne])).1, digitsValue_append,
      digitsValue_replicate, hj, zpow_natCast]
    simp
  · split
    · -- the digits with a point inside
      next h1 h =>
      obtain ⟨j, hj⟩ := Int.eq_ofNat_of_zero_le (show 0 ≤ n by omega)
      have hjk : j < digits.length := by omega
      have hj0 : 0 < j := by omega
      have hn : n.toNat = j := by omega
      have htake : ∀ x ∈ digits.take j, isDigit x = true :=
        fun x hx => hd x (List.mem_of_mem_take hx)
      have hdrop : ∀ x ∈ digits.drop j, isDigit x = true :=
        fun x hx => hd x (List.mem_of_mem_drop hx)
      have htne : digits.take j ≠ [] := by
        intro hc
        have := congrArg List.length hc
        simp only [List.length_take, List.length_nil] at this
        omega
      have hsplit : digitsValue digits =
          digitsValue (digits.take j) * 10 ^ (digits.drop j).length +
            digitsValue (digits.drop j) := by
        rw [← digitsValue_append, List.take_append_drop]
      have hlen : (digits.drop j).length = digits.length - j := by simp
      rw [hn, List.append_assoc, List.singleton_append,
        (unsignedDecimal_point _ _ htake hdrop htne).1, hsplit, hlen, hj]
      congr 1
      have hexp : ((j : Int) - (digits.length : Int)) = -((digits.length - j : Nat) : Int) := by
        omega
      rw [hexp, zpow_neg, zpow_natCast]
      push_cast
      field_simp
    · split
      · -- zeros after the point before the digits
        next h1 h2 h =>
        obtain ⟨j, hj⟩ := Int.eq_ofNat_of_zero_le (show 0 ≤ -n by omega)
        have hn : (-n).toNat = j := by omega
        have hz : ∀ x ∈ List.replicate j 48 ++ digits, isDigit x = true := by
          intro x hx
          rcases List.mem_append.mp hx with h | h
          · rw [List.eq_of_mem_replicate h]
            rfl
          · exact hd x h
        have h48 : ∀ x ∈ [48], isDigit x = true := by
          intro x hx
          simp at hx
          rw [hx]
          rfl
        have hform : [48, 46] ++ List.replicate j 48 ++ digits =
            [48] ++ 46 :: (List.replicate j 48 ++ digits) := by simp
        rw [hn, hform, (unsignedDecimal_point _ _ h48 hz (by simp)).1,
          digitsValue_replicate_zero]
        congr 1
        have hexp : n - (digits.length : Int) = -((j + digits.length : Nat) : Int) := by
          omega
        rw [hexp, zpow_neg, zpow_natCast]
        simp [digitsValue]
        field_simp
      · -- the exponent form
        next h1 h2 h3 =>
        have hE : ∀ x ∈ natToString (n - 1).natAbs, isDigit x = true :=
          natToString_digits _
        have hEne : natToString (n - 1).natAbs ≠ [] := by
          intro hc
          unfold natToString at hc
          split at hc
          · simp at hc
          · next h0 =>
            simp at hc
            exact h0 (Nat.digits_eq_nil_iff_eq_zero.mp hc)
        have hEv : digitsValue (natToString (n - 1).natAbs) = (n - 1).natAbs :=
          digitsValue_natToString _
        have hpos : 0 ≤ n - 1 → (((n - 1).natAbs : Nat) : Int) = n - 1 :=
          fun h => Int.natAbs_of_nonneg h
        have hneg : ¬ 0 ≤ n - 1 → (((n - 1).natAbs : Nat) : Int) = -(n - 1) :=
          fun h => Int.ofNat_natAbs_of_nonpos (by omega)
        match digits, hd, hne with
        | [d], hd, _ =>
          have hd1 : ∀ x ∈ [d], isDigit x = true := hd
          have hu := (unsignedDecimal_int [d] hd1 (by simp)).2 _ hE hEne
          simp only []
          by_cases hs : 0 ≤ n - 1
          · rw [if_pos hs]
            refine hu.1.trans ?_
            rw [hEv]
            congr 1
            have hexp : n - (([d] : List Nat).length : Int) = (((n - 1).natAbs : Nat) : Int) := by
              rw [hpos hs]
              rfl
            rw [hexp, zpow_natCast]
          · rw [if_neg hs]
            refine hu.2.trans ?_
            rw [hEv]
            congr 1
            have hexp : n - (([d] : List Nat).length : Int) =
                -(((n - 1).natAbs : Nat) : Int) := by
              rw [hneg hs, neg_neg]
              rfl
            rw [hexp, zpow_neg, zpow_natCast]
            field_simp
        | d :: r :: rest, hd, _ =>
          have hd1 : ∀ x ∈ [d], isDigit x = true := fun x hx => hd x (by simp at hx; simp [hx])
          have hr : ∀ x ∈ r :: rest, isDigit x = true := fun x hx => hd x (by simp at hx ⊢; tauto)
          have hu := (unsignedDecimal_point [d] (r :: rest) hd1 hr (by simp)).2 _ hE hEne
          have hsplit : digitsValue (d :: r :: rest) =
              digitsValue [d] * 10 ^ (r :: rest).length + digitsValue (r :: rest) := by
            rw [← digitsValue_append]
            rfl
          have hlen : ((d :: r :: rest).length : Int) = ((r :: rest).length : Int) + 1 := by
            simp
          simp only []
          by_cases hs : 0 ≤ n - 1
          · rw [if_pos hs]
            refine hu.1.trans ?_
            rw [hEv, hsplit]
            congr 1
            have hexp : n - ((d :: r :: rest).length : Int) =
                (((n - 1).natAbs : Nat) : Int) - (((r :: rest).length : Nat) : Int) := by
              rw [hpos hs, hlen]
              ring
            rw [hexp, zpow_sub₀ h10, zpow_natCast, zpow_natCast]
            push_cast
            field_simp
          · rw [if_neg hs]
            refine hu.2.trans ?_
            rw [hEv, hsplit]
            congr 1
            have hexp : n - ((d :: r :: rest).length : Int) =
                -((((n - 1).natAbs + (r :: rest).length : Nat)) : Int) := by
              rw [Nat.cast_add, hneg hs, hlen]
              ring
            rw [hexp, zpow_neg, zpow_natCast, pow_add]
            push_cast
            field_simp
            left
            ring


/-- A text made of digits and points, followed by nothing or by an exponent part
`e`, a sign and digits, does not end with `e`, and a minus sign in it comes right
after `e`. -/
theorem shape_of_parts (text mantissa : List Nat)
    (hm : ∀ c ∈ mantissa, isDigit c = true ∨ c = 46)
    (hparts : text = mantissa ∨ ∃ s e, (s = 43 ∨ s = 45) ∧ (∀ c ∈ e, isDigit c = true) ∧
      e ≠ [] ∧ text = mantissa ++ 101 :: s :: e) :
    (∀ w, text ≠ w ++ [101]) ∧ (∀ u v, text = u ++ 45 :: v → ∃ w, u = w ++ [101]) := by
  have hm45 : 45 ∉ mantissa := by
    intro h
    rcases hm 45 h with h | h
    · exact absurd h (by decide)
    · exact absurd h (by decide)
  have hm101 : 101 ∉ mantissa := by
    intro h
    rcases hm 101 h with h | h
    · exact absurd h (by decide)
    · exact absurd h (by decide)
  rcases hparts with h | ⟨s, e, hs, he, hene, h⟩
  · subst h
    constructor
    · intro w hw
      apply hm101
      rw [hw]
      simp
    · intro u v huv
      exfalso
      apply hm45
      rw [huv]
      simp
  · have he45 : 45 ∉ e := not_mem_of_digits e he 45 (by decide)
    have he101 : 101 ∉ e := not_mem_of_digits e he 101 (by decide)
    subst h
    constructor
    · intro w hw
      have h1 : (mantissa ++ 101 :: s :: e).getLast? = e.getLast? := by
        rw [List.getLast?_append_of_ne_nil _ (by simp), List.getLast?_cons_cons]
        cases e with
        | nil => exact absurd rfl hene
        | cons x xs => rw [List.getLast?_cons_cons]
      have h2 : (w ++ [101]).getLast? = some 101 := by simp
      rw [hw, h2] at h1
      exact he101 (List.mem_of_getLast?_eq_some h1.symm)
    · intro u v huv
      have h' : (mantissa ++ [101]) ++ s :: e = u ++ 45 :: v := by
        rw [← huv]
        simp
      rw [List.append_eq_append_iff] at h'
      rcases h' with ⟨a, ha, hb⟩ | ⟨c, hc, hd⟩
      · -- u = mantissa ++ [101] ++ a
        cases a with
        | nil =>
          refine ⟨mantissa, ?_⟩
          simpa using ha
        | cons x a =>
          exfalso
          simp only [List.cons_append, List.cons.injEq] at hb
          apply he45
          rw [hb.2]
          simp
      · -- mantissa ++ [101] = u ++ c
        cases c with
        | nil =>
          refine ⟨mantissa, ?_⟩
          simpa using hc.symm
        | cons x c =>
          exfalso
          simp only [List.cons_append, List.cons.injEq] at hd
          have hx : x = 45 := hd.1.symm
          subst hx
          have hmem : 45 ∈ mantissa ++ [101] := by
            rw [hc]
            simp
          rcases List.mem_append.mp hmem with h | h
          · exact hm45 h
          · simp at h

/-- The text made from a string of digits and an exponent does not end with `e`,
and a minus sign in it comes right after `e`. -/
theorem decimalForm_shape (digits : List Nat) (hd : ∀ x ∈ digits, isDigit x = true)
    (n : Int) :
    (∀ w, decimalForm digits n ≠ w ++ [101]) ∧
      (∀ u v, decimalForm digits n = u ++ 45 :: v → ∃ w, u = w ++ [101]) := by
  have hE : ∀ x ∈ natToString (n - 1).natAbs, isDigit x = true := natToString_digits _
  have hEne : natToString (n - 1).natAbs ≠ [] := by
    intro hc
    unfold natToString at hc
    split at hc
    · simp at hc
    · next h0 =>
      simp at hc
      exact h0 (Nat.digits_eq_nil_iff_eq_zero.mp hc)
  have hs : ∀ P : Prop, [Decidable P] → ((if P then 43 else 45 : Nat) = 43 ∨
      (if P then 43 else 45 : Nat) = 45) := by
    intro P _
    by_cases h : P
    · simp [h]
    · simp [h]
  unfold decimalForm
  split
  · apply shape_of_parts _ (digits ++ List.replicate (n.toNat - digits.length) 48) _ (Or.inl rfl)
    intro c hc
    rcases List.mem_append.mp hc with h | h
    · exact Or.inl (hd c h)
    · rw [List.eq_of_mem_replicate h]
      exact Or.inl rfl
  · split
    · apply shape_of_parts _ (digits.take n.toNat ++ [46] ++ digits.drop n.toNat) _ (Or.inl rfl)
      intro c hc
      simp only [List.mem_append, List.mem_singleton] at hc
      rcases hc with (h | h) | h
      · exact Or.inl (hd c (List.mem_of_mem_take h))
      · exact Or.inr h
      · exact Or.inl (hd c (List.mem_of_mem_drop h))
    · split
      · apply shape_of_parts _ ([48, 46] ++ List.replicate (-n).toNat 48 ++ digits) _
          (Or.inl rfl)
        intro c hc
        simp only [List.mem_append, List.mem_cons, List.mem_singleton, List.not_mem_nil,
          or_false] at hc
        rcases hc with ((h | h) | h) | h
        · rw [h]
          exact Or.inl rfl
        · exact Or.inr h
        · rw [List.eq_of_mem_replicate h]
          exact Or.inl rfl
        · exact Or.inl (hd c h)
      · match digits, hd with
        | [], _ =>
          exact shape_of_parts [] [] (by simp) (Or.inl rfl)
        | [d], hd =>
          apply shape_of_parts _ [d] _
            (Or.inr ⟨_, natToString (n - 1).natAbs, hs _, hE, hEne, rfl⟩)
          intro c hc
          exact Or.inl (hd c hc)
        | d :: r :: rest, hd =>
          apply shape_of_parts _ (d :: 46 :: r :: rest) _
            (Or.inr ⟨_, natToString (n - 1).natAbs, hs _, hE, hEne, rfl⟩)
          intro c hc
          simp only [List.mem_cons] at hc
          rcases hc with h | h | h | h
          · exact Or.inl (hd c (by simp [h]))
          · exact Or.inr h
          · exact Or.inl (hd c (by simp [h]))
          · exact Or.inl (hd c (by simp [h]))


/-- The search for the number of decimal places finds a power of ten that the
denominator divides, when there is one in its range. -/
theorem decimalPlacesFrom_spec (den : Nat) (fuel m : Nat)
    (h : ∃ j, m ≤ j ∧ j ≤ m + fuel ∧ den ∣ 10 ^ j) :
    den ∣ 10 ^ decimalPlacesFrom den fuel m := by
  induction fuel generalizing m with
  | zero =>
    obtain ⟨j, h1, h2, h3⟩ := h
    have : j = m := by omega
    subst this
    exact h3
  | succ fuel ih =>
    unfold decimalPlacesFrom
    split
    · next hmod => exact Nat.dvd_of_mod_eq_zero hmod
    · next hmod =>
      apply ih
      obtain ⟨j, h1, h2, h3⟩ := h
      refine ⟨j, ?_, by omega, h3⟩
      by_contra hc
      have : j = m := by omega
      subst this
      exact hmod (Nat.mod_eq_zero_of_dvd h3)

/-- A denominator that divides a power of ten divides the power of ten of its
own size. -/
theorem dvd_pow_self_of_dvd_pow (den M : Nat) (hden : den ≠ 0) (h : den ∣ 10 ^ M) :
    den ∣ 10 ^ den := by
  rw [← Nat.factorization_le_iff_dvd hden (by positivity)] at h ⊢
  rw [Nat.factorization_pow] at h ⊢
  intro p
  have hp := h p
  simp only [Finsupp.smul_apply, smul_eq_mul] at hp ⊢
  by_cases h0 : (Nat.factorization 10) p = 0
  · rw [h0] at hp ⊢
    simpa using hp
  · have hlt := Nat.factorization_lt p hden
    have h1 : 1 ≤ (Nat.factorization 10) p := Nat.one_le_iff_ne_zero.mpr h0
    calc den.factorization p ≤ den := le_of_lt hlt
      _ = den * 1 := (Nat.mul_one den).symm
      _ ≤ den * (Nat.factorization 10) p := Nat.mul_le_mul_left den h1

/-- The denominator of a number with a finite decimal expansion divides the
power of ten of its number of decimal places. -/
theorem decimalPlaces_spec (x : ℚ) (hx : IsDecimal x) : x.den ∣ 10 ^ decimalPlaces x := by
  obtain ⟨M, hM⟩ := hx
  unfold decimalPlaces
  apply decimalPlacesFrom_spec
  exact ⟨x.den, Nat.zero_le _, by omega, dvd_pow_self_of_dvd_pow x.den M x.den_nz hM⟩

/-- A positive number with a finite decimal expansion, scaled by the power of
ten of its decimal places, is a positive integer. -/
theorem scaled_natAbs (x : ℚ) (hx : IsDecimal x) (hpos : 0 < x) :
    (((x * 10 ^ decimalPlaces x).num.natAbs : Nat) : ℚ) = x * 10 ^ decimalPlaces x ∧
      (x * 10 ^ decimalPlaces x).num.natAbs ≠ 0 := by
  obtain ⟨c, hc⟩ := decimalPlaces_spec x hx
  have hden : (x.den : ℚ) ≠ 0 := by exact_mod_cast x.den_nz
  have hscaled : x * 10 ^ decimalPlaces x = ((x.num * (c : Int) : Int) : ℚ) := by
    have h10 : ((10 : ℚ) ^ decimalPlaces x) = (x.den : ℚ) * (c : ℚ) := by
      exact_mod_cast hc
    rw [h10, ← mul_assoc, Rat.mul_den_eq_num]
    push_cast
    rfl
  have hnum : 0 < x.num := Rat.num_pos.mpr hpos
  have hcpos : 0 < c := by
    rcases Nat.eq_zero_or_pos c with h | h
    · rw [h, Nat.mul_zero] at hc
      exact absurd hc (by positivity)
    · exact h
  have hprod : 0 < x.num * (c : Int) := by
    have : (0 : Int) < (c : Int) := by exact_mod_cast hcpos
    positivity
  rw [hscaled, Rat.intCast_num]
  constructor
  · have habs : (((x.num * (c : Int)).natAbs : Nat) : Int) = x.num * (c : Int) :=
      Int.natAbs_of_nonneg (le_of_lt hprod)
    calc (((x.num * (c : Int)).natAbs : Nat) : ℚ)
        = ((((x.num * (c : Int)).natAbs : Nat) : Int) : ℚ) := (Int.cast_natCast _).symm
      _ = ((x.num * (c : Int) : Int) : ℚ) := by rw [habs]
  · intro h0
    rw [Int.natAbs_eq_zero] at h0
    omega


/-- The text of a positive number with a finite decimal expansion reads back as
the number, does not end with `e`, and has a minus sign only right after `e`. -/
theorem positiveToString_spec (x : ℚ) (hx : IsDecimal x) (hpos : 0 < x) :
    unsignedDecimal (positiveToString x) = some x ∧
      (∀ w, positiveToString x ≠ w ++ [101]) ∧
      (∀ u v, positiveToString x = u ++ 45 :: v → ∃ w, u = w ++ [101]) := by
  obtain ⟨hcast, hne0⟩ := scaled_natAbs x hx hpos
  have hstrip := strip_append_replicate (natToString (x * 10 ^ decimalPlaces x).num.natAbs) 48
  have hall := natToString_digits (x * 10 ^ decimalPlaces x).num.natAbs
  have hval := digitsValue_natToString (x * 10 ^ decimalPlaces x).num.natAbs
  obtain ⟨d, ds, hhead, hd1, hd2⟩ := natToString_pos _ hne0
  generalize hm : decimalPlaces x = m at *
  generalize ha : natToString (x * 10 ^ m).num.natAbs = all at *
  generalize hD : (all.reverse.dropWhile (· == 48)).reverse = digits at *
  have hdig : ∀ c ∈ digits, isDigit c = true := by
    intro c hc
    apply hall
    rw [← hstrip]
    exact List.mem_append_left _ hc
  have hDne : digits ≠ [] := by
    intro h
    rw [h, hhead] at hstrip
    simp only [List.nil_append, List.length_nil, Nat.sub_zero, List.length_cons,
      List.replicate_succ, List.cons.injEq] at hstrip
    omega
  have hshape := decimalForm_shape digits hdig ((all.length : Int) - (m : Int))
  have hvalue := unsignedDecimal_decimalForm digits hdig hDne ((all.length : Int) - (m : Int))
  have hpt : positiveToString x = decimalForm digits ((all.length : Int) - (m : Int)) := by
    unfold positiveToString
    simp only [hm, ha, hD]
  rw [hpt]
  refine ⟨?_, hshape.1, hshape.2⟩
  rw [hvalue]
  congr 1
  have h10 : (10 : ℚ) ≠ 0 := by norm_num
  have hlen : all.length = digits.length + (all.length - digits.length) := by
    have := congrArg List.length hstrip
    simp only [List.length_append, List.length_replicate] at this
    omega
  have hdv : (digitsValue all : ℚ) =
      (digitsValue digits : ℚ) * 10 ^ (all.length - digits.length) := by
    have h1 : digitsValue all =
        digitsValue digits * 10 ^ (all.length - digits.length) := by
      conv_lhs => rw [← hstrip]
      rw [digitsValue_append, digitsValue_replicate, List.length_replicate, Nat.add_zero]
    exact_mod_cast h1
  have hexp : ((all.length : Int) - (m : Int) - (digits.length : Int)) =
      ((all.length - digits.length : Nat) : Int) - (m : Int) := by
    omega
  rw [hexp, zpow_sub₀ h10, zpow_natCast, zpow_natCast, ← mul_div_assoc, ← hdv, hval, hcast]
  field_simp

/-- The denominator of the opposite of a number is the denominator of the
number. -/
theorem isDecimal_neg (x : ℚ) (hx : IsDecimal x) : IsDecimal (-x) := by
  obtain ⟨m, hm⟩ := hx
  exact ⟨m, by simpa using hm⟩

/-- The text of a number with a finite decimal expansion does not end with `e`,
and a minus sign in it is the first code unit or comes right after `e`. -/
theorem numberToString_shape (x : ℚ) (hx : IsDecimal x) :
    (∀ w, numberToString x ≠ w ++ [101]) ∧
      (∀ u v, numberToString x = u ++ 45 :: v → u = [] ∨ ∃ w, u = w ++ [101]) := by
  unfold numberToString
  split
  · constructor
    · intro w hw
      have := congrArg List.getLast? hw
      simp at this
    · intro u v huv
      have h45 : 45 ∈ ([48] : List Nat) := by
        rw [huv]
        simp
      simp at h45
  · split
    · next h0 hneg =>
      obtain ⟨_, h1, h2⟩ := positiveToString_spec (-x) (isDecimal_neg x hx) (by linarith)
      constructor
      · intro w hw
        cases w with
        | nil => simp at hw
        | cons c w =>
          simp only [List.cons_append, List.cons.injEq] at hw
          exact h1 w hw.2
      · intro u v huv
        cases u with
        | nil => exact Or.inl rfl
        | cons c u =>
          right
          simp only [List.cons_append, List.cons.injEq] at huv
          obtain ⟨w, hw⟩ := h2 u v huv.2
          exact ⟨c :: w, by rw [hw]; rfl⟩
    · next h0 hneg =>
      have hpos : 0 < x := lt_of_le_of_ne (not_lt.mp hneg) (Ne.symm h0)
      obtain ⟨_, h1, h2⟩ := positiveToString_spec x hx hpos
      exact ⟨h1, fun u v huv => Or.inr (h2 u v huv)⟩

/-- Two numbers with a finite decimal expansion and the same text are equal. -/
theorem numberToString_injective (x y : ℚ) (hx : IsDecimal x) (hy : IsDecimal y)
    (h : numberToString x = numberToString y) : x = y := by
  have key : ∀ a b : ℚ, IsDecimal a → IsDecimal b → a ≤ b →
      numberToString a = numberToString b → a = b := by
    intro a b ha hb hab hs
    unfold numberToString at hs
    by_cases ha0 : a = 0
    · by_cases hb0 : b = 0
      · rw [ha0, hb0]
      · have hbpos : 0 < b := lt_of_le_of_ne (ha0 ▸ hab) (Ne.symm hb0)
        rw [if_pos ha0, if_neg hb0, if_neg (not_lt.mpr (le_of_lt hbpos))] at hs
        have hv := (positiveToString_spec b hb hbpos).1
        rw [← hs] at hv
        have h48 : unsignedDecimal [48] = some 0 := by
          have := (unsignedDecimal_int [48] (by intro c hc; simp at hc; rw [hc]; rfl)
            (by simp)).1
          simpa [digitsValue] using this
        rw [h48] at hv
        simp only [Option.some.injEq] at hv
        rw [ha0, hv]
    · by_cases haneg : a < 0
      · by_cases hb0 : b = 0
        · rw [if_neg ha0, if_pos haneg, if_pos hb0] at hs
          simp at hs
        · by_cases hbneg : b < 0
          · rw [if_neg ha0, if_pos haneg, if_neg hb0, if_pos hbneg] at hs
            simp only [List.cons.injEq, true_and] at hs
            have h1 := (positiveToString_spec (-a) (isDecimal_neg a ha) (by linarith)).1
            have h2 := (positiveToString_spec (-b) (isDecimal_neg b hb) (by linarith)).1
            rw [hs, h2] at h1
            simp only [Option.some.injEq] at h1
            linarith
          · have hbpos : 0 < b := lt_of_le_of_ne (not_lt.mp hbneg) (Ne.symm hb0)
            rw [if_neg ha0, if_pos haneg, if_neg hb0, if_neg hbneg] at hs
            obtain ⟨w, hw⟩ := (positiveToString_spec b hb hbpos).2.2 []
              (positiveToString (-a)) hs.symm
            simp at hw
      · have hapos : 0 < a := lt_of_le_of_ne (not_lt.mp haneg) (Ne.symm ha0)
        have hbpos : 0 < b := lt_of_lt_of_le hapos hab
        rw [if_neg ha0, if_neg haneg, if_neg (ne_of_gt hbpos),
          if_neg (not_lt.mpr (le_of_lt hbpos))] at hs
        have h1 := (positiveToString_spec a ha hapos).1
        have h2 := (positiveToString_spec b hb hbpos).1
        rw [hs, h2] at h1
        simp only [Option.some.injEq] at h1
        exact h1.symm
  rcases le_total x y with hxy | hxy
  · exact key x y hx hy hxy h
  · exact (key y x hy hx hxy h.symm).symm

end JS

namespace subtitleUtils

/-- Two starts with a finite decimal expansion and two texts give the same key
only when the starts are equal and the trimmed texts are equal. -/
theorem uniqueKey_injective (x y : ℚ) (t u : JSString) (hx : JS.IsDecimal x)
    (hy : JS.IsDecimal y) (h : uniqueKey x t = uniqueKey y u) : x = y ∧ JS.trim t = JS.trim u := by
  have key : ∀ (a b : ℚ) (v w : JSString), JS.IsDecimal a → JS.IsDecimal b →
      ∀ c, JS.numberToString a = JS.numberToString b ++ c →
        c ++ 45 :: v = 45 :: w → JS.numberToString a = JS.numberToString b := by
    intro a b v w ha hb c hc hcv
    cases c with
    | nil => simpa using hc
    | cons z c =>
      exfalso
      simp only [List.cons_append, List.cons.injEq] at hcv
      have hz : z = 45 := hcv.1
      subst hz
      rcases (JS.numberToString_shape a ha).2 _ _ hc with h0 | ⟨p, hp⟩
      · have hne : JS.numberToString b ≠ [] := by
          unfold JS.numberToString
          split
          · simp
          · split
            · simp
            · next h1 h2 =>
              have hpos : 0 < b := lt_of_le_of_ne (not_lt.mp h2) (Ne.symm h1)
              intro hnil
              have := (JS.positiveToString_spec b hb hpos).1
              rw [hnil] at this
              simp [JS.unsignedDecimal] at this
        exact hne h0
      · exact (JS.numberToString_shape b hb).1 p hp
  unfold uniqueKey at h
  simp only [List.append_assoc, List.singleton_append] at h
  have hnum : JS.numberToString x = JS.numberToString y := by
    rcases List.append_eq_append_iff.mp h with ⟨c, hc, hcv⟩ | ⟨c, hc, hcv⟩
    · exact (key y x _ _ hy hx c hc hcv.symm).symm
    · exact key x y _ _ hx hy c hc hcv.symm
  refine ⟨JS.numberToString_injective x y hx hy hnum, ?_⟩
  rw [hnum] at h
  have := List.append_cancel_left h
  simpa using this

/-- The map after the loop over the subtitles: its keys are distinct; each entry
is a subtitle of the list with a non-empty text, under the key of its start and
text, and no subtitle with a non-empty text before it in the list has that key;
and the key of every subtitle of the list with a non-empty text is in the map. -/
theorem foldl_uniqueMapSet_spec (subtitles : List Lyric) :
    ((subtitles.foldl uniqueMapSet []).map Prod.fst).Nodup ∧
      (∀ k s, (k, s) ∈ subtitles.foldl uniqueMapSet [] →
        ∃ (text : JSString) (idx : Nat), s.text = some text ∧ text ≠ [] ∧
          k = uniqueKey s.start text ∧ subtitles[idx]? = some s ∧
          ∀ (idx' : Nat) (g : Lyric) (tg : JSString), idx' < idx → subtitles[idx']? = some g →
            g.text = some tg → tg ≠ [] → uniqueKey g.start tg ≠ k) ∧
      (∀ (e : Lyric) (te : JSString), e ∈ subtitles → e.text = some te → te ≠ [] →
        ∃ s, (uniqueKey e.start te, s) ∈ subtitles.foldl uniqueMapSet []) := by
  induction subtitles using List.reverseRecOn with
  | nil => simp
  | append_singleton p x ih =>
    obtain ⟨ih1, ih2, ih3⟩ := ih
    rw [List.foldl_append, List.foldl_cons, List.foldl_nil]
    have hold : ∀ k s, (k, s) ∈ p.foldl uniqueMapSet [] →
        ∃ (text : JSString) (idx : Nat), s.text = some text ∧ text ≠ [] ∧
          k = uniqueKey s.start text ∧ (p ++ [x])[idx]? = some s ∧
          ∀ (idx' : Nat) (g : Lyric) (tg : JSString), idx' < idx →
            (p ++ [x])[idx']? = some g → g.text = some tg → tg ≠ [] →
            uniqueKey g.start tg ≠ k := by
      intro k s hks
      obtain ⟨text, idx, h1, h2, h3, h4, h5⟩ := ih2 k s hks
      have hidx : idx < p.length := by
        by_contra hc
        rw [List.getElem?_eq_none (by omega)] at h4
        cases h4
      refine ⟨text, idx, h1, h2, h3, ?_, ?_⟩
      · rw [List.getElem?_append_left hidx]
        exact h4
      · intro idx' g tg hlt hg
        rw [List.getElem?_append_left (by omega)] at hg
        exact h5 idx' g tg hlt hg
    have hmemold : ∀ (e : Lyric) (te : JSString), e ∈ p → e.text = some te → te ≠ [] →
        ∃ s, (uniqueKey e.start te, s) ∈ p.foldl uniqueMapSet [] := ih3
    generalize hm : List.foldl uniqueMapSet [] p = m at *
    unfold uniqueMapSet
    cases htx : x.text with
    | none =>
      simp only []
      refine ⟨ih1, hold, ?_⟩
      intro e te he hte hne
      rcases List.mem_append.mp he with h | h
      · exact hmemold e te h hte hne
      · simp only [List.mem_singleton] at h
        rw [h, htx] at hte
        cases hte
    | some text =>
      simp only []
      by_cases hempty : text = []
      · rw [if_pos hempty]
        refine ⟨ih1, hold, ?_⟩
        intro e te he hte hne
        rcases List.mem_append.mp he with h | h
        · exact hmemold e te h hte hne
        · simp only [List.mem_singleton] at h
          rw [h, htx] at hte
          simp only [Option.some.injEq] at hte
          exact absurd (hte ▸ hempty) hne
      · rw [if_neg hempty]
        by_cases hany : m.any (fun entry => entry.1 == uniqueKey x.start text) = true
        · rw [if_pos hany]
          refine ⟨ih1, hold, ?_⟩
          intro e te he hte hne
          rcases List.mem_append.mp he with h | h
          · exact hmemold e te h hte hne
          · simp only [List.mem_singleton] at h
            rw [h, htx] at hte
            simp only [Option.some.injEq] at hte
            subst hte
            rw [List.any_eq_true] at hany
            obtain ⟨⟨k, s⟩, hmem, hk⟩ := hany
            simp only [beq_iff_eq] at hk
            subst h
            exact ⟨s, hk ▸ hmem⟩
        · rw [if_neg hany]
          have hnotin : ∀ s, (uniqueKey x.start text, s) ∉ m := by
            intro s hs
            apply hany
            rw [List.any_eq_true]
            exact ⟨(uniqueKey x.start text, s), hs, by simp⟩
          refine ⟨?_, ?_, ?_⟩
          · rw [List.map_append, List.nodup_append]
            refine ⟨ih1, by simp, ?_⟩
            intro k hk1 hk2
            simp only [List.map_cons, List.map_nil, List.mem_singleton] at hk2
            rw [List.mem_map] at hk1
            obtain ⟨⟨k', s⟩, hmem, hk'⟩ := hk1
            simp only at hk'
            rw [hk', hk2] at hmem
            exact hnotin s hmem
          · intro k s hks
            rcases List.mem_append.mp hks with h | h
            · exact hold k s h
            · simp only [List.mem_singleton, Prod.mk.injEq] at h
              obtain ⟨hk, hs⟩ := h
              subst hs
              refine ⟨text, p.length, htx, hempty, hk, by simp, ?_⟩
              intro idx' g tg hlt hg hgt hgne hkey
              rw [List.getElem?_append_left hlt] at hg
              obtain ⟨s', hs'⟩ := hmemold g tg (List.getElem?_mem hg) hgt hgne
              rw [hkey, hk] at hs'
              exact hnotin s' hs'
          · intro e te he hte hne
            rcases List.mem_append.mp he with h | h
            · obtain ⟨s, hs⟩ := hmemold e te h hte hne
              exact ⟨s, List.mem_append_left _ hs⟩
            · simp only [List.mem_singleton] at h
              rw [h, htx] at hte
              simp only [Option.some.injEq] at hte
              subst hte
              subst h
              exact ⟨e, List.mem_append_right _ (by simp)⟩

/-- After the reassignment, the subtitle at position `i` is the subtitle that was
there, with the id `n + i + 1`. -/
theorem reassignIdsFrom_getElem? (l : List Lyric) (n i : Nat) :
    (reassignIdsFrom n l)[i]? = (l[i]?).map fun s => { s with id := n + i + 1 } := by
  induction l generalizing n i with
  | nil => simp [reassignIdsFrom]
  | cons x xs ih =>
    cases i with
    | zero => simp [reassignIdsFrom]
    | succ i =>
      simp only [reassignIdsFrom, List.getElem?_cons_succ]
      rw [ih]
      congr 1
      funext s
      congr 1
      omega

/-- Reassigning the ids keeps a list sorted by start. -/
theorem reassignIdsFrom_sorted (l : List Lyric) (n : Nat) (h : List.Sorted startLE l) :
    List.Sorted startLE (reassignIdsFrom n l) := by
  have htimes := reassignIdsFrom_times l n
  have hstarts : (reassignIdsFrom n l).map (·.start) = l.map (·.start) := by
    have := congrArg (List.map Prod.fst) htimes
    simpa [List.map_map] using this
  have hle : List.Pairwise (· ≤ ·) (l.map (·.start)) := by
    rw [List.pairwise_map]
    exact h
  rw [← hstarts, List.pairwise_map] at hle
  exact hle

/-- For every array whose elements have finite numbers as `start`,
`deduplicateAndSortSubtitles` returns a list sorted by non-decreasing start in
which the element at position `i` (from 0) has the id `i + 1`; for an argument
that is not an array and for the empty array it returns the empty list. -/
theorem deduplicateAndSortSubtitles_sorted_of_finite (subtitles : Option (List Lyric)) :
    List.Sorted startLE (deduplicateAndSortSubtitles subtitles) ∧
      (∀ (i : Nat) (s : Lyric), (deduplicateAndSortSubtitles subtitles)[i]? = some s →
        s.id = i + 1) ∧
      deduplicateAndSortSubtitles none = [] ∧
      deduplicateAndSortSubtitles (some []) = [] ∧
      deduplicateAndSortSubtitles (some [⟨7, 5, 6, some (utf16 "b")⟩,
          ⟨9, 1, 2, some (utf16 "a")⟩, ⟨4, 5, 8, some (utf16 " b ")⟩, ⟨3, 0, 1, none⟩]) =
        [⟨1, 1, 2, some (utf16 "a")⟩, ⟨2, 5, 6, some (utf16 "b")⟩] := by
  refine ⟨?_, ?_, rfl, rfl, by decide!⟩
  · cases subtitles with
    | none => exact List.sorted_nil
    | some l =>
      unfold deduplicateAndSortSubtitles
      simp only []
      split
      · exact List.sorted_nil
      · exact reassignIdsFrom_sorted _ 0 (List.sorted_insertionSort startLE _)
  · intro i s hs
    cases subtitles with
    | none => simp [deduplicateAndSortSubtitles] at hs
    | some l =>
      unfold deduplicateAndSortSubtitles at hs
      simp only [] at hs
      split at hs
      · simp at hs
      · have := reassignIdsFrom_id _ 0 i s hs
        omega

/-- C22: for every array of subtitles whose starts are numbers with a finite
decimal expansion, no two entries of the result of `deduplicateAndSortSubtitles`
have both the same start and the same trimmed text; every entry of the input with
a non-empty text is represented in the result (up to its id) by the first entry
of the input with a non-empty text that has that start and that trimmed text; and
the key of the map is the same for two entries only when the starts are equal and
the trimmed texts are equal. -/
theorem deduplicateAndSortSubtitles_unique (subtitles : List Lyric)
    (hdec : ∀ s ∈ subtitles, JS.IsDecimal s.start) :
    (∀ (i j : Nat) (a b : Lyric) (ta tb : JSString),
        (deduplicateAndSortSubtitles (some subtitles))[i]? = some a →
        (deduplicateAndSortSubtitles (some subtitles))[j]? = some b →
        a.text = some ta → b.text = some tb → a.start = b.start → JS.trim ta = JS.trim tb →
        i = j) ∧
      (∀ (e : Lyric) (te : JSString), e ∈ subtitles → e.text = some te → te ≠ [] →
        ∃ (k : Nat) (f : Lyric) (tf : JSString) (r : Lyric),
          subtitles[k]? = some f ∧ f.text = some tf ∧ tf ≠ [] ∧ f.start = e.start ∧
            JS.trim tf = JS.trim te ∧
            (∀ (k' : Nat) (g : Lyric) (tg : JSString), k' < k → subtitles[k']? = some g →
              g.text = some tg → tg ≠ [] → ¬ (g.start = e.start ∧ JS.trim tg = JS.trim te)) ∧
            r ∈ deduplicateAndSortSubtitles (some subtitles) ∧ r = { f with id := r.id }) ∧
      (∀ (x y : ℚ) (t u : JSString), JS.IsDecimal x → JS.IsDecimal y →
        (uniqueKey x t = uniqueKey y u ↔ x = y ∧ JS.trim t = JS.trim u)) := by
  obtain ⟨hnodup, hentries, hcover⟩ := foldl_uniqueMapSet_spec subtitles
  have hres : ∀ i : Nat, (deduplicateAndSortSubtitles (some subtitles))[i]? =
      ((sortByStart ((subtitles.foldl uniqueMapSet []).map (·.2)))[i]?).map
        fun s => { s with id := i + 1 } := by
    intro i
    unfold deduplicateAndSortSubtitles
    simp only []
    split
    · next h0 =>
      have hnil : subtitles = [] := List.length_eq_zero.mp h0
      subst hnil
      simp [sortByStart]
    · rw [reassignIdsFrom_getElem?]
      congr 1
      funext s
      congr 1
      omega
  generalize hm : subtitles.foldl uniqueMapSet [] = m at *
  have hperm : (sortByStart (m.map (·.2))).Perm (m.map (·.2)) :=
    List.perm_insertionSort startLE _
  have hkeys : (m.map (·.2)).map (fun s : Lyric => uniqueKey s.start (s.text.getD [])) =
      m.map Prod.fst := by
    rw [List.map_map]
    apply List.map_congr_left
    intro ⟨k, s⟩ hks
    obtain ⟨text, _, h1, _, h3, _⟩ := hentries k s hks
    simp only [Function.comp, h1, Option.getD_some]
    exact h3.symm
  have hsnodup : ((sortByStart (m.map (·.2))).map
      (fun s : Lyric => uniqueKey s.start (s.text.getD []))).Nodup := by
    rw [(hperm.map _).nodup_iff, hkeys]
    exact hnodup
  refine ⟨?_, ?_, ?_⟩
  · intro i j a b ta tb ha hb hta htb hstart htrim
    rw [hres] at ha hb
    obtain ⟨a', ha', haa⟩ := Option.map_eq_some'.mp ha
    obtain ⟨b', hb', hbb⟩ := Option.map_eq_some'.mp hb
    have ha_text : a'.text = some ta := by rw [← haa] at hta; exact hta
    have hb_text : b'.text = some tb := by rw [← hbb] at htb; exact htb
    have ha_start : a'.start = a.start := by rw [← haa]
    have hb_start : b'.start = b.start := by rw [← hbb]
    have hkey : uniqueKey a'.start (a'.text.getD []) = uniqueKey b'.start (b'.text.getD []) := by
      rw [ha_text, hb_text, ha_start, hb_start, hstart]
      simp only [Option.getD_some, uniqueKey, htrim]
    have hi : ((sortByStart (m.map (·.2))).map
        (fun s : Lyric => uniqueKey s.start (s.text.getD [])))[i]? =
        some (uniqueKey a'.start (a'.text.getD [])) := by
      rw [List.getElem?_map, ha']
      rfl
    have hj : ((sortByStart (m.map (·.2))).map
        (fun s : Lyric => uniqueKey s.start (s.text.getD [])))[j]? =
        some (uniqueKey a'.start (a'.text.getD [])) := by
      rw [List.getElem?_map, hb', hkey]
      rfl
    have hilt := (List.getElem?_eq_some_iff.mp hi).1
    have hjlt := (List.getElem?_eq_some_iff.mp hj).1
    have hieq := (List.getElem?_eq_some_iff.mp hi).2
    have hjeq := (List.getElem?_eq_some_iff.mp hj).2
    exact (List.Nodup.getElem_inj_iff hsnodup).mp (hieq.trans hjeq.symm)
  · intro e te he hte hne
    obtain ⟨s, hs⟩ := hcover e te he hte hne
    obtain ⟨ts, idx, h1, h2, h3, h4, h5⟩ := hentries _ s hs
    have hsmem : s ∈ subtitles := List.getElem?_mem h4
    obtain ⟨hstart, htrim⟩ := uniqueKey_injective e.start s.start te ts (hdec e he)
      (hdec s hsmem) h3
    have hsS : s ∈ sortByStart (m.map (·.2)) := by
      rw [hperm.mem_iff, List.mem_map]
      exact ⟨(_, s), hs, rfl⟩
    obtain ⟨i, hi⟩ := List.getElem?_of_mem hsS
    refine ⟨idx, s, ts, { s with id := i + 1 }, h4, h1, h2, hstart.symm, htrim.symm, ?_, ?_, rfl⟩
    · intro k' g tg hlt hg hgt hgne hsame
      apply h5 k' g tg hlt hg hgt hgne
      simp only [uniqueKey, hsame.1, hsame.2]
    · apply @List.getElem?_mem _ _ i
      rw [hres, hi]
      rfl
  · intro x y t u hx hy
    constructor
    · exact uniqueKey_injective x y t u hx hy
    · rintro ⟨h1, h2⟩
      simp only [uniqueKey, h1, h2]

/-- C22 (witness): the entries with starts 5.5, 1, 5.5 and texts `b`, `a`, ` b `:
the third has the start and the trimmed text of the first and is not in the
result. -/
theorem deduplicateAndSortSubtitles_unique_witness :
    (∀ s ∈ ([⟨7, 11 / 2, 6, some (utf16 "b")⟩, ⟨9, 1, 2, some (utf16 "a")⟩,
        ⟨4, 11 / 2, 8, some (utf16 " b ")⟩] : List Lyric), JS.IsDecimal s.start) ∧
      (∀ (x y : ℚ) (t u : JSString), JS.IsDecimal x → JS.IsDecimal y →
        (uniqueKey x t = uniqueKey y u ↔ x = y ∧ JS.trim t = JS.trim u)) ∧
      uniqueKey (11 / 2) (utf16 " b ") = utf16 "5.5-b" ∧
      deduplicateAndSortSubtitles (some [⟨7, 11 / 2, 6, some (utf16 "b")⟩,
          ⟨9, 1, 2, some (utf16 "a")⟩, ⟨4, 11 / 2, 8, some (utf16 " b ")⟩]) =
        [⟨1, 1, 2, some (utf16 "a")⟩, ⟨2, 11 / 2, 6, some (utf16 "b")⟩] := by
  have h1 : JS.IsDecimal (11 / 2) := ⟨1, by decide!⟩
  have h2 : JS.IsDecimal 1 := ⟨0, by decide!⟩
  have hdec : ∀ s ∈ ([⟨7, 11 / 2, 6, some (utf16 "b")⟩, ⟨9, 1, 2, some (utf16 "a")⟩,
      ⟨4, 11 / 2, 8, some (utf16 " b ")⟩] : List Lyric), JS.IsDecimal s.start := by
    intro s hs
    simp only [List.mem_cons, List.mem_singleton, List.not_mem_nil, or_false] at hs
    rcases hs with h | h | h
    · rw [h]
      exact h1
    · rw [h]
      exact h2
    · rw [h]
      exact h1
  exact ⟨hdec, (deduplicateAndSortSubtitles_unique _ hdec).2.2, by decide!, by decide!⟩


/-- Whether a key is in the map does not depend on the values of the map. -/
theorem any_key_map {α β : Type} (f : JSString × α → JSString × β) (hf : ∀ e, (f e).1 = e.1)
    (key : JSString) (m : List (JSString × α)) :
    (m.map f).any (fun entry => entry.1 == key) = m.any (fun entry => entry.1 == key) := by
  induction m with
  | nil => rfl
  | cons x xs ih => simp only [List.map_cons, List.any_cons, ih, hf]

/-- On a subtitle with a finite start, the callback of the general function does
what the callback on such subtitles does. -/
theorem uniqueMapSet_ofLyric (m : List (JSString × Lyric)) (s : Lyric) :
    anyStart.uniqueMapSet (m.map fun e => (e.1, anyStart.ofLyric e.2)) (anyStart.ofLyric s) =
      (uniqueMapSet m s).map fun e => (e.1, anyStart.ofLyric e.2) := by
  have hkey : ∀ text, (JS.Number.finite s.start).toText ++ [45] ++ JS.trim text =
      uniqueKey s.start text := fun _ => rfl
  unfold anyStart.uniqueMapSet uniqueMapSet
  cases htext : s.text with
  | none => simp [anyStart.ofLyric, htext]
  | some text =>
    have h1 : (anyStart.ofLyric s).start = .number (.finite s.start) := rfl
    have h2 : (anyStart.ofLyric s).text = some text := htext
    simp only [h1, h2, hkey]
    rw [any_key_map (fun e : JSString × Lyric => (e.1, anyStart.ofLyric e.2)) (fun _ => rfl)]
    by_cases h3 : text = []
    · simp [h3]
    · simp only [h3, if_false]
      by_cases h4 : m.any (fun entry => entry.1 == uniqueKey s.start text) = true
      · simp [h4]
      · simp [h4]

/-- On subtitles with finite starts, the map built by the general function is the
map built on such subtitles. -/
theorem foldl_uniqueMapSet_ofLyric (l : List Lyric) (m : List (JSString × Lyric)) :
    (l.map anyStart.ofLyric).foldl anyStart.uniqueMapSet
        (m.map fun e => (e.1, anyStart.ofLyric e.2)) =
      (l.foldl uniqueMapSet m).map fun e => (e.1, anyStart.ofLyric e.2) := by
  induction l generalizing m with
  | nil => rfl
  | cons s rest ih =>
    simp only [List.map_cons, List.foldl_cons]
    rw [uniqueMapSet_ofLyric, ih]

/-- On finite starts the order of the comparator is the order of the starts. -/
theorem compareLE_ofLyric (a b : Lyric) :
    anyStart.compareLE (anyStart.ofLyric a) (anyStart.ofLyric b) ↔ startLE a b := by
  simp only [anyStart.compareLE, anyStart.ofLyric, JS.Number.sub, startLE]
  constructor <;> intro h <;> linarith

/-- On subtitles with finite starts, the reassignment of the ids of the general
function is the reassignment on such subtitles. -/
theorem reassignIdsFrom_ofLyric (l : List Lyric) (n : Nat) :
    anyStart.reassignIdsFrom n (l.map anyStart.ofLyric) =
      (reassignIdsFrom n l).map anyStart.ofLyric := by
  induction l generalizing n with
  | nil => rfl
  | cons s rest ih =>
    simp only [List.map_cons, anyStart.reassignIdsFrom, reassignIdsFrom, ih]
    rfl

/-- On an array whose elements all have a finite number as `start`, the general
function `deduplicateAndSortSubtitles` is the function on such subtitles. -/
theorem deduplicateAndSortSubtitles_ofLyric (l : List Lyric) :
    anyStart.deduplicateAndSortSubtitles (some (l.map anyStart.ofLyric)) =
      (deduplicateAndSortSubtitles (some l)).map anyStart.ofLyric := by
  unfold anyStart.deduplicateAndSortSubtitles deduplicateAndSortSubtitles
  simp only [List.length_map]
  split
  · rfl
  · have hfold := foldl_uniqueMapSet_ofLyric l []
    simp only [List.map_nil] at hfold
    rw [hfold, List.map_map]
    have hcomp : ((fun x : JSString × anyStart.Subtitle => x.2) ∘
        fun e : JSString × Lyric => (e.1, anyStart.ofLyric e.2)) =
        (anyStart.ofLyric ∘ fun e : JSString × Lyric => e.2) := rfl
    rw [hcomp, ← List.map_map]
    unfold anyStart.sortByStart sortByStart
    rw [← List.map_insertionSort startLE anyStart.compareLE anyStart.ofLyric _
      (fun a _ b _ => (compareLE_ofLyric a b).symm)]
    exact reassignIdsFrom_ofLyric _ 0

/-- After the reassignment of the general function, the element at position `i`
has the id `n + i + 1`. -/
theorem anyStart_reassignIdsFrom_id (l : List anyStart.Subtitle) (n i : Nat)
    (s : anyStart.Subtitle) (h : (anyStart.reassignIdsFrom n l)[i]? = some s) :
    s.id = n + i + 1 := by
  induction l generalizing n i with
  | nil => simp [anyStart.reassignIdsFrom] at h
  | cons x xs ih =>
    cases i with
    | zero =>
      simp only [anyStart.reassignIdsFrom, List.getElem?_cons_zero, Option.some.injEq] at h
      rw [← h]
    | succ i =>
      simp only [anyStart.reassignIdsFrom, List.getElem?_cons_succ] at h
      have := ih (n + 1) i h
      omega

/-- A list of subtitles with finite starts that is sorted by start is sorted by
`<=` of the starts as elements of the array. -/
theorem sortedByStart_ofLyric (l : List Lyric) (h : List.Sorted startLE l) :
    anyStart.SortedByStart (l.map anyStart.ofLyric) := by
  unfold anyStart.SortedByStart
  rw [List.pairwise_map]
  refine List.Pairwise.imp ?_ h
  intro a b hab
  simp only [anyStart.startLessEq, anyStart.ofLyric, JS.Number.greaterEq, decide_eq_true_eq]
  exact hab

/-- C21 (evaluation at the failing input): for the array of the subtitles
`{start: NaN, text: 'a'}` and `{start: 1, text: 'b'}`, whose starts are both of
type number, `deduplicateAndSortSubtitles` returns the two subtitles in this
order with the ids 1 and 2, and the result is not sorted by non-decreasing start
(`NaN <= 1` is false), nor would it be in the other order (`1 <= NaN` is false).
For every array the element of the result at position `i` (from 0) has the id
`i + 1`; an argument that is not an array and the empty array give the empty
list; and for every array whose elements all have finite numbers as `start` the
result is sorted by non-decreasing start. -/
theorem deduplicateAndSortSubtitles_nan_start (subtitles : Option (List anyStart.Subtitle))
    (lyrics : List Lyric) :
    anyStart.deduplicateAndSortSubtitles
        (some [⟨7, .number .nan, 1, some (utf16 "a")⟩,
          ⟨9, .number (.finite 1), 2, some (utf16 "b")⟩]) =
        [⟨1, .number .nan, 1, some (utf16 "a")⟩, ⟨2, .number (.finite 1), 2, some (utf16 "b")⟩] ∧
      ¬ anyStart.SortedByStart
        [⟨1, .number .nan, 1, some (utf16 "a")⟩, ⟨2, .number (.finite 1), 2, some (utf16 "b")⟩] ∧
      ¬ anyStart.SortedByStart
        [⟨2, .number (.finite 1), 2, some (utf16 "b")⟩, ⟨1, .number .nan, 1, some (utf16 "a")⟩] ∧
      (∀ (i : Nat) (s : anyStart.Subtitle),
        (anyStart.deduplicateAndSortSubtitles subtitles)[i]? = some s → s.id = i + 1) ∧
      anyStart.deduplicateAndSortSubtitles none = [] ∧
      anyStart.deduplicateAndSortSubtitles (some []) = [] ∧
      anyStart.SortedByStart
        (anyStart.deduplicateAndSortSubtitles (some (lyrics.map anyStart.ofLyric))) := by
  refine ⟨by with_unfolding_all rfl, ?_, ?_, ?_, rfl, rfl, ?_⟩
  · simp [anyStart.SortedByStart, anyStart.startLessEq, JS.Number.greaterEq]
  · simp [anyStart.SortedByStart, anyStart.startLessEq, JS.Number.greaterEq]
  · intro i s hs
    cases subtitles with
    | none => simp [anyStart.deduplicateAndSortSubtitles] at hs
    | some l =>
      unfold anyStart.deduplicateAndSortSubtitles at hs
      simp only [] at hs
      split at hs
      · simp at hs
      · have := anyStart_reassignIdsFrom_id _ 0 i s hs
        omega
  · rw [deduplicateAndSortSubtitles_ofLyric]
    apply sortedByStart_ofLyric
    unfold deduplicateAndSortSubtitles
    simp only []
    split
    · exact List.sorted_nil
    · exact reassignIdsFrom_sorted _ 0 (List.sorted_insertionSort startLE _)

end subtitleUtils

namespace structuredJsonParser

/-- The first loop leaves `allEmpty` true exactly when every item is empty. -/
theorem emptyCheck_all (items : List Item) :
    (emptyCheck items).1 = true ↔ ∀ item ∈ items, isEmptyItem item = true := by
  induction items with
  | nil => simp [emptyCheck]
  | cons item rest ih =>
    unfold emptyCheck
    by_cases h : isEmptyItem item = true
    · simp [h, ih]
    · simp [h]

/-- An empty item without `index` gives no subtitle in the third loop: both
times are `00m00s000ms`, which convert to 0, and the text is blank. -/
theorem processItem_empty (i : Nat) (item : Item) (hindex : item.index = none)
    (h : isEmptyItem item = true) : processItem i item = none := by
  unfold isEmptyItem at h
  simp only [Bool.and_eq_true, decide_eq_true_eq] at h
  obtain ⟨⟨hs, he⟩, hb⟩ := h
  have hz : timeUtils.convertTimeStringToSeconds (.string (utf16 "00m00s000ms")) =
      .finite 0 := by decide!
  have ht : truthy (some (utf16 "00m00s000ms")) = true := by decide
  unfold processItem
  simp only [hindex, hs, he, ht, hb, hz, Option.isSome_none, Bool.false_and, Bool.and_self,
    Option.getD_some, if_true, Bool.false_eq_true, if_false]
  rfl

/-- The second loop skips only items that give no subtitle: the third loop from
the start index gives what it gives from the first item. -/
theorem startIndexFrom_spec (items : List Item) (i : Nat)
    (hindex : ∀ item ∈ items, item.index = none) :
    (∀ s, startIndexFrom i items = some s →
        ∃ k, s = i + k ∧ convertFrom s (items.drop k) = convertFrom i items) ∧
      (startIndexFrom i items = none → ∀ item ∈ items, isEmptyItem item = true) := by
  induction items generalizing i with
  | nil => simp [startIndexFrom]
  | cons item rest ih =>
    unfold startIndexFrom
    by_cases h : isEmptyItem item = true
    · simp only [h, Bool.not_true, Bool.false_eq_true, if_false]
      obtain ⟨ih1, ih2⟩ := ih (i + 1) (fun x hx => hindex x (List.mem_cons_of_mem _ hx))
      constructor
      · intro s hs
        obtain ⟨k, hk, hconv⟩ := ih1 s hs
        refine ⟨k + 1, by omega, ?_⟩
        rw [List.drop_succ_cons, hconv]
        conv_rhs => unfold convertFrom
        rw [processItem_empty i item (hindex item (by simp)) h]
        rfl
      · intro hnone x hx
        rcases List.mem_cons.mp hx with hx | hx
        · rw [hx]
          exact h
        · exact ih2 hnone x hx
    · simp only [h, Bool.not_false, if_true]
      constructor
      · intro s hs
        simp only [Option.some.injEq] at hs
        exact ⟨0, by omega, by rw [← hs]; rfl⟩
      · intro hc
        cases hc

/-- The third loop gives, in the order of the items, the subtitle of each item
that has one. -/
theorem convertFrom_eq_filterMap (items : List Item) (i : Nat) :
    convertFrom i items = (items.enumFrom i).filterMap fun p => processItem p.1 p.2 := by
  induction items generalizing i with
  | nil => rfl
  | cons item rest ih =>
    unfold convertFrom
    rw [ih (i + 1), List.enumFrom_cons, List.filterMap_cons]
    cases processItem i item <;> rfl

/-- C26 (amended): for every non-empty structured-JSON array whose items have no
`index`, `parseStructuredJsonResponse` fails with an error exactly when every
item has `startTime = endTime = '00m00s000ms'` and a blank text; otherwise it
returns, in the order of the input, the subtitle of each item that gives one. An
item with both timestamps gives a subtitle with the converted times, the text of
the item and the 1-based position as id, unless both times convert to 0 and the
text is blank; an item without one of the timestamps that has a text gives a
subtitle with start and end 0, the text of the item, and as id
`parseInt(item.id)` (called without a radix), or the 1-based position when that
is NaN or 0; every other
item gives none. -/
theorem parseStructuredJsonResponse_regular (items : List Item) (hne : items ≠ [])
    (hindex : ∀ item ∈ items, item.index = none) :
    ((∃ message, parseStructuredJsonResponse items = .error message) ↔
        ∀ item ∈ items, isEmptyItem item = true) ∧
      ((¬ ∀ item ∈ items, isEmptyItem item = true) →
        parseStructuredJsonResponse items =
          .ok ((items.enumFrom 0).filterMap fun p => processItem p.1 p.2)) ∧
      (∀ (i : Nat) (item : Item), item ∈ items →
        processItem i item =
          if truthy item.startTime && truthy item.endTime then
            if (timeUtils.convertTimeStringToSeconds
                  (.string (item.startTime.getD []))).strictEquals 0 &&
                (timeUtils.convertTimeStringToSeconds
                  (.string (item.endTime.getD []))).strictEquals 0 &&
                blankText item.text then none
            else
              some ⟨i + 1,
                timeUtils.convertTimeStringToSeconds (.string (item.startTime.getD [])),
                timeUtils.convertTimeStringToSeconds (.string (item.endTime.getD [])),
                item.text.getD [], none, none⟩
          else if truthy item.text then
            some ⟨idOr item.id i, .finite 0, .finite 0, item.text.getD [], none,
              some (idOr item.id i)⟩
          else none) := by
  have htiming : isTimingOnlyFormat items = false := by
    unfold isTimingOnlyFormat
    cases items with
    | nil => rfl
    | cons first rest =>
      simp only [List.getElem?_cons_zero]
      rw [hindex first (by simp)]
      rfl
  have hall : allEmpty items = (emptyCheck items).1 := by
    unfold allEmpty
    rw [htiming]
    rfl
  have hok : (¬ ∀ item ∈ items, isEmptyItem item = true) →
      parseStructuredJsonResponse items =
        .ok ((items.enumFrom 0).filterMap fun p => processItem p.1 p.2) := by
    intro hnot
    have hfalse : allEmpty items = false := by
      rw [hall]
      cases hc : (emptyCheck items).1 with
      | false => rfl
      | true => exact absurd ((emptyCheck_all items).mp hc) hnot
    have hstart : convertFrom (startIndex items) (items.drop (startIndex items)) =
        convertFrom 0 items := by
      obtain ⟨h1, h2⟩ := startIndexFrom_spec items 0 hindex
      unfold startIndex
      rw [htiming]
      simp only [Bool.false_eq_true, if_false]
      cases hs : startIndexFrom 0 items with
      | none => exact absurd (h2 hs) hnot
      | some s =>
        obtain ⟨k, hk, hconv⟩ := h1 s hs
        have hsk : s = k := by omega
        subst hsk
        simpa using hconv
    unfold parseStructuredJsonResponse parseArray
    rw [hfalse]
    simp only [Bool.false_eq_true, if_false]
    rw [hstart, convertFrom_eq_filterMap]
  refine ⟨?_, hok, ?_⟩
  · constructor
    · rintro ⟨message, hmsg⟩
      by_contra hnot
      rw [hok hnot] at hmsg
      cases hmsg
    · intro hemp
      have htrue : allEmpty items = true := by
        rw [hall]
        exact (emptyCheck_all items).mpr hemp
      unfold parseStructuredJsonResponse parseArray
      rw [htrue]
      exact ⟨_, rfl⟩
  · intro i item hmem
    unfold processItem
    rw [hindex item hmem]
    simp only [Option.isSome_none, Bool.false_and, Bool.false_eq_true, if_false]
    have htext : (if truthy item.text = true then item.text.getD [] else []) =
        item.text.getD [] := by
      cases htx : item.text with
      | none => rfl
      | some s =>
        by_cases hs : s = []
        · simp [truthy, hs]
        · simp [truthy, hs]
    rw [htext]

/-- C26 (witness): an array of an empty item and an item from 1 to 2.5 seconds
with the text `a` gives one subtitle, with id 2; an array of one empty item gives
the error; and an item that has only the text `hi` and the id `0x1F` gives a
subtitle with the id 31, which `parseInt` without a radix reads as a hexadecimal
number. -/
theorem parseStructuredJsonResponse_regular_witness :
    ([⟨none, some (utf16 "00m00s000ms"), some (utf16 "00m00s000ms"), some (utf16 " "), none⟩,
        ⟨none, some (utf16 "00m01s000ms"), some (utf16 "00m02s500ms"), some (utf16 "a"),
          none⟩] : List Item) ≠ [] ∧
      ((∃ message, parseStructuredJsonResponse
          [⟨none, some (utf16 "00m00s000ms"), some (utf16 "00m00s000ms"), some (utf16 " "),
              none⟩,
            ⟨none, some (utf16 "00m01s000ms"), some (utf16 "00m02s500ms"), some (utf16 "a"),
              none⟩] = .error message) ↔
        ∀ item ∈ ([⟨none, some (utf16 "00m00s000ms"), some (utf16 "00m00s000ms"),
              some (utf16 " "), none⟩,
            ⟨none, some (utf16 "00m01s000ms"), some (utf16 "00m02s500ms"), some (utf16 "a"),
              none⟩] : List Item), isEmptyItem item = true) ∧
      parseStructuredJsonResponse
          [⟨none, some (utf16 "00m00s000ms"), some (utf16 "00m00s000ms"), some (utf16 " "),
              none⟩,
            ⟨none, some (utf16 "00m01s000ms"), some (utf16 "00m02s500ms"), some (utf16 "a"),
              none⟩] =
        .ok [⟨2, .finite 1, .finite (5 / 2), utf16 "a", none, none⟩] ∧
      parseStructuredJsonResponse
          [⟨none, some (utf16 "00m00s000ms"), some (utf16 "00m00s000ms"), some (utf16 " "),
            none⟩] =
        .error (utf16 ("Failed to parse structured JSON response: " ++
          "No valid subtitles found in the response. " ++
          "All subtitles have empty text and 00m00s000ms timestamps.")) ∧
      parseStructuredJsonResponse [⟨none, none, none, some (utf16 "hi"), some (utf16 "0x1F")⟩] =
        .ok [⟨31, .finite 0, .finite 0, utf16 "hi", none, some 31⟩] :=
  ⟨by simp,
    (parseStructuredJsonResponse_regular _ (by simp)
      (by
        intro item hitem
        simp only [List.mem_cons, List.mem_singleton, List.not_mem_nil, or_false] at hitem
        rcases hitem with h | h <;> rw [h])).1,
    by with_unfolding_all rfl, by with_unfolding_all rfl, by with_unfolding_all rfl⟩

/-- C26 (counterexample): an array of one item that has only the text `hello`
gives one subtitle, from 0 to 0, although the item has no timestamps; and an
array of one item with the times `0m0s0ms` and an empty text gives no subtitle,
although the item has both timestamps and its times are not `00m00s000ms`. -/
theorem parseStructuredJsonResponse_not_only_timestamps :
    parseStructuredJsonResponse [⟨none, none, none, some (utf16 "hello"), none⟩] =
        .ok [⟨1, .finite 0, .finite 0, utf16 "hello", none, some 1⟩] ∧
      specGivesSubtitle ⟨none, none, none, some (utf16 "hello"), none⟩ = false ∧
      parseStructuredJsonResponse
          [⟨none, some (utf16 "0m0s0ms"), some (utf16 "0m0s0ms"), some (utf16 ""), none⟩] =
        .ok [] ∧
      specGivesSubtitle ⟨none, some (utf16 "0m0s0ms"), some (utf16 "0m0s0ms"), some (utf16 ""),
        none⟩ = true := by
  refine ⟨by with_unfolding_all rfl, by decide, by with_unfolding_all rfl, by decide⟩

end structuredJsonParser
